import Mathlib

/-! An indexed min-heap priority queue (`src/minqueue.h`).

A shallow embedding of the C++ class template `minqueue<TKey, TValue>` and a
verification development about it.

Modelling conventions.

* The C++ `int` fields and locals (`Size`, `Capacity`, every index) are Lean
  `Int`s.  No arithmetic of the class leaves the range of `int` as long as
  `2 * Capacity + 2` is representable, so no wrap-around is modelled.
* `HeapArray` (a raw `KeyValuePair*`) is a total map from index to entry.  The
  allocated part is `0 .. Capacity - 1`; the live part is `0 .. Size - 1`.
* `UMap` (an `unordered_map<TKey, int>`) is a map from key to `Option Int`;
  `none` means that the key is not in the map.
* The template parameters are linearly ordered types; only `<` and `==` are
  used by the code.
* A `while` loop is a function by recursion on a fuel argument that returns
  `none` when the fuel runs out; the function that embeds the C++ member passes
  a number of steps that is shown to be enough.
* A `throw` is the outcome `Outcome.thrown`, which carries the state of the
  object at the moment of the throw.
-/

set_option autoImplicit false
set_option linter.unusedSectionVars false
set_option linter.unusedVariables false

/-! ## The embedding of `src/minqueue.h` -/

/-- The two standard exception classes thrown by the class, with their message. -/
inductive Exception where
  | runtime_error (what : String)
  | logic_error (what : String)
deriving DecidableEq, Repr

/-- The nested `struct KeyValuePair { TKey Key; TValue Value; }`. -/
structure KeyValuePair (K V : Type) where
  Key : K
  Value : V
deriving DecidableEq, Repr

/-- The data members of `minqueue<TKey, TValue>`. -/
structure minqueue (K V : Type) where
  HeapArray : Int → KeyValuePair K V
  Capacity : Int
  Size : Int
  UMap : K → Option Int

/-- How a call of a public member function ends: it returns (new state and
result), it throws (state at the throw and exception), or a loop of the model
ran out of fuel. -/
inductive Outcome (K V α : Type) where
  | returned (q : minqueue K V) (a : α)
  | thrown (q : minqueue K V) (e : Exception)
  | diverged

namespace Outcome

variable {K V α : Type}

/-- The state of the object after the call, whether it returned or threw. -/
def state : Outcome K V α → Option (minqueue K V)
  | returned q _ => some q
  | thrown q _ => some q
  | diverged => none

/-- The value returned by the call, when it returned. -/
def value : Outcome K V α → Option α
  | returned _ a => some a
  | _ => none

/-- Whether the call ended with an exception. -/
def threw : Outcome K V α → Bool
  | thrown _ _ => true
  | _ => false

end Outcome

namespace minqueue

variable {K V : Type}

/-- `_swap(first, second)`: exchanges two entries of the heap buffer. -/
def _swap (q : minqueue K V) (first second : Int) : minqueue K V :=
  let temp := q.HeapArray first
  let q1 := { q with HeapArray := Function.update q.HeapArray first (q.HeapArray second) }
  { q1 with HeapArray := Function.update q1.HeapArray second temp }

/-- `empty()`. -/
def empty (q : minqueue K V) : Bool :=
  decide (q.Size = 0)

/-- `minqueue(int capacity)`; `mem` is the content of the freshly allocated
buffer, on which the constructor does not depend. -/
def ofCapacity (capacity : Int) (mem : Int → KeyValuePair K V) : minqueue K V :=
  { HeapArray := mem, Size := 0, Capacity := capacity, UMap := fun _ => none }

variable [LinearOrder K] [LinearOrder V]

/-- The body of the `for` loop of the fill constructor, run for the keys from
position `i` on. -/
def fillLoop (initialValue : V) : List K → Int → minqueue K V → minqueue K V
  | [], _, q => q
  | key :: rest, i, q =>
    let h1 : Int → KeyValuePair K V := Function.update q.HeapArray i { Key := key, Value := (q.HeapArray i).Value }
    let q1 := { q with HeapArray := h1 }
    let q2 := { q1 with UMap := Function.update q1.UMap key (some i) }
    let h3 : Int → KeyValuePair K V := Function.update q2.HeapArray i { Key := (q2.HeapArray i).Key, Value := initialValue }
    let q3 := { q2 with HeapArray := h3 }
    fillLoop initialValue rest (i + 1) q3

/-- `minqueue(vector<TKey> keys, TValue initialValue)`; `mem` is the content
of the freshly allocated buffer. -/
def ofKeys (keys : List K) (initialValue : V) (mem : Int → KeyValuePair K V) :
    minqueue K V :=
  fillLoop initialValue keys 0
    { HeapArray := mem, Size := keys.length, Capacity := keys.length, UMap := fun _ => none }

/-- The comparison written out in `_percolateDown` and `_percolateUp`:
`a.Value < b.Value || (a.Value == b.Value && a.Key < b.Key)`. -/
def less (a b : KeyValuePair K V) : Prop :=
  a.Value < b.Value ∨ (a.Value = b.Value ∧ a.Key < b.Key)

instance less.instDecidable (a b : KeyValuePair K V) : Decidable (less a b) :=
  inferInstanceAs (Decidable (a.Value < b.Value ∨ (a.Value = b.Value ∧ a.Key < b.Key)))

/-- One pass of the body of the inner `for` loop of `_percolateDown`, for the
child `childIndex + i`; `st` is the pair of the locals `min` and `minIndex`. -/
def visitChild (q : minqueue K V) (childIndex i : Int)
    (st : KeyValuePair K V × Int) : KeyValuePair K V × Int :=
  if less (q.HeapArray (childIndex + i)) st.1 then
    ({ Key := (q.HeapArray (childIndex + i)).Key,
       Value := (q.HeapArray (childIndex + i)).Value }, childIndex + i)
  else st

/-- The inner `for (i = 0; i < 2 && i + childIndex < Size; i++)` loop of
`_percolateDown`, started with `min = HeapArray[index]`. -/
def scanChildren (q : minqueue K V) (index childIndex minIndex : Int) :
    KeyValuePair K V × Int :=
  let st0 := (q.HeapArray index, minIndex)
  if 0 + childIndex < q.Size then
    let st1 := visitChild q childIndex 0 st0
    if 1 + childIndex < q.Size then visitChild q childIndex 1 st1 else st1
  else st0

/-- The `while (childIndex < Size)` loop of `_percolateDown`; `childIndex` is
`2 * index + 1` at every test of the loop condition. -/
def percolateDownLoop : Nat → minqueue K V → Int → Int → Option (minqueue K V × Int)
  | 0, _, _, _ => none
  | fuel + 1, q, index, minIndex =>
    let childIndex := 2 * index + 1
    if childIndex < q.Size then
      let st := scanChildren q index childIndex minIndex
      if st.1.Value = (q.HeapArray index).Value ∧ st.1.Key = (q.HeapArray index).Key then
        some (q, index)
      else
        let q1 := q._swap index st.2
        let q2 := { q1 with UMap := Function.update q1.UMap (q1.HeapArray index).Key (some index) }
        let q3 := { q2 with UMap := Function.update q2.UMap (q2.HeapArray st.2).Key (some st.2) }
        percolateDownLoop fuel q3 st.2 st.2
    else some (q, index)

/-- `_percolateDown(int &index)`: the new state and the final value of
`index`. -/
def _percolateDown (q : minqueue K V) (index : Int) : Option (minqueue K V × Int) :=
  percolateDownLoop ((q.Size - index).toNat + 1) q index index

/-- The `while (index > 0)` loop of `_percolateUp`.  Inside the loop
`index - 1 ≥ 0`, so the C++ division agrees with the one on `Int`. -/
def percolateUpLoop : Nat → minqueue K V → Int → Option (minqueue K V × Int)
  | 0, _, _ => none
  | fuel + 1, q, index =>
    if index > 0 then
      let parentIndex := (index - 1) / 2
      if less (q.HeapArray index) (q.HeapArray parentIndex) then
        let q1 := q._swap index parentIndex
        let q2 := { q1 with UMap := Function.update q1.UMap (q1.HeapArray index).Key (some index) }
        let m3 : K → Option Int := Function.update q2.UMap (q2.HeapArray parentIndex).Key (some parentIndex)
        let q3 := { q2 with UMap := m3 }
        percolateUpLoop fuel q3 parentIndex
      else some (q, index)
    else some (q, index)

/-- `_percolateUp(int &index)`: the new state and the final value of `index`. -/
def _percolateUp (q : minqueue K V) (index : Int) : Option (minqueue K V × Int) :=
  percolateUpLoop (index.toNat + 1) q index

/-- `_delete(key)`.  The read `UMap[key]` of an `unordered_map` yields `0` and
stores it when the key is absent. -/
def _delete (q : minqueue K V) (key : K) : Option (minqueue K V) :=
  let indexToDelete := (q.UMap key).getD 0
  let q0 := { q with UMap := Function.update q.UMap key (some indexToDelete) }
  if indexToDelete = q0.Size - 1 then
    some { q0 with Size := q0.Size - 1 }
  else
    let h1 : Int → KeyValuePair K V := Function.update q0.HeapArray indexToDelete (q0.HeapArray (q0.Size - 1))
    let q1 := { q0 with HeapArray := h1 }
    let m2 : K → Option Int := Function.update q1.UMap (q1.HeapArray indexToDelete).Key (some indexToDelete)
    let q2 := { q1 with UMap := m2 }
    let q3 := { q2 with Size := q2.Size - 1 }
    match q3._percolateUp indexToDelete with
    | none => none
    | some (q4, indexToDelete1) =>
      match q4._percolateDown indexToDelete1 with
      | none => none
      | some (q5, _) => some q5

/-- `pushinorder(key, value)` with a bound `depth` on the nesting of its
self-recursive call. -/
def pushinorderDepth : Nat → minqueue K V → K → V → Outcome K V Unit
  | 0, _, _, _ => Outcome.diverged
  | depth + 1, q, key, value =>
    if q.UMap key = none then
      if q.Size = q.Capacity then
        Outcome.thrown q (Exception.runtime_error "minqueue::pushinorder: queue full")
      else
        let q1 := { q with UMap := Function.update q.UMap key (some q.Size) }
        let indexToFix := q1.Size
        let h2 : Int → KeyValuePair K V := Function.update q1.HeapArray q1.Size { Key := key, Value := (q1.HeapArray q1.Size).Value }
        let q2 := { q1 with HeapArray := h2 }
        let h3 : Int → KeyValuePair K V := Function.update q2.HeapArray q2.Size { Key := (q2.HeapArray q2.Size).Key, Value := value }
        let q3 := { q2 with HeapArray := h3 }
        let q4 := { q3 with Size := q3.Size + 1 }
        match q4._percolateUp indexToFix with
        | none => Outcome.diverged
        | some (q5, _) => Outcome.returned q5 ()
    else
      match q._delete key with
      | none => Outcome.diverged
      | some q1 =>
        let q2 := { q1 with UMap := Function.update q1.UMap key none }
        pushinorderDepth depth q2 key value

/-- `pushinorder(key, value)`: the call and at most one nested call. -/
def pushinorder (q : minqueue K V) (key : K) (value : V) : Outcome K V Unit :=
  pushinorderDepth 2 q key value

/-- `minfront()`. -/
def minfront (q : minqueue K V) : Outcome K V K :=
  if q.empty then
    Outcome.thrown q (Exception.logic_error "minqueue::minfront: queue empty")
  else Outcome.returned q (q.HeapArray 0).Key

/-- `minpop()`. -/
def minpop (q : minqueue K V) : Outcome K V Unit :=
  if q.empty then
    Outcome.thrown q (Exception.logic_error "minqueue::minpop: queue empty")
  else
    let q1 := { q with UMap := Function.update q.UMap (q.HeapArray 0).Key none }
    let q2 := q1._swap 0 (q1.Size - 1)
    let q3 := { q2 with Size := q2.Size - 1 }
    match q3._percolateDown 0 with
    | none => Outcome.diverged
    | some (q4, _) => Outcome.returned q4 ()

end minqueue


/-! ## Specification vocabulary -/

namespace minqueue

variable {K V : Type} [LinearOrder K] [LinearOrder V]

/-- The non-strict form of the ordering relation: `a` comes before `b`, or
they have the same value and key. -/
def entryLE (a b : KeyValuePair K V) : Prop :=
  a.Value < b.Value ∨ (a.Value = b.Value ∧ a.Key ≤ b.Key)

instance entryLE.instDecidable (a b : KeyValuePair K V) : Decidable (entryLE a b) :=
  inferInstanceAs (Decidable (a.Value < b.Value ∨ (a.Value = b.Value ∧ a.Key ≤ b.Key)))

/-- The entries at the live positions `0 .. Size - 1`, in buffer order. -/
def liveEntries (q : minqueue K V) : List (KeyValuePair K V) :=
  (List.range q.Size.toNat).map (fun i : Nat => q.HeapArray (i : Int))

/-- The multiset of the live entries. -/
def liveMultiset (q : minqueue K V) : Multiset (KeyValuePair K V) :=
  (liveEntries q : Multiset (KeyValuePair K V))

/-- Heap order: no entry at a non-root live position is smaller than the entry
at its parent position `(i - 1) / 2`. -/
def HeapOrder (q : minqueue K V) : Prop :=
  ∀ i : Int, 0 < i → i < q.Size → entryLE (q.HeapArray ((i - 1) / 2)) (q.HeapArray i)

/-- Key uniqueness: the keys at the live positions are pairwise distinct. -/
def DistinctKeys (q : minqueue K V) : Prop :=
  ((liveEntries q).map KeyValuePair.Key).Nodup

/-- Index consistency: the position index maps the key stored at each live
position to that position. -/
def IndexConsistent (q : minqueue K V) : Prop :=
  ∀ i : Int, 0 ≤ i → i < q.Size → q.UMap (q.HeapArray i).Key = some i

/-- The position index has no other keys than the live ones: whatever it maps
a key to is a live position that holds the key. -/
def IndexExact (q : minqueue K V) : Prop :=
  ∀ k : K, ∀ p ∈ q.UMap k, 0 ≤ p ∧ p < q.Size ∧ (q.HeapArray p).Key = k

/-- A well-formed state: the capacity bound, heap order on the live buffer,
and a position index that maps exactly the live keys, each to its position
(which makes the live keys pairwise distinct). -/
structure WellFormed (q : minqueue K V) : Prop where
  size_nonneg : 0 ≤ q.Size
  size_le : q.Size ≤ q.Capacity
  heap : HeapOrder q
  index : IndexConsistent q
  exact : IndexExact q

instance HeapOrder.instDecidable (q : minqueue K V) : Decidable (HeapOrder q) :=
  Int.decidableLTLT (fun i => entryLE (q.HeapArray ((i - 1) / 2)) (q.HeapArray i)) 0 q.Size

instance DistinctKeys.instDecidable (q : minqueue K V) : Decidable (DistinctKeys q) :=
  inferInstanceAs (Decidable ((liveEntries q).map KeyValuePair.Key).Nodup)

instance IndexConsistent.instDecidable (q : minqueue K V) : Decidable (IndexConsistent q) :=
  Int.decidableLELT (fun i => q.UMap (q.HeapArray i).Key = some i) 0 q.Size

instance IndexExact.instDecidable [Fintype K] (q : minqueue K V) : Decidable (IndexExact q) :=
  inferInstanceAs (Decidable (∀ k : K, ∀ p ∈ q.UMap k, 0 ≤ p ∧ p < q.Size ∧ (q.HeapArray p).Key = k))

/-- A call of one of the two mutating public operations. -/
inductive Call (K V : Type) where
  | pushinorder (key : K) (value : V)
  | minpop

/-- The state of the object after one call (also when the call throws). -/
def call (q : minqueue K V) : Call K V → Option (minqueue K V)
  | Call.pushinorder key value => (q.pushinorder key value).state
  | Call.minpop => q.minpop.state

/-- The state of the object after a sequence of calls. -/
def calls (q : minqueue K V) : List (Call K V) → Option (minqueue K V)
  | [] => some q
  | c :: cs => (q.call c).bind (fun q1 => q1.calls cs)

/-- Repeating `minfront(); minpop();` `n` times: the keys observed, in order,
and the final state; `none` when one of the calls does not return. -/
def drain : Nat → minqueue K V → Option (List K × minqueue K V)
  | 0, q => some ([], q)
  | n + 1, q =>
    match q.minfront with
    | Outcome.returned q1 key =>
      match q1.minpop with
      | Outcome.returned q2 _ => (drain n q2).map (fun r => (key :: r.1, r.2))
      | _ => none
    | _ => none

end minqueue


/-! ## Definitions used in the proofs -/

namespace HeapIndex

variable {L : Type} [LinearOrder L]

/-- The map `f` with the values at `a` and `b` exchanged, as `_swap` writes it. -/
def swapFn {α : Type} (f : Int → α) (a b : Int) : Int → α :=
  Function.update (Function.update f a (f b)) b (f a)

/-- Heap order of the first `n` positions of `f`. -/
def IsHeap (f : Int → L) (n : Int) : Prop :=
  ∀ j : Int, 0 < j → j < n → f ((j - 1) / 2) ≤ f j

/-- Heap order everywhere except between `i` and its children, whose values are
still bounded below by the parent of `i`. -/
def DownInv (f : Int → L) (n i : Int) : Prop :=
  (∀ j : Int, 0 < j → j < n → (j - 1) / 2 ≠ i → f ((j - 1) / 2) ≤ f j) ∧
  (0 < i → ∀ j : Int, 0 < j → j < n → (j - 1) / 2 = i → f ((i - 1) / 2) ≤ f j)

/-- Heap order everywhere except between `i` and its parent and between `i`
and its children, whose values are still bounded below by the parent of `i`. -/
def UpInv (f : Int → L) (n i : Int) : Prop :=
  (∀ j : Int, 0 < j → j < n → j ≠ i → (j - 1) / 2 ≠ i → f ((j - 1) / 2) ≤ f j) ∧
  (0 < i → ∀ j : Int, 0 < j → j < n → (j - 1) / 2 = i → f ((i - 1) / 2) ≤ f j)

/-- The value at `i` is not above the values at the children of `i`. -/
def ChildrenOK (f : Int → L) (n i : Int) : Prop :=
  ∀ j : Int, 0 < j → j < n → (j - 1) / 2 = i → f i ≤ f j

/-- The values of `f` at the positions `0 .. n - 1`. -/
def listOf {α : Type} (f : Int → α) (n : Nat) : List α :=
  (List.range n).map (fun i : Nat => f (i : Int))

end HeapIndex

namespace minqueue

variable {K V : Type} [LinearOrder K] [LinearOrder V]

/-- The pair `(value, key)` of an entry in the lexicographic order. -/
def lexKey (a : KeyValuePair K V) : Lex (V × K) :=
  toLex (a.Value, a.Key)

/-- The index map of the `(value, key)` pairs of the heap buffer. -/
def hkey (q : minqueue K V) : Int → Lex (V × K) :=
  fun i => lexKey (q.HeapArray i)

/-- What a percolation leaves alone: `Size`, `Capacity`, the entries of the
live buffer up to their order, and the position index outside the live keys. -/
structure Frame (q q1 : minqueue K V) : Prop where
  size : q1.Size = q.Size
  capacity : q1.Capacity = q.Capacity
  perm : (liveEntries q1).Perm (liveEntries q)
  umap : ∀ k : K, (∀ e ∈ liveEntries q, e.Key ≠ k) → q1.UMap k = q.UMap k

/-- The state after `_swap(a, b); UMap[HeapArray[a].Key] = a;
UMap[HeapArray[b].Key] = b;`, the step shared by the two percolations. -/
def swapStep (q : minqueue K V) (a b : Int) : minqueue K V :=
  let q1 := q._swap a b
  let q2 := { q1 with UMap := Function.update q1.UMap (q1.HeapArray a).Key (some a) }
  { q2 with UMap := Function.update q2.UMap (q2.HeapArray b).Key (some b) }

/-- The state of the insert branch of `pushinorder` just before its call of
`_percolateUp`: the new entry is stored at position `Size`, the position index
maps its key there, and `Size` is incremented. -/
def appendEntry (q : minqueue K V) (key : K) (value : V) : minqueue K V :=
  let q1 := { q with UMap := Function.update q.UMap key (some q.Size) }
  let h2 : Int → KeyValuePair K V := Function.update q1.HeapArray q1.Size { Key := key, Value := (q1.HeapArray q1.Size).Value }
  let q2 := { q1 with HeapArray := h2 }
  let h3 : Int → KeyValuePair K V := Function.update q2.HeapArray q2.Size { Key := (q2.HeapArray q2.Size).Key, Value := value }
  let q3 := { q2 with HeapArray := h3 }
  { q3 with Size := q3.Size + 1 }

/-- The state of `_delete` just before its call of `_percolateUp`, when the
entry to delete is not the last one: the last entry is copied to position
`indexToDelete`, the position index maps its key there, and `Size` is
decremented. -/
def moveLast (q : minqueue K V) (key : K) : minqueue K V :=
  let indexToDelete := (q.UMap key).getD 0
  let q0 := { q with UMap := Function.update q.UMap key (some indexToDelete) }
  let h1 : Int → KeyValuePair K V := Function.update q0.HeapArray indexToDelete (q0.HeapArray (q0.Size - 1))
  let q1 := { q0 with HeapArray := h1 }
  let m2 : K → Option Int := Function.update q1.UMap (q1.HeapArray indexToDelete).Key (some indexToDelete)
  let q2 := { q1 with UMap := m2 }
  { q2 with Size := q2.Size - 1 }

/-- The state of `minpop` just before its call of `_percolateDown`: the key of
the front entry is erased from the position index, the front entry and the
last entry are exchanged, and `Size` is decremented. -/
def popFront (q : minqueue K V) : minqueue K V :=
  let q1 := { q with UMap := Function.update q.UMap (q.HeapArray 0).Key none }
  let q2 := q1._swap 0 (q1.Size - 1)
  { q2 with Size := q2.Size - 1 }

/-! ### Example states -/

/-- A buffer content for the examples: every slot holds `(0, 0)`. -/
def zeroMem : Int → KeyValuePair Nat Int :=
  fun _ => { Key := 0, Value := 0 }

/-- A queue of capacity 3 that holds the keys 1 and 2, both with the value 5. -/
def tieQueue : minqueue (Fin 4) Int :=
  { HeapArray := fun i =>
      if i = 0 then { Key := 1, Value := 5 }
      else if i = 1 then { Key := 2, Value := 5 }
      else { Key := 0, Value := 0 }
    Capacity := 3
    Size := 2
    UMap := fun k => if k = 1 then some 0 else if k = 2 then some 1 else none }

/-- A full queue of capacity 3 that holds the keys 1, 2 and 3 with the values
4, 9 and 6. -/
def fullQueue : minqueue (Fin 4) Int :=
  { HeapArray := fun i =>
      if i = 0 then { Key := 1, Value := 4 }
      else if i = 1 then { Key := 2, Value := 9 }
      else if i = 2 then { Key := 3, Value := 6 }
      else { Key := 0, Value := 0 }
    Capacity := 3
    Size := 3
    UMap := fun k =>
      if k = 1 then some 0 else if k = 2 then some 1 else if k = 3 then some 2 else none }

end minqueue


namespace minqueue

variable {K V : Type} [LinearOrder K] [LinearOrder V]

/-- The position index is exact at the key `k`: whatever it maps `k` to is a
live position that holds `k`. -/
def ExactAt (q : minqueue K V) (k : K) : Prop :=
  ∀ p ∈ q.UMap k, 0 ≤ p ∧ p < q.Size ∧ (q.HeapArray p).Key = k

/-- A call `_percolateUp(index)` swaps at least once: the first pass through
its loop takes the swapping branch. -/
def upMoves (q : minqueue K V) (index : Int) : Prop :=
  index > 0 ∧ less (q.HeapArray index) (q.HeapArray ((index - 1) / 2))

instance upMoves.instDecidable (q : minqueue K V) (index : Int) : Decidable (upMoves q index) :=
  inferInstanceAs (Decidable
    (index > 0 ∧ less (q.HeapArray index) (q.HeapArray ((index - 1) / 2))))

/-- A call `_percolateDown(index)` swaps at least once: the first pass through
its loop is entered and does not take the early `return`. -/
def downMoves (q : minqueue K V) (index : Int) : Prop :=
  2 * index + 1 < q.Size ∧
    ¬ ((scanChildren q index (2 * index + 1) index).1.Value = (q.HeapArray index).Value ∧
      (scanChildren q index (2 * index + 1) index).1.Key = (q.HeapArray index).Key)

instance downMoves.instDecidable (q : minqueue K V) (index : Int) :
    Decidable (downMoves q index) :=
  inferInstanceAs (Decidable (2 * index + 1 < q.Size ∧
    ¬ ((scanChildren q index (2 * index + 1) index).1.Value = (q.HeapArray index).Value ∧
      (scanChildren q index (2 * index + 1) index).1.Key = (q.HeapArray index).Key)))

end minqueue


namespace minqueue

/-- A full queue of capacity 4 that holds the keys 1, 2, 3 and 4 with the
values 1, 2, 3 and 4. -/
def fourQueue : minqueue (Fin 5) Int :=
  { HeapArray := fun i =>
      if i = 0 then { Key := 1, Value := 1 }
      else if i = 1 then { Key := 2, Value := 2 }
      else if i = 2 then { Key := 3, Value := 3 }
      else if i = 3 then { Key := 4, Value := 4 }
      else { Key := 0, Value := 0 }
    Capacity := 4
    Size := 4
    UMap := fun k =>
      if k = 1 then some 0 else if k = 2 then some 1 else if k = 3 then some 2
      else if k = 4 then some 3 else none }

end minqueue


namespace minqueue

/-- A state with `Size = Capacity = 1` whose position index maps the key 7 to
the position `-2`; the buffer slot at every index `i` holds `(0, i)`. -/
def strayQueue : minqueue Nat Int :=
  { HeapArray := fun i => { Key := 0, Value := i }
    Capacity := 1
    Size := 1
    UMap := fun k => if k = 7 then some (-2) else none }

end minqueue


/-! ## An abstract priority map -/

/-- A call of one of the three public operations that depend on the content
of the queue. -/
inductive Op (K V : Type) where
  | pushinorder (key : K) (value : V)
  | minpop
  | minfront

/-- What the caller observes of a call: it returned nothing, it threw, or it
returned a key. -/
inductive Observed (K : Type) where
  | done
  | failed
  | front (key : K)
deriving DecidableEq, Repr

/-- An abstract priority map of bounded size: the entries of a finite map from
keys to values, listed in ascending (value, then key) order, and the bound on
their number. -/
structure PriorityMap (K V : Type) where
  entries : List (KeyValuePair K V)
  capacity : Int

namespace PriorityMap

variable {K V : Type} [LinearOrder K] [LinearOrder V]

/-- The empty map with the given bound. -/
def empty (capacity : Int) : PriorityMap K V :=
  { entries := [], capacity := capacity }

/-- The keys of the map. -/
def keys (m : PriorityMap K V) : List K :=
  m.entries.map KeyValuePair.Key

/-- One operation on the abstract map.  Adding an entry fails exactly when the
map already has `capacity` entries; reading and removing the least entry fail
exactly when the map is empty; reading returns the key of the least entry and
removing removes that entry. -/
def step (m : PriorityMap K V) : Op K V → Observed K × PriorityMap K V
  | Op.pushinorder key value =>
    if (m.entries.length : Int) = m.capacity then (Observed.failed, m)
    else
      (Observed.done,
        { m with entries :=
            m.entries.orderedInsert minqueue.entryLE { Key := key, Value := value } })
  | Op.minpop =>
    match m.entries with
    | [] => (Observed.failed, m)
    | _ :: rest => (Observed.done, { m with entries := rest })
  | Op.minfront =>
    match m.entries with
    | [] => (Observed.failed, m)
    | e :: _ => (Observed.front e.Key, m)

/-- A sequence of operations on the abstract map: what is observed, and the
final map. -/
def run (m : PriorityMap K V) : List (Op K V) → List (Observed K) × PriorityMap K V
  | [] => ([], m)
  | op :: ops => ((m.step op).1 :: ((m.step op).2.run ops).1, ((m.step op).2.run ops).2)

/-- The operation does not update a key: it is not a `pushinorder` with a key
of the map. -/
def Fresh (m : PriorityMap K V) : Op K V → Prop
  | Op.pushinorder key _ => key ∉ m.keys
  | _ => True

/-- No operation of the sequence updates a key that is in the map at the time
of the call. -/
def NoUpdate (m : PriorityMap K V) : List (Op K V) → Prop
  | [] => True
  | op :: ops => m.Fresh op ∧ NoUpdate (m.step op).2 ops

end PriorityMap

namespace minqueue

variable {K V : Type} [LinearOrder K] [LinearOrder V]

/-- One public operation on the queue: what the caller observes, and the
state after the call; `none` when the call does not end. -/
def step (q : minqueue K V) : Op K V → Option (Observed K × minqueue K V)
  | Op.pushinorder key value =>
    match q.pushinorder key value with
    | Outcome.returned q1 _ => some (Observed.done, q1)
    | Outcome.thrown q1 _ => some (Observed.failed, q1)
    | Outcome.diverged => none
  | Op.minpop =>
    match q.minpop with
    | Outcome.returned q1 _ => some (Observed.done, q1)
    | Outcome.thrown q1 _ => some (Observed.failed, q1)
    | Outcome.diverged => none
  | Op.minfront =>
    match q.minfront with
    | Outcome.returned q1 key => some (Observed.front key, q1)
    | Outcome.thrown q1 _ => some (Observed.failed, q1)
    | Outcome.diverged => none

/-- A sequence of public operations on the queue: what is observed, and the
final state. -/
def run (q : minqueue K V) : List (Op K V) → Option (List (Observed K) × minqueue K V)
  | [] => some ([], q)
  | op :: ops =>
    match q.step op with
    | none => none
    | some (o, q1) =>
      match q1.run ops with
      | none => none
      | some (os, q2) => some (o :: os, q2)

/-- The abstract priority map that a queue state stands for: its live entries
in ascending order, and its capacity. -/
def abstraction (q : minqueue K V) : PriorityMap K V :=
  { entries := (liveEntries q).insertionSort entryLE, capacity := q.Capacity }

/-- The key set of the position index is the set of the live keys. -/
def KeySync (q : minqueue K V) : Prop :=
  ∀ k : K, q.UMap k ≠ none ↔ k ∈ (liveEntries q).map KeyValuePair.Key

/-- The relation between the queue and its abstract map that the operations
keep as long as no key is updated; it does not ask that the position index
holds the right positions. -/
structure Simulates (q : minqueue K V) : Prop where
  size_nonneg : 0 ≤ q.Size
  size_le : q.Size ≤ q.Capacity
  heap : HeapOrder q
  distinct : DistinctKeys q
  keys : KeySync q

end minqueue


namespace PriorityMap

variable {K V : Type} [LinearOrder K] [LinearOrder V]

instance Fresh.instDecidable (m : PriorityMap K V) (op : Op K V) : Decidable (m.Fresh op) :=
  match op with
  | Op.pushinorder key _ => inferInstanceAs (Decidable (key ∉ m.keys))
  | Op.minpop => isTrue trivial
  | Op.minfront => isTrue trivial

/-- Whether no operation of the sequence updates a key. -/
def NoUpdate.decide : (ops : List (Op K V)) → (m : PriorityMap K V) → Decidable (m.NoUpdate ops)
  | [], _ => isTrue trivial
  | op :: ops, m =>
    match Fresh.instDecidable m op, NoUpdate.decide ops (m.step op).2 with
    | isTrue h1, isTrue h2 => isTrue ⟨h1, h2⟩
    | isFalse h1, _ => isFalse (fun h => h1 h.1)
    | _, isFalse h2 => isFalse (fun h => h2 h.2)

instance NoUpdate.instDecidable (m : PriorityMap K V) (ops : List (Op K V)) :
    Decidable (m.NoUpdate ops) :=
  NoUpdate.decide ops m

end PriorityMap


namespace minqueue

variable {K V : Type} [LinearOrder K] [LinearOrder V]

/-- The state `q1` has the same `Size` and the same live buffer as `q`. -/
def LiveEq (q q1 : minqueue K V) : Prop :=
  q1.Size = q.Size ∧ ∀ i : Int, 0 ≤ i → i < q.Size → q1.HeapArray i = q.HeapArray i

/-- What holds of a state `s` of the `_percolateUp` loop of the insert branch,
with the new entry for `key` at position `i`, when the loop was started on the
heap `h` with the new entry appended: the order is broken at most between `i`
and its parent, the position index is consistent, and `_delete(key)` leads back
to the live buffer of `h`. -/
structure UndoInv (h : minqueue K V) (key : K) (s : minqueue K V) (i : Int) : Prop where
  size : s.Size = h.Size + 1
  lo : 0 ≤ i
  hi : i ≤ h.Size
  entry : (s.HeapArray i).Key = key
  up : HeapIndex.UpInv (hkey s) s.Size i
  children : HeapIndex.ChildrenOK (hkey s) s.Size i
  index : IndexConsistent s
  last : i ≠ h.Size → 0 < i → hkey s ((i - 1) / 2) ≤ hkey s h.Size
  base : i = h.Size → ∀ j : Int, 0 ≤ j → j < h.Size → s.HeapArray j = h.HeapArray j
  undo : ∃ hd, s._delete key = some hd ∧ LiveEq h hd

end minqueue


namespace minqueue

/-- The state in which `pushinorder(3, 1)` returns on `fullQueue`: the update
branch moves key 3 from the last position to the front. -/
def fullQueueUpdated : minqueue (Fin 4) Int :=
  ((fullQueue.pushinorder 3 1).state).getD fullQueue

end minqueue


/-- The largest value of the C++ type `int` (32 bits). -/
def INT_MAX : Int := 2147483647

namespace minqueue

variable {K V : Type}

/-- The position index holds no position below `-1` and none from `Capacity`
on.  These are the values that the statements `UMap[...] = ...` of the class
store in a call that starts with `0 ≤ Size ≤ Capacity`: an index of the
allocated buffer, or `Size` after `_delete` has lowered it to `-1`. -/
def IndexInRange (q : minqueue K V) : Prop :=
  ∀ k : K, ∀ p ∈ q.UMap k, -1 ≤ p ∧ p < q.Capacity

end minqueue


/-! ## Binary-heap order and position lists of index maps -/

namespace HeapIndex

variable {α : Type} {L : Type} [LinearOrder L]

theorem swapFn_apply {α : Type} (f : Int → α) (a b i : Int) :
    swapFn f a b i = if i = b then f a else if i = a then f b else f i := by
  unfold swapFn
  by_cases hb : i = b
  · subst hb; simp
  · by_cases ha : i = a
    · subst ha; simp [Function.update_noteq hb, hb]
    · simp [Function.update_noteq hb, Function.update_noteq ha, hb, ha]

theorem IsHeap.toDownInv {f : Int → L} {n : Int} (h : IsHeap f n) (i : Int) :
    DownInv f n i := by
  refine ⟨fun j h0 hn _ => h j h0 hn, fun hi j h0 hn hj => ?_⟩
  have h1 : f ((j - 1) / 2) ≤ f j := h j h0 hn
  have h2 : f ((i - 1) / 2) ≤ f i := h i hi (by omega)
  rw [hj] at h1
  exact le_trans h2 h1

theorem IsHeap.root_le {f : Int → L} {n : Int} (h : IsHeap f n) :
    ∀ (m : Nat) (i : Int), i.toNat ≤ m → 0 ≤ i → i < n → f 0 ≤ f i := by
  intro m
  induction m with
  | zero =>
    intro i hm h0 _
    have : i = 0 := by omega
    subst this
    exact le_refl _
  | succ m ih =>
    intro i hm h0 hn
    by_cases hi : i = 0
    · subst hi; exact le_refl _
    · have h1 : f ((i - 1) / 2) ≤ f i := h i (by omega) hn
      have h2 : f 0 ≤ f ((i - 1) / 2) := ih ((i - 1) / 2) (by omega) (by omega) (by omega)
      exact le_trans h2 h1

theorem DownInv.isHeap {f : Int → L} {n i : Int} (h : DownInv f n i)
    (hc : ChildrenOK f n i) : IsHeap f n := by
  intro j h0 hn
  by_cases hj : (j - 1) / 2 = i
  · rw [hj]; exact hc j h0 hn hj
  · exact h.1 j h0 hn hj

theorem DownInv.swapDown {f : Int → L} {n i m : Int} (h : DownInv f n i) (h0 : 0 ≤ i)
    (hm : m = 2 * i + 1 ∨ m = 2 * i + 2) (hmn : m < n) (hlt : f m < f i)
    (hmin : ∀ j : Int, j = 2 * i + 1 ∨ j = 2 * i + 2 → j < n → f m ≤ f j) :
    DownInv (swapFn f i m) n m := by
  have hpm : (m - 1) / 2 = i := by omega
  refine ⟨fun j hj0 hjn hjp => ?_, fun _ j hj0 hjn hjp => ?_⟩
  · by_cases hpi : (j - 1) / 2 = i
    · have hjc : j = 2 * i + 1 ∨ j = 2 * i + 2 := by omega
      rw [hpi]
      by_cases hjm : j = m
      · subst hjm
        simp only [swapFn_apply]
        have : i ≠ j := by omega
        simp [this, le_of_lt hlt]
      · have hji : j ≠ i := by omega
        have him : i ≠ m := by omega
        simp only [swapFn_apply, hjm, hji, him, if_false, if_true]
        exact hmin j hjc hjn
    · have hjm : j ≠ m := by omega
      have hpm2 : (j - 1) / 2 ≠ m := hjp
      by_cases hji : j = i
      · subst hji
        have hi0 : 0 < j := hj0
        simp only [swapFn_apply, hjm, hpi, hpm2, if_false, if_true]
        exact h.2 hi0 m (by omega) hmn hpm
      · simp only [swapFn_apply, hjm, hji, hpi, hpm2, if_false]
        exact h.1 j hj0 hjn hpi
  · have hjm : j ≠ m := by omega
    have hji : j ≠ i := by omega
    have him : i ≠ m := by omega
    rw [hpm]
    simp only [swapFn_apply, hjm, hji, him, if_false, if_true]
    have := h.1 j hj0 hjn (by omega)
    rw [hjp] at this
    exact this

theorem UpInv.stopDownInv {f : Int → L} {n i : Int} (h : UpInv f n i)
    (hstop : i ≤ 0 ∨ f ((i - 1) / 2) ≤ f i) : DownInv f n i := by
  refine ⟨fun j hj0 hjn hjp => ?_, h.2⟩
  by_cases hji : j = i
  · subst hji
    rcases hstop with hs | hs
    · omega
    · exact hs
  · exact h.1 j hj0 hjn hji hjp

theorem UpInv.swapUp {f : Int → L} {n i : Int} (h : UpInv f n i) (h0 : 0 < i) (hn : i < n)
    (hlt : f i < f ((i - 1) / 2)) : UpInv (swapFn f i ((i - 1) / 2)) n ((i - 1) / 2) := by
  have hpi : (i - 1) / 2 ≠ i := by omega
  refine ⟨fun j hj0 hjn hjp hjpp => ?_, fun hp0 j hj0 hjn hjp => ?_⟩
  · have hji : j ≠ i := by
      intro hh; subst hh; exact hjpp rfl
    by_cases hc : (j - 1) / 2 = i
    · rw [hc]
      have hip : i ≠ (i - 1) / 2 := fun hh => hpi hh.symm
      simp only [swapFn_apply, hjp, hji, hip, if_false, if_true]
      exact h.2 h0 j hj0 hjn hc
    · simp only [swapFn_apply, hjp, hji, hjpp, hc, if_false]
      exact h.1 j hj0 hjn hji hc
  · have hpp1 : (((i - 1) / 2) - 1) / 2 ≠ (i - 1) / 2 := by omega
    have hpp2 : (((i - 1) / 2) - 1) / 2 ≠ i := by omega
    have hjne : j ≠ (i - 1) / 2 := by omega
    have hgp : f ((((i - 1) / 2) - 1) / 2) ≤ f ((i - 1) / 2) :=
      h.1 ((i - 1) / 2) hp0 (by omega) hpi hpp2
    by_cases hji : j = i
    · subst hji
      simp only [swapFn_apply, hpp1, hpp2, hjne, if_false, if_true]
      exact hgp
    · simp only [swapFn_apply, hpp1, hpp2, hjne, hji, if_false]
      have hs : f ((j - 1) / 2) ≤ f j := h.1 j hj0 hjn hji (by omega)
      rw [hjp] at hs
      exact le_trans hgp hs

theorem ChildrenOK.swapChild {f : Int → L} {n i : Int} (h : UpInv f n i)
    (hc : ChildrenOK f n i) (h0 : 0 < i) (hlt : f i < f ((i - 1) / 2)) :
    ChildrenOK (swapFn f i ((i - 1) / 2)) n ((i - 1) / 2) := by
  intro j hj0 hjn hjp
  have hpi : (i - 1) / 2 ≠ i := by omega
  have hjne : j ≠ (i - 1) / 2 := by omega
  by_cases hji : j = i
  · subst hji
    simp only [swapFn_apply, hjne, if_false, if_true]
    exact le_of_lt hlt
  · simp only [swapFn_apply, hjne, hji, if_false, if_true]
    have hs : f ((j - 1) / 2) ≤ f j := h.1 j hj0 hjn hji (by omega)
    rw [hjp] at hs
    exact le_trans (le_of_lt hlt) hs

theorem listOf_succ (f : Int → α) (n : Nat) : listOf f (n + 1) = listOf f n ++ [f n] := by
  simp [listOf, List.range_succ]

theorem listOf_congr {f g : Int → α} {n : Nat}
    (h : ∀ i : Int, 0 ≤ i → i < n → f i = g i) : listOf f n = listOf g n := by
  unfold listOf
  apply List.map_congr_left
  intro i hi
  have hi2 : i < n := List.mem_range.mp hi
  exact h i (by omega) (by omega)

theorem mem_listOf {f : Int → α} {n : Nat} {e : α} :
    e ∈ listOf f n ↔ ∃ i : Int, 0 ≤ i ∧ i < n ∧ f i = e := by
  unfold listOf
  constructor
  · intro h
    obtain ⟨i, hi, he⟩ := List.mem_map.mp h
    have hi2 : i < n := List.mem_range.mp hi
    exact ⟨i, by omega, by omega, he⟩
  · rintro ⟨i, h0, hn, he⟩
    refine List.mem_map.mpr ⟨i.toNat, List.mem_range.mpr (by omega), ?_⟩
    have : ((i.toNat : Nat) : Int) = i := Int.toNat_of_nonneg h0
    rw [this]
    exact he

theorem range_map_swap_perm (n a b : Nat) (ha : a < n) (hb : b < n) :
    ((List.range n).map (Equiv.swap a b)).Perm (List.range n) := by
  rw [List.perm_ext_iff_of_nodup
    ((List.nodup_range n).map (Equiv.swap a b).injective) (List.nodup_range n)]
  intro x
  simp only [List.mem_map, List.mem_range]
  constructor
  · rintro ⟨i, hi, rfl⟩
    rw [Equiv.swap_apply_def]
    split_ifs <;> omega
  · intro hx
    refine ⟨Equiv.swap a b x, ?_, Equiv.swap_apply_self a b x⟩
    rw [Equiv.swap_apply_def]
    split_ifs <;> omega

theorem listOf_swap_perm_nat (f : Int → α) (n a b : Nat) (ha : a < n) (hb : b < n) :
    (listOf (swapFn f (a : Int) (b : Int)) n).Perm (listOf f n) := by
  have key : listOf (swapFn f (a : Int) (b : Int)) n =
      ((List.range n).map (Equiv.swap a b)).map (fun i : Nat => f (i : Int)) := by
    unfold listOf
    rw [List.map_map]
    apply List.map_congr_left
    intro i _
    simp only [Function.comp, swapFn_apply, Equiv.swap_apply_def, Nat.cast_inj]
    by_cases h1 : i = b
    · by_cases h2 : i = a
      · subst h1; subst h2; simp
      · subst h1; simp [h2]
    · by_cases h2 : i = a
      · subst h2; simp [h1]
      · simp [h1, h2]
  rw [key]
  exact (range_map_swap_perm n a b ha hb).map _

theorem listOf_swap_perm (f : Int → α) (n : Nat) (a b : Int)
    (ha : 0 ≤ a) (han : a < n) (hb : 0 ≤ b) (hbn : b < n) :
    (listOf (swapFn f a b) n).Perm (listOf f n) := by
  have h1 : ((a.toNat : Nat) : Int) = a := Int.toNat_of_nonneg ha
  have h2 : ((b.toNat : Nat) : Int) = b := Int.toNat_of_nonneg hb
  have h := listOf_swap_perm_nat f n a.toNat b.toNat (by omega) (by omega)
  rw [h1, h2] at h
  exact h

end HeapIndex


namespace minqueue

open HeapIndex

variable {K V : Type} [LinearOrder K] [LinearOrder V]

/-! ## The ordering relation as a lexicographic order -/

theorem less_iff (a b : KeyValuePair K V) : less a b ↔ lexKey a < lexKey b :=
  (Prod.Lex.lt_iff (a.Value, a.Key) (b.Value, b.Key)).symm

theorem entryLE_iff (a b : KeyValuePair K V) : entryLE a b ↔ lexKey a ≤ lexKey b :=
  (Prod.Lex.le_iff (a.Value, a.Key) (b.Value, b.Key)).symm

theorem not_less_iff (a b : KeyValuePair K V) : ¬ less a b ↔ entryLE b a := by
  rw [less_iff, entryLE_iff, not_lt]

theorem lexKey_injective : Function.Injective (lexKey : KeyValuePair K V → Lex (V × K)) := by
  intro a b h
  have h2 : (a.Value, a.Key) = (b.Value, b.Key) := toLex.injective h
  cases a; cases b
  simp only [Prod.mk.injEq] at h2
  obtain ⟨h3, h4⟩ := h2
  subst h3; subst h4
  rfl

theorem entryLE_refl (a : KeyValuePair K V) : entryLE a a :=
  (entryLE_iff a a).mpr (le_refl _)

theorem entryLE_trans {a b c : KeyValuePair K V} (h1 : entryLE a b) (h2 : entryLE b c) :
    entryLE a c :=
  (entryLE_iff a c).mpr (le_trans ((entryLE_iff a b).mp h1) ((entryLE_iff b c).mp h2))

theorem entryLE_antisymm {a b : KeyValuePair K V} (h1 : entryLE a b) (h2 : entryLE b a) :
    a = b :=
  lexKey_injective (le_antisymm ((entryLE_iff a b).mp h1) ((entryLE_iff b a).mp h2))

theorem entryLE_total (a b : KeyValuePair K V) : entryLE a b ∨ entryLE b a := by
  rw [entryLE_iff, entryLE_iff]
  exact le_total _ _

theorem entryLE_isTrans : IsTrans (KeyValuePair K V) entryLE :=
  ⟨fun _ _ _ h1 h2 => entryLE_trans h1 h2⟩

theorem entryLE_isAntisymm : IsAntisymm (KeyValuePair K V) entryLE :=
  ⟨fun _ _ h1 h2 => entryLE_antisymm h1 h2⟩

theorem entryLE_isTotal : IsTotal (KeyValuePair K V) entryLE :=
  ⟨entryLE_total⟩

theorem heapOrder_iff (q : minqueue K V) : HeapOrder q ↔ IsHeap (hkey q) q.Size := by
  unfold HeapOrder IsHeap hkey
  constructor
  · intro h j h0 hn
    exact (entryLE_iff _ _).mp (h j h0 hn)
  · intro h j h0 hn
    exact (entryLE_iff _ _).mpr (h j h0 hn)

theorem liveEntries_eq (q : minqueue K V) :
    liveEntries q = listOf q.HeapArray q.Size.toNat := rfl

theorem mem_liveEntries {q : minqueue K V} {e : KeyValuePair K V} :
    e ∈ liveEntries q ↔ ∃ i : Int, 0 ≤ i ∧ i < q.Size ∧ q.HeapArray i = e := by
  rw [liveEntries_eq, mem_listOf]
  constructor
  · rintro ⟨i, h0, hn, he⟩
    exact ⟨i, h0, by omega, he⟩
  · rintro ⟨i, h0, hn, he⟩
    exact ⟨i, h0, by omega, he⟩

theorem Frame.refl (q : minqueue K V) : Frame q q :=
  ⟨rfl, rfl, List.Perm.refl _, fun _ _ => rfl⟩

theorem Frame.trans {q q1 q2 : minqueue K V} (h1 : Frame q q1) (h2 : Frame q1 q2) :
    Frame q q2 := by
  refine ⟨h2.size.trans h1.size, h2.capacity.trans h1.capacity, h2.perm.trans h1.perm, ?_⟩
  intro k hk
  rw [h2.umap k (fun e he => hk e (h1.perm.subset he)), h1.umap k hk]

/-! ## The swap step of the percolations -/

theorem swapStep_heapArray (q : minqueue K V) (a b : Int) :
    (swapStep q a b).HeapArray = swapFn q.HeapArray a b := rfl

theorem swapStep_size (q : minqueue K V) (a b : Int) : (swapStep q a b).Size = q.Size := rfl

theorem swapStep_capacity (q : minqueue K V) (a b : Int) :
    (swapStep q a b).Capacity = q.Capacity := rfl

theorem swapStep_hkey (q : minqueue K V) (a b : Int) :
    hkey (swapStep q a b) = swapFn (hkey q) a b := by
  funext i
  simp only [hkey, swapStep_heapArray, swapFn_apply]
  split_ifs <;> rfl

theorem swapStep_umap (q : minqueue K V) (a b : Int) (k : K)
    (ha : (q.HeapArray a).Key ≠ k) (hb : (q.HeapArray b).Key ≠ k) :
    (swapStep q a b).UMap k = q.UMap k := by
  have h1 : ((swapFn q.HeapArray a b) a).Key ≠ k := by
    rw [swapFn_apply]; split_ifs <;> assumption
  have h2 : ((swapFn q.HeapArray a b) b).Key ≠ k := by
    rw [swapFn_apply]; split_ifs <;> assumption
  show Function.update (Function.update q.UMap ((swapFn q.HeapArray a b) a).Key (some a))
    ((swapFn q.HeapArray a b) b).Key (some b) k = q.UMap k
  rw [Function.update_noteq (Ne.symm h2), Function.update_noteq (Ne.symm h1)]

theorem swapStep_frame (q : minqueue K V) (a b : Int)
    (ha : 0 ≤ a) (han : a < q.Size) (hb : 0 ≤ b) (hbn : b < q.Size) :
    Frame q (swapStep q a b) := by
  refine ⟨rfl, rfl, ?_, ?_⟩
  · rw [liveEntries_eq, liveEntries_eq, swapStep_heapArray, swapStep_size]
    exact listOf_swap_perm _ _ a b ha (by omega) hb (by omega)
  · intro k hk
    apply swapStep_umap
    · exact hk _ (mem_liveEntries.mpr ⟨a, ha, han, rfl⟩)
    · exact hk _ (mem_liveEntries.mpr ⟨b, hb, hbn, rfl⟩)

/-! ## `_percolateDown` -/

theorem eq_of_fields {a b : KeyValuePair K V} (h1 : a.Value = b.Value) (h2 : a.Key = b.Key) :
    a = b := by
  cases a; cases b
  simp only at h1 h2
  subst h1; subst h2
  rfl

/-- What the inner `for` loop finds: either no child is smaller than the entry
at `index` and `min` is still that entry, or `min` is the smallest child, which
is smaller than the entry at `index`, and `minIndex` is its position. -/
theorem scanChildren_cases (q : minqueue K V) (i c m : Int) (hc : c < q.Size) :
    ((scanChildren q i c m).1 = q.HeapArray i ∧
      hkey q i ≤ hkey q c ∧ (c + 1 < q.Size → hkey q i ≤ hkey q (c + 1))) ∨
    (((scanChildren q i c m).2 = c ∨ ((scanChildren q i c m).2 = c + 1 ∧ c + 1 < q.Size)) ∧
      (scanChildren q i c m).1 = q.HeapArray (scanChildren q i c m).2 ∧
      hkey q (scanChildren q i c m).2 < hkey q i ∧
      hkey q (scanChildren q i c m).2 ≤ hkey q c ∧
      (c + 1 < q.Size → hkey q (scanChildren q i c m).2 ≤ hkey q (c + 1))) := by
  have hc0 : 0 + c < q.Size := by omega
  by_cases h1 : less (q.HeapArray c) (q.HeapArray i)
  · have h1k : hkey q c < hkey q i := (less_iff _ _).mp h1
    by_cases h2 : 1 + c < q.Size
    · have h2b : c + 1 < q.Size := by omega
      by_cases h3 : less (q.HeapArray (c + 1)) (q.HeapArray c)
      · have h3k : hkey q (c + 1) < hkey q c := (less_iff _ _).mp h3
        have hval : scanChildren q i c m = (q.HeapArray (c + 1), c + 1) := by
          unfold scanChildren visitChild
          simp only [hc0, h1, h2, h3, if_true, add_zero]
        rw [hval]
        exact Or.inr ⟨Or.inr ⟨rfl, h2b⟩, rfl, lt_trans h3k h1k, le_of_lt h3k, fun _ => le_refl _⟩
      · have h3k : hkey q c ≤ hkey q (c + 1) := (entryLE_iff _ _).mp ((not_less_iff _ _).mp h3)
        have hval : scanChildren q i c m = (q.HeapArray c, c) := by
          unfold scanChildren visitChild
          simp only [hc0, h1, h2, h3, if_true, if_false, add_zero]
        rw [hval]
        exact Or.inr ⟨Or.inl rfl, rfl, h1k, le_refl _, fun _ => h3k⟩
    · have hval : scanChildren q i c m = (q.HeapArray c, c) := by
        unfold scanChildren visitChild
        simp only [hc0, h1, h2, if_true, if_false, add_zero]
      rw [hval]
      exact Or.inr ⟨Or.inl rfl, rfl, h1k, le_refl _, fun h => absurd h (by omega)⟩
  · have h1k : hkey q i ≤ hkey q c := (entryLE_iff _ _).mp ((not_less_iff _ _).mp h1)
    by_cases h2 : 1 + c < q.Size
    · have h2b : c + 1 < q.Size := by omega
      by_cases h3 : less (q.HeapArray (c + 1)) (q.HeapArray i)
      · have h3k : hkey q (c + 1) < hkey q i := (less_iff _ _).mp h3
        have hval : scanChildren q i c m = (q.HeapArray (c + 1), c + 1) := by
          unfold scanChildren visitChild
          simp only [hc0, h1, h2, h3, if_true, if_false, add_zero]
        rw [hval]
        exact Or.inr ⟨Or.inr ⟨rfl, h2b⟩, rfl, h3k, le_trans (le_of_lt h3k) h1k,
          fun _ => le_refl _⟩
      · have h3k : hkey q i ≤ hkey q (c + 1) :=
          (entryLE_iff _ _).mp ((not_less_iff _ _).mp h3)
        have hval : scanChildren q i c m = (q.HeapArray i, m) := by
          unfold scanChildren visitChild
          simp only [hc0, h1, h2, h3, if_true, if_false, add_zero]
        rw [hval]
        exact Or.inl ⟨rfl, h1k, fun _ => h3k⟩
    · have hval : scanChildren q i c m = (q.HeapArray i, m) := by
        unfold scanChildren visitChild
        simp only [hc0, h1, h2, if_true, if_false, add_zero]
      rw [hval]
      exact Or.inl ⟨rfl, h1k, fun h => absurd h (by omega)⟩

theorem percolateDownLoop_succ (fuel : Nat) (q : minqueue K V) (i m : Int) :
    percolateDownLoop (fuel + 1) q i m =
      if 2 * i + 1 < q.Size then
        if (scanChildren q i (2 * i + 1) m).1.Value = (q.HeapArray i).Value ∧
            (scanChildren q i (2 * i + 1) m).1.Key = (q.HeapArray i).Key then
          some (q, i)
        else
          percolateDownLoop fuel (swapStep q i (scanChildren q i (2 * i + 1) m).2)
            (scanChildren q i (2 * i + 1) m).2 (scanChildren q i (2 * i + 1) m).2
      else some (q, i) := rfl

/-- With enough fuel the loop of `_percolateDown` ends; it keeps the frame, and
it restores heap order when the order was only broken below `index`. -/
theorem percolateDownLoop_spec : ∀ (fuel : Nat) (q : minqueue K V) (i m : Int),
    0 ≤ i → 0 < fuel → q.Size - i < fuel →
    ∃ q1 j, percolateDownLoop fuel q i m = some (q1, j) ∧ Frame q q1 ∧
      (DownInv (hkey q) q.Size i → HeapOrder q1) := by
  intro fuel
  induction fuel with
  | zero => intro q i m _ h; omega
  | succ fuel ih =>
    intro q i m h0 _ hfuel
    rw [percolateDownLoop_succ]
    by_cases hc : 2 * i + 1 < q.Size
    · simp only [hc, if_true]
      rcases scanChildren_cases q i (2 * i + 1) m hc with ⟨hst, hl, hr⟩ | ⟨hpos, hst, hlt, hl, hr⟩
      · have hcond : (scanChildren q i (2 * i + 1) m).1.Value = (q.HeapArray i).Value ∧
            (scanChildren q i (2 * i + 1) m).1.Key = (q.HeapArray i).Key := by
          rw [hst]; exact ⟨rfl, rfl⟩
        simp only [hcond, and_self, if_true]
        refine ⟨q, i, rfl, Frame.refl q, fun hinv => ?_⟩
        rw [heapOrder_iff]
        apply hinv.isHeap
        intro j hj0 hjn hjp
        have hj : j = 2 * i + 1 ∨ j = 2 * i + 1 + 1 := by omega
        rcases hj with hj | hj
        · rw [hj]; exact hl
        · rw [hj]; exact hr (by omega)
      · have hcond : ¬ ((scanChildren q i (2 * i + 1) m).1.Value = (q.HeapArray i).Value ∧
            (scanChildren q i (2 * i + 1) m).1.Key = (q.HeapArray i).Key) := by
          rintro ⟨e1, e2⟩
          have e3 := eq_of_fields e1 e2
          rw [hst] at e3
          unfold hkey at hlt
          rw [e3] at hlt
          exact lt_irrefl _ hlt
        simp only [hcond, if_false]
        generalize hm : (scanChildren q i (2 * i + 1) m).2 = mi at hpos hst hlt hl hr
        have hmi : mi = 2 * i + 1 ∨ mi = 2 * i + 2 := by omega
        have hmn : mi < q.Size := by omega
        obtain ⟨q1, j, hrun, hframe, hheap⟩ :=
          ih (swapStep q i mi) mi mi (by omega) (by omega) (by rw [swapStep_size]; omega)
        refine ⟨q1, j, hrun, (swapStep_frame q i mi h0 (by omega) (by omega) hmn).trans hframe,
          fun hinv => ?_⟩
        apply hheap
        rw [swapStep_hkey, swapStep_size]
        apply hinv.swapDown h0 hmi hmn hlt
        intro j1 hj1 hj1n
        rcases hj1 with hj1 | hj1
        · rw [hj1]; exact hl
        · have : j1 = 2 * i + 1 + 1 := by omega
          rw [this]; exact hr (by omega)
    · simp only [hc, if_false]
      refine ⟨q, i, rfl, Frame.refl q, fun hinv => ?_⟩
      rw [heapOrder_iff]
      apply hinv.isHeap
      intro j hj0 hjn hjp
      omega

theorem percolateDown_spec (q : minqueue K V) (i : Int) (h0 : 0 ≤ i) :
    ∃ q1 j, q._percolateDown i = some (q1, j) ∧ Frame q q1 ∧
      (DownInv (hkey q) q.Size i → HeapOrder q1) :=
  percolateDownLoop_spec _ q i i h0 (by omega) (by omega)

/-! ## `_percolateUp` -/

theorem percolateUpLoop_succ (fuel : Nat) (q : minqueue K V) (i : Int) :
    percolateUpLoop (fuel + 1) q i =
      if i > 0 then
        if less (q.HeapArray i) (q.HeapArray ((i - 1) / 2)) then
          percolateUpLoop fuel (swapStep q i ((i - 1) / 2)) ((i - 1) / 2)
        else some (q, i)
      else some (q, i) := rfl

/-- With enough fuel the loop of `_percolateUp` ends; it keeps the frame, it
leaves the order broken at most below the final `index`, and it restores heap
order when the entry at `index` was not above its children. -/
theorem percolateUpLoop_spec : ∀ (fuel : Nat) (q : minqueue K V) (i : Int),
    i < q.Size → i.toNat < fuel →
    ∃ q1 j, percolateUpLoop fuel q i = some (q1, j) ∧ Frame q q1 ∧ (0 ≤ i → 0 ≤ j) ∧
      (UpInv (hkey q) q.Size i →
        DownInv (hkey q1) q1.Size j ∧ (ChildrenOK (hkey q) q.Size i → HeapOrder q1)) := by
  intro fuel
  induction fuel with
  | zero => intro q i _ h; omega
  | succ fuel ih =>
    intro q i hn hfuel
    rw [percolateUpLoop_succ]
    by_cases hi : i > 0
    · simp only [hi, if_true]
      by_cases hl : less (q.HeapArray i) (q.HeapArray ((i - 1) / 2))
      · simp only [hl, if_true]
        have hlt : hkey q i < hkey q ((i - 1) / 2) := (less_iff _ _).mp hl
        obtain ⟨q1, j, hrun, hframe, hj, hres⟩ :=
          ih (swapStep q i ((i - 1) / 2)) ((i - 1) / 2)
            (by rw [swapStep_size]; omega) (by omega)
        refine ⟨q1, j, hrun,
          (swapStep_frame q i ((i - 1) / 2) (by omega) hn (by omega) (by omega)).trans hframe,
          fun _ => hj (by omega), fun hinv => ?_⟩
        rw [swapStep_hkey, swapStep_size] at hres
        have hres2 := hres (hinv.swapUp hi hn hlt)
        exact ⟨hres2.1, fun hc => hres2.2 (ChildrenOK.swapChild hinv hc hi hlt)⟩
      · simp only [hl, if_false]
        have hle : hkey q ((i - 1) / 2) ≤ hkey q i :=
          (entryLE_iff _ _).mp ((not_less_iff _ _).mp hl)
        refine ⟨q, i, rfl, Frame.refl q, fun h => h, fun hinv => ?_⟩
        have hd := hinv.stopDownInv (Or.inr hle)
        exact ⟨hd, fun hc => (heapOrder_iff q).mpr (hd.isHeap hc)⟩
    · simp only [hi, if_false]
      refine ⟨q, i, rfl, Frame.refl q, fun h => h, fun hinv => ?_⟩
      have hd := hinv.stopDownInv (Or.inl (by omega))
      exact ⟨hd, fun hc => (heapOrder_iff q).mpr (hd.isHeap hc)⟩

theorem percolateUp_spec (q : minqueue K V) (i : Int) (hn : i < q.Size) :
    ∃ q1 j, q._percolateUp i = some (q1, j) ∧ Frame q q1 ∧ (0 ≤ i → 0 ≤ j) ∧
      (UpInv (hkey q) q.Size i →
        DownInv (hkey q1) q1.Size j ∧ (ChildrenOK (hkey q) q.Size i → HeapOrder q1)) :=
  percolateUpLoop_spec _ q i hn (by omega)

/-! ## `pushinorder`: the insert branch and `_delete` -/

theorem pushinorderDepth_succ (depth : Nat) (q : minqueue K V) (key : K) (value : V) :
    pushinorderDepth (depth + 1) q key value =
      if q.UMap key = none then
        if q.Size = q.Capacity then
          Outcome.thrown q (Exception.runtime_error "minqueue::pushinorder: queue full")
        else
          match (appendEntry q key value)._percolateUp q.Size with
          | none => Outcome.diverged
          | some (q5, _) => Outcome.returned q5 ()
      else
        match q._delete key with
        | none => Outcome.diverged
        | some q1 =>
          pushinorderDepth depth { q1 with UMap := Function.update q1.UMap key none } key value :=
  rfl

theorem appendEntry_size (q : minqueue K V) (key : K) (value : V) :
    (appendEntry q key value).Size = q.Size + 1 := rfl

theorem appendEntry_capacity (q : minqueue K V) (key : K) (value : V) :
    (appendEntry q key value).Capacity = q.Capacity := rfl

theorem appendEntry_heapArray (q : minqueue K V) (key : K) (value : V) :
    (appendEntry q key value).HeapArray =
      Function.update q.HeapArray q.Size { Key := key, Value := value } := by
  show Function.update (Function.update q.HeapArray q.Size _) q.Size _ = _
  rw [Function.update_idem]
  simp only [Function.update_same]

theorem appendEntry_liveEntries (q : minqueue K V) (key : K) (value : V) (h0 : 0 ≤ q.Size) :
    liveEntries (appendEntry q key value) = liveEntries q ++ [{ Key := key, Value := value }] := by
  rw [liveEntries_eq, liveEntries_eq, appendEntry_heapArray, appendEntry_size]
  have hn : (q.Size + 1).toNat = q.Size.toNat + 1 := by omega
  rw [hn, listOf_succ]
  have hs : ((q.Size.toNat : Nat) : Int) = q.Size := Int.toNat_of_nonneg h0
  rw [hs, Function.update_same]
  congr 1
  apply listOf_congr
  intro i _ hi
  exact Function.update_noteq (by omega) _ _

theorem appendEntry_upInv (q : minqueue K V) (key : K) (value : V) (h0 : 0 ≤ q.Size)
    (hheap : HeapOrder q) :
    UpInv (hkey (appendEntry q key value)) (appendEntry q key value).Size q.Size ∧
      ChildrenOK (hkey (appendEntry q key value)) (appendEntry q key value).Size q.Size := by
  have hh := (heapOrder_iff q).mp hheap
  rw [appendEntry_size]
  refine ⟨⟨fun j hj0 hjn hji hjp => ?_, fun _ j hj0 hjn hjp => ?_⟩, fun j hj0 hjn hjp => ?_⟩
  · have e1 : hkey (appendEntry q key value) j = hkey q j := by
      unfold hkey; rw [appendEntry_heapArray, Function.update_noteq hji]
    have e2 : hkey (appendEntry q key value) ((j - 1) / 2) = hkey q ((j - 1) / 2) := by
      unfold hkey; rw [appendEntry_heapArray, Function.update_noteq hjp]
    rw [e1, e2]
    exact hh j hj0 (by omega)
  · omega
  · omega

/-- The insert branch of `pushinorder` returns; it appends the new entry to
the live entries and keeps heap order. -/
theorem pushinorderDepth_insert (depth : Nat) (q : minqueue K V) (key : K) (value : V)
    (hU : q.UMap key = none) (hne : q.Size ≠ q.Capacity) (h0 : 0 ≤ q.Size) :
    ∃ q1, pushinorderDepth (depth + 1) q key value = Outcome.returned q1 () ∧
      q1.Size = q.Size + 1 ∧ q1.Capacity = q.Capacity ∧
      (liveEntries q1).Perm (liveEntries q ++ [{ Key := key, Value := value }]) ∧
      (HeapOrder q → HeapOrder q1) := by
  rw [pushinorderDepth_succ]
  simp only [hU, hne, if_true, if_false]
  obtain ⟨q1, j, hrun, hframe, _, hres⟩ :=
    percolateUp_spec (appendEntry q key value) q.Size (by rw [appendEntry_size]; omega)
  rw [hrun]
  refine ⟨q1, rfl, ?_, ?_, ?_, fun hheap => ?_⟩
  · rw [hframe.size, appendEntry_size]
  · rw [hframe.capacity, appendEntry_capacity]
  · have := hframe.perm
    rw [appendEntry_liveEntries q key value h0] at this
    exact this
  · obtain ⟨hu, hc⟩ := appendEntry_upInv q key value h0 hheap
    exact (hres hu).2 hc

theorem delete_eq (q : minqueue K V) (key : K) :
    q._delete key =
      if (q.UMap key).getD 0 = q.Size - 1 then
        some { q with UMap := Function.update q.UMap key (some ((q.UMap key).getD 0)),
                      Size := q.Size - 1 }
      else
        match (moveLast q key)._percolateUp ((q.UMap key).getD 0) with
        | none => none
        | some (q4, indexToDelete1) =>
          match q4._percolateDown indexToDelete1 with
          | none => none
          | some (q5, _) => some q5 := rfl

theorem moveLast_size (q : minqueue K V) (key : K) : (moveLast q key).Size = q.Size - 1 := rfl

theorem moveLast_capacity (q : minqueue K V) (key : K) :
    (moveLast q key).Capacity = q.Capacity := rfl

theorem moveLast_heapArray (q : minqueue K V) (key : K) :
    (moveLast q key).HeapArray =
      Function.update q.HeapArray ((q.UMap key).getD 0) (q.HeapArray (q.Size - 1)) := rfl

theorem moveLast_perm (q : minqueue K V) (key : K) (idx : Int) (hU : q.UMap key = some idx)
    (h0 : 0 ≤ idx) (hn : idx < q.Size - 1) :
    (liveEntries (moveLast q key) ++ [q.HeapArray idx]).Perm (liveEntries q) := by
  rw [liveEntries_eq, liveEntries_eq, moveLast_heapArray, moveLast_size, hU]
  simp only [Option.getD_some]
  have hn1 : q.Size.toNat = (q.Size - 1).toNat + 1 := by omega
  have hlast : (((q.Size - 1).toNat : Nat) : Int) = q.Size - 1 := by omega
  have e1 : listOf (Function.update q.HeapArray idx (q.HeapArray (q.Size - 1))) (q.Size - 1).toNat
      = listOf (swapFn q.HeapArray idx (q.Size - 1)) (q.Size - 1).toNat := by
    apply listOf_congr
    intro i hi0 hin
    rw [swapFn_apply]
    have hne : i ≠ q.Size - 1 := by omega
    simp only [hne, if_false]
    by_cases hi : i = idx
    · subst hi; simp
    · simp [hi, Function.update_noteq hi]
  have e2 : swapFn q.HeapArray idx (q.Size - 1) (q.Size - 1) = q.HeapArray idx := by
    rw [swapFn_apply]; simp
  have e3 : listOf (swapFn q.HeapArray idx (q.Size - 1)) q.Size.toNat =
      listOf (swapFn q.HeapArray idx (q.Size - 1)) (q.Size - 1).toNat ++ [q.HeapArray idx] := by
    rw [hn1, listOf_succ, hlast, e2]
  rw [e1, ← e3]
  exact listOf_swap_perm _ _ idx (q.Size - 1) h0 (by omega) (by omega) (by omega)

theorem moveLast_upInv (q : minqueue K V) (key : K) (idx : Int) (hU : q.UMap key = some idx)
    (h0 : 0 ≤ idx) (hn : idx < q.Size - 1) (hheap : HeapOrder q) :
    UpInv (hkey (moveLast q key)) (moveLast q key).Size idx := by
  have hh := (heapOrder_iff q).mp hheap
  have hval : ∀ j : Int, j ≠ idx → hkey (moveLast q key) j = hkey q j := by
    intro j hj
    unfold hkey
    rw [moveLast_heapArray, hU]
    simp only [Option.getD_some]
    rw [Function.update_noteq hj]
  rw [moveLast_size]
  refine ⟨fun j hj0 hjn hji hjp => ?_, fun hi j hj0 hjn hjp => ?_⟩
  · rw [hval j hji, hval _ hjp]
    exact hh j hj0 (by omega)
  · rw [hval j (by omega), hval _ (by omega)]
    have h1 := hh idx hi (by omega)
    have h2 := hh j hj0 (by omega)
    rw [hjp] at h2
    exact le_trans h1 h2

/-- On a key that the position index maps to a live position, `_delete`
returns; it removes the entry at that position from the live entries and keeps
heap order. -/
theorem delete_spec (q : minqueue K V) (key : K) (idx : Int) (hU : q.UMap key = some idx)
    (h0 : 0 ≤ idx) (hn : idx < q.Size) :
    ∃ q1, q._delete key = some q1 ∧ q1.Size = q.Size - 1 ∧ q1.Capacity = q.Capacity ∧
      (liveEntries q1 ++ [q.HeapArray idx]).Perm (liveEntries q) ∧
      (HeapOrder q → HeapOrder q1) := by
  rw [delete_eq, hU]
  simp only [Option.getD_some]
  by_cases hlast : idx = q.Size - 1
  · simp only [hlast, if_true]
    refine ⟨_, rfl, rfl, rfl, ?_, fun hheap => ?_⟩
    · have hn1 : q.Size.toNat = (q.Size - 1).toNat + 1 := by omega
      have hl : (((q.Size - 1).toNat : Nat) : Int) = q.Size - 1 := by omega
      rw [liveEntries_eq, liveEntries_eq]
      show (listOf q.HeapArray (q.Size - 1).toNat ++ [q.HeapArray (q.Size - 1)]).Perm _
      rw [hn1, listOf_succ, hl]
    · intro i hi0 hin
      exact hheap i hi0 (by change i < q.Size - 1 at hin; omega)
  · simp only [hlast, if_false]
    have hn2 : idx < q.Size - 1 := by omega
    obtain ⟨q4, j, hrun, hframe, hj, hres⟩ :=
      percolateUp_spec (moveLast q key) idx (by rw [moveLast_size]; exact hn2)
    rw [hrun]
    obtain ⟨q5, j2, hrun2, hframe2, hres2⟩ := percolateDown_spec q4 j (hj h0)
    simp only [hrun2]
    have hf := hframe.trans hframe2
    refine ⟨q5, rfl, ?_, ?_, ?_, fun hheap => ?_⟩
    · rw [hf.size, moveLast_size]
    · rw [hf.capacity, moveLast_capacity]
    · exact (List.Perm.append_right _ hf.perm).trans (moveLast_perm q key idx hU h0 hn2)
    · exact hres2 (hres (moveLast_upInv q key idx hU h0 hn2 hheap)).1

/-! ## `minpop` and the whole of `pushinorder` -/

theorem minpop_eq (q : minqueue K V) :
    q.minpop =
      if q.empty then
        Outcome.thrown q (Exception.logic_error "minqueue::minpop: queue empty")
      else
        match (popFront q)._percolateDown 0 with
        | none => Outcome.diverged
        | some (q4, _) => Outcome.returned q4 () := rfl

theorem popFront_size (q : minqueue K V) : (popFront q).Size = q.Size - 1 := rfl

theorem popFront_capacity (q : minqueue K V) : (popFront q).Capacity = q.Capacity := rfl

theorem popFront_heapArray (q : minqueue K V) :
    (popFront q).HeapArray = swapFn q.HeapArray 0 (q.Size - 1) := rfl

theorem popFront_umap (q : minqueue K V) :
    (popFront q).UMap = Function.update q.UMap (q.HeapArray 0).Key none := rfl

theorem popFront_perm (q : minqueue K V) (h1 : 1 ≤ q.Size) :
    (liveEntries (popFront q) ++ [q.HeapArray 0]).Perm (liveEntries q) := by
  rw [liveEntries_eq, liveEntries_eq, popFront_heapArray, popFront_size]
  have hn1 : q.Size.toNat = (q.Size - 1).toNat + 1 := by omega
  have hlast : (((q.Size - 1).toNat : Nat) : Int) = q.Size - 1 := by omega
  have e2 : swapFn q.HeapArray 0 (q.Size - 1) (q.Size - 1) = q.HeapArray 0 := by
    rw [swapFn_apply]; simp
  have e3 : listOf (swapFn q.HeapArray 0 (q.Size - 1)) q.Size.toNat =
      listOf (swapFn q.HeapArray 0 (q.Size - 1)) (q.Size - 1).toNat ++ [q.HeapArray 0] := by
    rw [hn1, listOf_succ, hlast, e2]
  rw [← e3]
  exact listOf_swap_perm _ _ 0 (q.Size - 1) (le_refl _) (by omega) (by omega) (by omega)

theorem popFront_downInv (q : minqueue K V) (hheap : HeapOrder q) :
    DownInv (hkey (popFront q)) (popFront q).Size 0 := by
  have hh := (heapOrder_iff q).mp hheap
  have hval : ∀ j : Int, 0 < j → j < q.Size - 1 → hkey (popFront q) j = hkey q j := by
    intro j hj0 hjn
    unfold hkey
    rw [popFront_heapArray, swapFn_apply]
    have e1 : j ≠ q.Size - 1 := by omega
    have e2 : j ≠ 0 := by omega
    simp only [e1, e2, if_false]
  rw [popFront_size]
  refine ⟨fun j hj0 hjn hjp => ?_, fun h => absurd h (lt_irrefl 0)⟩
  rw [hval j hj0 hjn, hval _ (by omega) (by omega)]
  exact hh j hj0 (by omega)

theorem not_empty_of_pos (q : minqueue K V) (h1 : 1 ≤ q.Size) : q.empty = false := by
  unfold empty
  exact decide_eq_false (by omega)

/-- On a non-empty queue `minpop` returns; it removes the front entry from the
live entries, keeps heap order, and, when the live keys are distinct, leaves
the key of the old front entry out of the position index. -/
theorem minpop_spec (q : minqueue K V) (h1 : 1 ≤ q.Size) :
    ∃ q1, q.minpop = Outcome.returned q1 () ∧ q1.Size = q.Size - 1 ∧
      q1.Capacity = q.Capacity ∧
      (liveEntries q1 ++ [q.HeapArray 0]).Perm (liveEntries q) ∧
      (HeapOrder q → HeapOrder q1) ∧
      (DistinctKeys q → q1.UMap (q.HeapArray 0).Key = none) := by
  rw [minpop_eq, not_empty_of_pos q h1]
  obtain ⟨q1, j, hrun, hframe, hres⟩ := percolateDown_spec (popFront q) 0 (le_refl _)
  simp only [hrun]
  refine ⟨q1, by simp, ?_, ?_, ?_, fun hheap => hres (popFront_downInv q hheap),
    fun hdist => ?_⟩
  · rw [hframe.size, popFront_size]
  · rw [hframe.capacity, popFront_capacity]
  · exact (List.Perm.append_right _ hframe.perm).trans (popFront_perm q h1)
  · have hnd : ((liveEntries (popFront q) ++ [q.HeapArray 0]).map KeyValuePair.Key).Nodup :=
      ((popFront_perm q h1).map _).nodup_iff.mpr hdist
    rw [List.map_append, List.nodup_append] at hnd
    have hdisj := hnd.2.2
    rw [hframe.umap, popFront_umap, Function.update_same]
    intro e he hk
    exact hdisj (List.mem_map_of_mem _ he) (by simp [hk])

theorem distinctKeys_of_indexConsistent (q : minqueue K V) (h : IndexConsistent q) :
    DistinctKeys q := by
  unfold DistinctKeys liveEntries
  rw [List.map_map]
  apply List.Nodup.map_on _ (List.nodup_range _)
  intro x hx y hy hxy
  have hx2 := List.mem_range.mp hx
  have hy2 := List.mem_range.mp hy
  simp only [Function.comp] at hxy
  have e1 := h x (by omega) (by omega)
  have e2 := h y (by omega) (by omega)
  rw [hxy, e2] at e1
  have e3 : (y : Int) = x := Option.some.inj e1
  omega

/-- On a well-formed state, `pushinorder` returns unless the key is new and
the queue is full; the live entries afterwards are the old ones without the
entry for `key`, and the entry `(key, value)`; heap order holds afterwards. -/
theorem pushinorder_spec (q : minqueue K V) (key : K) (value : V) (hwf : WellFormed q)
    (hroom : q.UMap key = none → q.Size ≠ q.Capacity) :
    ∃ q1, q.pushinorder key value = Outcome.returned q1 () ∧
      q1.Size = (if q.UMap key = none then q.Size + 1 else q.Size) ∧
      q1.Capacity = q.Capacity ∧
      (liveEntries q1).Perm
        ({ Key := key, Value := value } :: (liveEntries q).filter (fun e => decide (e.Key ≠ key))) ∧
      HeapOrder q1 := by
  unfold pushinorder
  by_cases hU : q.UMap key = none
  · obtain ⟨q1, hrun, hs, hc, hp, hh⟩ :=
      pushinorderDepth_insert 1 q key value hU (hroom hU) hwf.size_nonneg
    refine ⟨q1, hrun, by simp only [hU, if_true]; exact hs, hc, ?_, hh hwf.heap⟩
    have hfil : (liveEntries q).filter (fun e => decide (e.Key ≠ key)) = liveEntries q := by
      rw [List.filter_eq_self]
      intro e he
      obtain ⟨i, hi0, hin, hie⟩ := mem_liveEntries.mp he
      have := hwf.index i hi0 hin
      rw [hie] at this
      simp only [decide_eq_true_eq]
      intro hk
      rw [hk, hU] at this
      exact Option.noConfusion this
    rw [hfil]
    exact hp.trans (List.perm_append_singleton _ _)
  · obtain ⟨idx, hidx⟩ := Option.ne_none_iff_exists'.mp hU
    obtain ⟨hi0, hin, hik⟩ := hwf.exact key idx hidx
    obtain ⟨qd, hdel, hds, hdc, hdp, hdh⟩ := delete_spec q key idx hidx hi0 hin
    rw [pushinorderDepth_succ]
    simp only [hU, if_false, hdel]
    obtain ⟨q1, hrun, hs, hc, hp, hh⟩ :=
      pushinorderDepth_insert 0 { qd with UMap := Function.update qd.UMap key none } key value
        (Function.update_same _ _ _)
        (by show qd.Size ≠ qd.Capacity; rw [hds, hdc]; have := hwf.size_le; omega)
        (by show 0 ≤ qd.Size; rw [hds]; omega)
    refine ⟨q1, hrun, ?_, ?_, ?_, hh (hdh hwf.heap)⟩
    · rw [hs]; show qd.Size + 1 = q.Size; rw [hds]; omega
    · rw [hc]; exact hdc
    · have hnd : ((liveEntries qd ++ [q.HeapArray idx]).map KeyValuePair.Key).Nodup :=
        (hdp.map _).nodup_iff.mpr (distinctKeys_of_indexConsistent q hwf.index)
      rw [List.map_append, List.nodup_append] at hnd
      have hdisj := hnd.2.2
      have hfil1 : (liveEntries qd).filter (fun e => decide (e.Key ≠ key)) = liveEntries qd := by
        rw [List.filter_eq_self]
        intro e he
        simp only [decide_eq_true_eq]
        intro hk
        exact hdisj (List.mem_map_of_mem _ he) (by simp [hk, hik])
      have hfil2 : (liveEntries qd ++ [q.HeapArray idx]).filter (fun e => decide (e.Key ≠ key))
          = liveEntries qd := by
        rw [List.filter_append, hfil1]
        simp [hik]
      have hfil3 := hdp.filter (fun e => decide (e.Key ≠ key))
      rw [hfil2] at hfil3
      have hp2 : (liveEntries q1).Perm (liveEntries qd ++ [{ Key := key, Value := value }]) := hp
      exact (hp2.trans (List.perm_append_singleton _ _)).trans (List.Perm.cons _ hfil3)

/-! ## What the operations do to `Size` in any state -/

theorem percolateUpLoop_size : ∀ (fuel : Nat) (q : minqueue K V) (i : Int)
    (r : minqueue K V × Int), percolateUpLoop fuel q i = some r →
    r.1.Size = q.Size ∧ r.1.Capacity = q.Capacity := by
  intro fuel
  induction fuel with
  | zero => intro q i r h; exact Option.noConfusion h
  | succ fuel ih =>
    intro q i r h
    rw [percolateUpLoop_succ] at h
    split_ifs at h
    · have h2 := ih _ _ r h
      exact h2
    · cases h; exact ⟨rfl, rfl⟩
    · cases h; exact ⟨rfl, rfl⟩

theorem percolateDownLoop_size : ∀ (fuel : Nat) (q : minqueue K V) (i m : Int)
    (r : minqueue K V × Int), percolateDownLoop fuel q i m = some r →
    r.1.Size = q.Size ∧ r.1.Capacity = q.Capacity := by
  intro fuel
  induction fuel with
  | zero => intro q i m r h; exact Option.noConfusion h
  | succ fuel ih =>
    intro q i m r h
    rw [percolateDownLoop_succ] at h
    split_ifs at h
    · cases h; exact ⟨rfl, rfl⟩
    · have h2 := ih _ _ _ r h
      exact h2
    · cases h; exact ⟨rfl, rfl⟩

theorem delete_size (q q1 : minqueue K V) (key : K) (h : q._delete key = some q1) :
    q1.Size = q.Size - 1 ∧ q1.Capacity = q.Capacity := by
  rw [delete_eq] at h
  split_ifs at h
  · cases h; exact ⟨rfl, rfl⟩
  · cases hup : (moveLast q key)._percolateUp ((q.UMap key).getD 0) with
    | none => rw [hup] at h; exact Option.noConfusion h
    | some r =>
      obtain ⟨q4, j⟩ := r
      rw [hup] at h
      simp only at h
      cases hdown : q4._percolateDown j with
      | none => rw [hdown] at h; exact Option.noConfusion h
      | some r2 =>
        obtain ⟨q5, j2⟩ := r2
        rw [hdown] at h
        simp only [Option.some.injEq] at h
        subst h
        have e1 := percolateUpLoop_size _ _ _ _ hup
        have e2 := percolateDownLoop_size _ _ _ _ _ hdown
        simp only at e1 e2
        rw [e2.1, e2.2, e1.1, e1.2]
        exact ⟨rfl, rfl⟩

/-- The insert branch does not throw when the queue is not full. -/
theorem pushinorderDepth_insert_threw (depth : Nat) (q : minqueue K V) (key : K) (value : V)
    (hU : q.UMap key = none) (hne : q.Size ≠ q.Capacity) :
    (pushinorderDepth (depth + 1) q key value).threw = false := by
  rw [pushinorderDepth_succ]
  simp only [hU, hne, if_true, if_false]
  cases (appendEntry q key value)._percolateUp q.Size with
  | none => rfl
  | some r => rfl

/-! ## Properties of the public operations -/

theorem tieQueue_wellFormed : WellFormed tieQueue :=
  ⟨by decide, by decide, by decide, by decide, by decide⟩

theorem fullQueue_wellFormed : WellFormed fullQueue :=
  ⟨by decide, by decide, by decide, by decide, by decide⟩

theorem front_le_live (q : minqueue K V) (hheap : HeapOrder q)
    (e : KeyValuePair K V) (he : e ∈ liveEntries q) : entryLE (q.HeapArray 0) e := by
  obtain ⟨i, hi0, hin, hie⟩ := mem_liveEntries.mp he
  rw [← hie, entryLE_iff]
  exact ((heapOrder_iff q).mp hheap).root_le i.toNat i (le_refl _) hi0 hin

/-- C1: on a state with `Size ≥ 1` whose live buffer is heap-ordered, `minfront`
returns, without changing the state, the key of a live entry that is less than
or equal to every live entry in the (value, then key) ordering; among the live
entries that have the smallest value, its key is the smallest. -/
theorem minfront_returns_minimum (q : minqueue K V) (hsize : 1 ≤ q.Size)
    (hheap : HeapOrder q) :
    ∃ e ∈ liveEntries q, q.minfront = Outcome.returned q e.Key ∧
      (∀ e1 ∈ liveEntries q, entryLE e e1) ∧
      (∀ e1 ∈ liveEntries q, (∀ e2 ∈ liveEntries q, e1.Value ≤ e2.Value) → e.Key ≤ e1.Key) := by
  have hmem : q.HeapArray 0 ∈ liveEntries q := mem_liveEntries.mpr ⟨0, le_refl _, by omega, rfl⟩
  refine ⟨q.HeapArray 0, hmem, ?_, front_le_live q hheap, fun e1 he1 hmin => ?_⟩
  · unfold minfront
    rw [not_empty_of_pos q hsize]
    rfl
  · have h1 : e1.Value ≤ (q.HeapArray 0).Value := hmin _ hmem
    rcases front_le_live q hheap e1 he1 with h2 | ⟨_, h3⟩
    · exact absurd h2 (not_lt.mpr h1)
    · exact h3

theorem minfront_returns_minimum_witness :
    1 ≤ tieQueue.Size ∧ HeapOrder tieQueue ∧
    ∃ e ∈ liveEntries tieQueue, tieQueue.minfront = Outcome.returned tieQueue e.Key ∧
      (∀ e1 ∈ liveEntries tieQueue, entryLE e e1) ∧
      (∀ e1 ∈ liveEntries tieQueue,
        (∀ e2 ∈ liveEntries tieQueue, e1.Value ≤ e2.Value) → e.Key ≤ e1.Key) :=
  ⟨by decide, by decide, minfront_returns_minimum tieQueue (by decide) (by decide)⟩

/-- C2: on a heap-ordered state with `n` entries, repeating `minfront; minpop`
`n` times returns every time; the keys observed are those of the live entries
sorted ascending by value with ties broken by ascending key, and the queue is
empty afterwards.  (The keys need not be distinct for this.) -/
theorem drain_sorted (n : Nat) (q : minqueue K V) (hsize : q.Size = n) (hheap : HeapOrder q) :
    ∃ q1, drain n q =
        some (((liveEntries q).insertionSort entryLE).map KeyValuePair.Key, q1) ∧
      q1.Size = 0 := by
  haveI : IsTrans (KeyValuePair K V) entryLE := entryLE_isTrans
  haveI : IsAntisymm (KeyValuePair K V) entryLE := entryLE_isAntisymm
  haveI : IsTotal (KeyValuePair K V) entryLE := entryLE_isTotal
  induction n generalizing q with
  | zero =>
    refine ⟨q, ?_, by omega⟩
    have : liveEntries q = [] := by
      unfold liveEntries
      rw [hsize]
      rfl
    rw [this]
    rfl
  | succ n ih =>
    have h1 : 1 ≤ q.Size := by omega
    obtain ⟨q2, hpop, hs2, _, hperm, hh2, _⟩ := minpop_spec q h1
    obtain ⟨q1, hdrain, hq1⟩ := ih q2 (by omega) (hh2 hheap)
    refine ⟨q1, ?_, hq1⟩
    have hfront : q.minfront = Outcome.returned q (q.HeapArray 0).Key := by
      unfold minfront
      rw [not_empty_of_pos q h1]
      rfl
    have hsort : (liveEntries q).insertionSort entryLE =
        q.HeapArray 0 :: (liveEntries q2).insertionSort entryLE := by
      apply List.eq_of_perm_of_sorted (r := entryLE) _ (List.sorted_insertionSort _ _)
      · rw [List.sorted_cons]
        refine ⟨fun b hb => ?_, List.sorted_insertionSort _ _⟩
        have hb2 : b ∈ liveEntries q2 := (List.perm_insertionSort _ _).mem_iff.mp hb
        exact front_le_live q hheap b (hperm.subset (List.mem_append_left _ hb2))
      · have p1 := List.perm_insertionSort entryLE (liveEntries q)
        have p2 := List.perm_insertionSort entryLE (liveEntries q2)
        exact p1.trans ((hperm.symm.trans (List.perm_append_singleton _ _)).trans
          (List.Perm.cons _ p2.symm))
    rw [drain, hfront]
    simp only [hpop, hdrain, hsort, Option.map_some', List.map_cons]

theorem drain_sorted_witness :
    tieQueue.Size = (2 : Nat) ∧ HeapOrder tieQueue ∧
    ∃ q1, drain 2 tieQueue =
        some (((liveEntries tieQueue).insertionSort entryLE).map KeyValuePair.Key, q1) ∧
      q1.Size = 0 :=
  ⟨by decide, by decide, drain_sorted 2 tieQueue (by decide) (by decide)⟩

/-- C3: on a well-formed state, `pushinorder(key, value)` returns unless `key`
is new and the queue is full, and then the multiset of the live entries is the
old one with the entry for `key` removed, plus the entry `(key, value)`; `Size`
grows by one for a new key and is unchanged for a key already present. -/
theorem pushinorder_multiset (q : minqueue K V) (key : K) (value : V) (hwf : WellFormed q)
    (hroom : q.UMap key = none → q.Size ≠ q.Capacity) :
    ∃ q1, q.pushinorder key value = Outcome.returned q1 () ∧
      liveMultiset q1 =
        { Key := key, Value := value } ::ₘ (liveMultiset q).filter (fun e => e.Key ≠ key) ∧
      q1.Size = (if q.UMap key = none then q.Size + 1 else q.Size) := by
  obtain ⟨q1, hrun, hs, _, hp, _⟩ := pushinorder_spec q key value hwf hroom
  refine ⟨q1, hrun, ?_, hs⟩
  unfold liveMultiset
  rw [Multiset.filter_coe, Multiset.cons_coe, Multiset.coe_eq_coe]
  exact hp

theorem pushinorder_multiset_witness :
    WellFormed tieQueue ∧ (tieQueue.UMap 2 = none → tieQueue.Size ≠ tieQueue.Capacity) ∧
    ∃ q1, tieQueue.pushinorder 2 1 = Outcome.returned q1 () ∧
      liveMultiset q1 =
        { Key := 2, Value := 1 } ::ₘ (liveMultiset tieQueue).filter (fun e => e.Key ≠ 2) ∧
      q1.Size = (if tieQueue.UMap 2 = none then tieQueue.Size + 1 else tieQueue.Size) :=
  ⟨tieQueue_wellFormed, by decide,
    pushinorder_multiset tieQueue 2 1 tieQueue_wellFormed (by decide)⟩

/-- C4: index consistency does not hold in every reachable state.  After
`minqueue(2)`, `pushinorder(1, 5)`, `pushinorder(2, 5)`, `minpop()` the queue
has one entry, with key 2 at position 0, and the position index still maps key
2 to position 1. -/
theorem minpop_leaves_stale_index :
    ((ofCapacity 2 zeroMem).calls
        [Call.pushinorder 1 5, Call.pushinorder 2 5, Call.minpop]).map
      (fun q => (q.Size, (q.HeapArray 0).Key, q.UMap 2, decide (IndexConsistent q)))
      = some (1, 2, some 1, false) := by
  decide

/-- C5: a successful `pushinorder` can remove another key.  After
`minqueue(3)`, `pushinorder(1, 1)`, `pushinorder(2, 3)`, `pushinorder(3, 2)`,
`minpop()` the live keys are 3 and 2; `pushinorder(3, 5)` returns and the live
keys are then 3 and 3: key 2 is gone. -/
theorem pushinorder_drops_other_key :
    ((ofCapacity 3 zeroMem).calls
        [Call.pushinorder 1 1, Call.pushinorder 2 3, Call.pushinorder 3 2, Call.minpop]).bind
      (fun q =>
        match q.pushinorder 3 5 with
        | Outcome.returned q1 _ =>
          some ((liveEntries q).map KeyValuePair.Key, (liveEntries q1).map KeyValuePair.Key)
        | _ => none)
      = some ([3, 2], [3, 3]) := by
  decide

/-- C6: key uniqueness does not hold in every reachable state.  After
`minqueue(3)`, `pushinorder(1, 1)`, `pushinorder(2, 3)`, `pushinorder(3, 2)`,
`minpop()`, `pushinorder(3, 5)` the queue has two entries, `(3, 2)` at
position 0 and `(3, 5)` at position 1. -/
theorem pushinorder_duplicates_key :
    ((ofCapacity 3 zeroMem).calls
        [Call.pushinorder 1 1, Call.pushinorder 2 3, Call.pushinorder 3 2, Call.minpop,
          Call.pushinorder 3 5]).map
      (fun q => (q.Size, q.HeapArray 0, q.HeapArray 1, decide (DistinctKeys q)))
      = some (2, { Key := 3, Value := 2 }, { Key := 3, Value := 5 }, false) := by
  decide

/-- C7: heap order is preserved by the two mutating operations: `minpop` on a
heap-ordered state with `Size ≥ 1`, and `pushinorder` on a well-formed state
(unless the key is new and the queue is full), return a state in which no live
entry at a non-root position is smaller than the entry at its parent. -/
theorem heapOrder_preserved (q : minqueue K V) :
    (1 ≤ q.Size → HeapOrder q → ∃ q1, q.minpop = Outcome.returned q1 () ∧ HeapOrder q1) ∧
    (WellFormed q → ∀ (key : K) (value : V), (q.UMap key = none → q.Size ≠ q.Capacity) →
      ∃ q1, q.pushinorder key value = Outcome.returned q1 () ∧ HeapOrder q1) := by
  constructor
  · intro h1 hheap
    obtain ⟨q1, hrun, _, _, _, hh, _⟩ := minpop_spec q h1
    exact ⟨q1, hrun, hh hheap⟩
  · intro hwf key value hroom
    obtain ⟨q1, hrun, _, _, _, hh⟩ := pushinorder_spec q key value hwf hroom
    exact ⟨q1, hrun, hh⟩

theorem heapOrder_preserved_witness :
    (1 ≤ tieQueue.Size ∧ HeapOrder tieQueue ∧
      ∃ q1, tieQueue.minpop = Outcome.returned q1 () ∧ HeapOrder q1) ∧
    (WellFormed tieQueue ∧ (tieQueue.UMap 3 = none → tieQueue.Size ≠ tieQueue.Capacity) ∧
      ∃ q1, tieQueue.pushinorder 3 2 = Outcome.returned q1 () ∧ HeapOrder q1) :=
  ⟨⟨by decide, by decide, (heapOrder_preserved tieQueue).1 (by decide) (by decide)⟩,
    ⟨tieQueue_wellFormed, by decide,
      (heapOrder_preserved tieQueue).2 tieQueue_wellFormed 3 2 (by decide)⟩⟩

/-- C8: on a state with `Size ≥ 1` and distinct live keys, `minpop` returns;
`Size` decreases by one, the multiset of the live entries is the old one minus
the old front entry, and the key of the old front entry is not a key of the
position index afterwards.  (Heap order is not needed for this.) -/
theorem minpop_removes_front (q : minqueue K V) (hsize : 1 ≤ q.Size) (hdist : DistinctKeys q) :
    ∃ q1, q.minpop = Outcome.returned q1 () ∧ q1.Size = q.Size - 1 ∧
      liveMultiset q1 = (liveMultiset q).erase (q.HeapArray 0) ∧
      q1.UMap (q.HeapArray 0).Key = none := by
  obtain ⟨q1, hrun, hs, _, hperm, _, hU⟩ := minpop_spec q hsize
  refine ⟨q1, hrun, hs, ?_, hU hdist⟩
  unfold liveMultiset
  rw [Multiset.coe_erase, Multiset.coe_eq_coe]
  have h2 : (q.HeapArray 0 :: liveEntries q1).Perm (liveEntries q) :=
    (List.perm_append_singleton _ _).symm.trans hperm
  exact (List.cons_perm_iff_perm_erase.mp h2).2

theorem minpop_removes_front_witness :
    1 ≤ fullQueue.Size ∧ DistinctKeys fullQueue ∧
    ∃ q1, fullQueue.minpop = Outcome.returned q1 () ∧ q1.Size = fullQueue.Size - 1 ∧
      liveMultiset q1 = (liveMultiset fullQueue).erase (fullQueue.HeapArray 0) ∧
      q1.UMap (fullQueue.HeapArray 0).Key = none :=
  ⟨by decide, by decide, minpop_removes_front fullQueue (by decide) (by decide)⟩

/-- C9: on a well-formed state, when `value` is strictly smaller than the
value of every entry with another key, `pushinorder(key, value)` returns
(unless the key is new and the queue is full) and `minfront` then returns
`key`. -/
theorem pushinorder_decrease_key (q : minqueue K V) (key : K) (value : V) (hwf : WellFormed q)
    (hroom : q.UMap key = none → q.Size ≠ q.Capacity)
    (hsmall : ∀ e ∈ liveEntries q, e.Key ≠ key → value < e.Value) :
    ∃ q1, q.pushinorder key value = Outcome.returned q1 () ∧
      q1.minfront = Outcome.returned q1 key := by
  obtain ⟨q1, hrun, hs, _, hp, hh⟩ := pushinorder_spec q key value hwf hroom
  refine ⟨q1, hrun, ?_⟩
  have h1 : 1 ≤ q1.Size := by
    rw [hs]
    by_cases hU : q.UMap key = none
    · simp only [hU, if_true]
      have := hwf.size_nonneg
      omega
    · simp only [hU, if_false]
      obtain ⟨idx, hidx⟩ := Option.ne_none_iff_exists'.mp hU
      obtain ⟨hi0, hin, _⟩ := hwf.exact key idx hidx
      omega
  have hnew : ({ Key := key, Value := value } : KeyValuePair K V) ∈ liveEntries q1 :=
    hp.symm.subset (List.mem_cons_self _ _)
  have hle := front_le_live q1 hh _ hnew
  have hfront : q1.HeapArray 0 ∈ liveEntries q1 :=
    mem_liveEntries.mpr ⟨0, le_refl _, by omega, rfl⟩
  have hkey : (q1.HeapArray 0).Key = key := by
    rcases List.mem_cons.mp (hp.subset hfront) with h | h
    · rw [h]
    · by_contra hne
      have hv := hsmall _ (List.mem_of_mem_filter h) hne
      rcases hle with h2 | ⟨h2, _⟩
      · exact lt_asymm hv h2
      · simp only at h2
        rw [h2] at hv
        exact lt_irrefl _ hv
  unfold minfront
  rw [not_empty_of_pos q1 h1, ← hkey]
  rfl

theorem pushinorder_decrease_key_witness :
    WellFormed fullQueue ∧ (fullQueue.UMap 2 = none → fullQueue.Size ≠ fullQueue.Capacity) ∧
    (∀ e ∈ liveEntries fullQueue, e.Key ≠ 2 → (-1 : Int) < e.Value) ∧
    ∃ q1, fullQueue.pushinorder 2 (-1) = Outcome.returned q1 () ∧
      q1.minfront = Outcome.returned q1 2 :=
  ⟨fullQueue_wellFormed, by decide, by decide,
    pushinorder_decrease_key fullQueue 2 (-1) fullQueue_wellFormed (by decide) (by decide)⟩

/-- C10: on a state with `Size ≤ Capacity`, `pushinorder(key, value)` throws
exactly when `key` is not in the position index and `Size = Capacity`; it then
throws the queue-full error and the state at the throw is the state before the
call; a call with a key of the position index does not throw, and on a
well-formed state it returns. -/
theorem pushinorder_capacity (q : minqueue K V) (key : K) (value : V)
    (hcap : q.Size ≤ q.Capacity) :
    ((q.pushinorder key value).threw = true ↔ (q.UMap key = none ∧ q.Size = q.Capacity)) ∧
    ((q.UMap key = none ∧ q.Size = q.Capacity) →
      q.pushinorder key value =
        Outcome.thrown q (Exception.runtime_error "minqueue::pushinorder: queue full")) ∧
    (q.UMap key ≠ none → (q.pushinorder key value).threw = false) ∧
    (WellFormed q → q.UMap key ≠ none →
      ∃ q1, q.pushinorder key value = Outcome.returned q1 ()) := by
  have hfull : (q.UMap key = none ∧ q.Size = q.Capacity) →
      q.pushinorder key value =
        Outcome.thrown q (Exception.runtime_error "minqueue::pushinorder: queue full") := by
    rintro ⟨hU, hs⟩
    unfold pushinorder
    rw [pushinorderDepth_succ]
    simp only [hU, hs, if_true]
  have hpresent : q.UMap key ≠ none → (q.pushinorder key value).threw = false := by
    intro hU
    unfold pushinorder
    rw [pushinorderDepth_succ]
    simp only [hU, if_false]
    cases hdel : q._delete key with
    | none => rfl
    | some qd =>
      simp only
      have hsz := delete_size q qd key hdel
      apply pushinorderDepth_insert_threw
      · exact Function.update_same _ _ _
      · show qd.Size ≠ qd.Capacity
        rw [hsz.1, hsz.2]
        omega
  refine ⟨⟨fun hthrew => ?_, fun h => ?_⟩, hfull, hpresent, fun hwf hU => ?_⟩
  · by_cases hU : q.UMap key = none
    · refine ⟨hU, ?_⟩
      by_contra hne
      have hn : (q.pushinorder key value).threw = false :=
        pushinorderDepth_insert_threw 1 q key value hU hne
      rw [hn] at hthrew
      exact Bool.noConfusion hthrew
    · rw [hpresent hU] at hthrew
      exact Bool.noConfusion hthrew
  · rw [hfull h]
    rfl
  · obtain ⟨q1, hrun, _⟩ := pushinorder_spec q key value hwf (fun h => absurd h hU)
    exact ⟨q1, hrun⟩

theorem pushinorder_capacity_witness :
    fullQueue.Size ≤ fullQueue.Capacity ∧
    (((fullQueue.pushinorder 0 1).threw = true ↔
        (fullQueue.UMap 0 = none ∧ fullQueue.Size = fullQueue.Capacity)) ∧
      ((fullQueue.UMap 0 = none ∧ fullQueue.Size = fullQueue.Capacity) →
        fullQueue.pushinorder 0 1 =
          Outcome.thrown fullQueue
            (Exception.runtime_error "minqueue::pushinorder: queue full")) ∧
      (fullQueue.UMap 0 ≠ none → (fullQueue.pushinorder 0 1).threw = false) ∧
      (WellFormed fullQueue → fullQueue.UMap 0 ≠ none →
        ∃ q1, fullQueue.pushinorder 0 1 = Outcome.returned q1 ())) :=
  ⟨by decide, pushinorder_capacity fullQueue 0 1 (by decide)⟩

end minqueue


/-! ## The empty-queue guards -/

namespace minqueue

open HeapIndex

variable {K V : Type} [LinearOrder K] [LinearOrder V]

theorem empty_iff (q : minqueue K V) : q.empty = true ↔ q.Size = 0 := by
  unfold empty
  exact decide_eq_true_iff

theorem minfront_threw_iff (q : minqueue K V) : q.minfront.threw = true ↔ q.Size = 0 := by
  unfold minfront
  by_cases h : q.Size = 0
  · rw [(empty_iff q).mpr h]
    exact ⟨fun _ => h, fun _ => rfl⟩
  · have he : q.empty = false := by
      unfold empty
      exact decide_eq_false h
    rw [he]
    exact ⟨fun h2 => Bool.noConfusion h2, fun h2 => absurd h2 h⟩

theorem minpop_threw_iff (q : minqueue K V) : q.minpop.threw = true ↔ q.Size = 0 := by
  rw [minpop_eq]
  by_cases h : q.Size = 0
  · rw [(empty_iff q).mpr h]
    exact ⟨fun _ => h, fun _ => rfl⟩
  · have he : q.empty = false := by
      unfold empty
      exact decide_eq_false h
    rw [he]
    constructor
    · intro h2
      cases hd : (popFront q)._percolateDown 0 with
      | none => rw [hd] at h2; exact Bool.noConfusion h2
      | some r => rw [hd] at h2; exact Bool.noConfusion h2
    · intro h2
      exact absurd h2 h

/-- C11: `minfront` and `minpop` throw exactly when `Size = 0`, which is
exactly when `empty` returns true; they then throw the empty-queue error and
the state at the throw is the state before the call; both throw on the state
built by `minqueue(capacity)`, for every capacity. -/
theorem empty_queue_guards (q : minqueue K V) :
    (q.minfront.threw = true ↔ q.Size = 0) ∧
    (q.minpop.threw = true ↔ q.Size = 0) ∧
    (q.empty = true ↔ q.Size = 0) ∧
    (q.Size = 0 →
      q.minfront =
          Outcome.thrown q (Exception.logic_error "minqueue::minfront: queue empty") ∧
        q.minpop =
          Outcome.thrown q (Exception.logic_error "minqueue::minpop: queue empty")) ∧
    (∀ (capacity : Int) (mem : Int → KeyValuePair K V),
      (ofCapacity capacity mem).minfront =
          Outcome.thrown (ofCapacity capacity mem)
            (Exception.logic_error "minqueue::minfront: queue empty") ∧
        (ofCapacity capacity mem).minpop =
          Outcome.thrown (ofCapacity capacity mem)
            (Exception.logic_error "minqueue::minpop: queue empty")) := by
  have hthrow : ∀ s : minqueue K V, s.Size = 0 →
      s.minfront =
          Outcome.thrown s (Exception.logic_error "minqueue::minfront: queue empty") ∧
        s.minpop =
          Outcome.thrown s (Exception.logic_error "minqueue::minpop: queue empty") := by
    intro s hs
    constructor
    · unfold minfront
      rw [(empty_iff s).mpr hs]
      rfl
    · rw [minpop_eq, (empty_iff s).mpr hs]
      rfl
  exact ⟨minfront_threw_iff q, minpop_threw_iff q, empty_iff q, hthrow q,
    fun capacity mem => hthrow (ofCapacity capacity mem) rfl⟩

theorem empty_queue_guards_witness :
    (ofCapacity 0 zeroMem).Size = 0 ∧
    (ofCapacity 0 zeroMem).minfront =
        Outcome.thrown (ofCapacity 0 zeroMem)
          (Exception.logic_error "minqueue::minfront: queue empty") ∧
    (ofCapacity 0 zeroMem).minpop =
        Outcome.thrown (ofCapacity 0 zeroMem)
          (Exception.logic_error "minqueue::minpop: queue empty") :=
  ⟨rfl, (empty_queue_guards (ofCapacity 0 zeroMem)).2.2.2.1 rfl⟩

end minqueue


/-! ## The fill constructor -/

namespace minqueue

open HeapIndex

variable {K V : Type} [LinearOrder K] [LinearOrder V]

theorem fillLoop_size (v : V) : ∀ (keys : List K) (i : Int) (q : minqueue K V),
    (fillLoop v keys i q).Size = q.Size ∧ (fillLoop v keys i q).Capacity = q.Capacity := by
  intro keys
  induction keys with
  | nil => intro i q; exact ⟨rfl, rfl⟩
  | cons key rest ih =>
    intro i q
    have h := ih (i + 1)
      { q with
        HeapArray := Function.update (Function.update q.HeapArray i
          { Key := key, Value := (q.HeapArray i).Value }) i
          { Key := (Function.update q.HeapArray i
              { Key := key, Value := (q.HeapArray i).Value } i).Key, Value := v }
        UMap := Function.update q.UMap key (some i) }
    exact h

theorem fillLoop_heapArray_before (v : V) : ∀ (keys : List K) (i : Int) (q : minqueue K V)
    (j : Int), j < i → (fillLoop v keys i q).HeapArray j = q.HeapArray j := by
  intro keys
  induction keys with
  | nil => intro i q j _; rfl
  | cons key rest ih =>
    intro i q j hj
    have h := ih (i + 1)
      { q with
        HeapArray := Function.update (Function.update q.HeapArray i
          { Key := key, Value := (q.HeapArray i).Value }) i
          { Key := (Function.update q.HeapArray i
              { Key := key, Value := (q.HeapArray i).Value } i).Key, Value := v }
        UMap := Function.update q.UMap key (some i) } j (by omega)
    have hne : j ≠ i := by omega
    simp only [Function.update_noteq hne] at h
    exact h

theorem fillLoop_heapArray (v : V) : ∀ (keys : List K) (i : Int) (q : minqueue K V)
    (m : Nat) (k : K), keys[m]? = some k →
    (fillLoop v keys i q).HeapArray (i + m) = { Key := k, Value := v } := by
  intro keys
  induction keys with
  | nil => intro i q m k h; simp at h
  | cons key rest ih =>
    intro i q m k h
    cases m with
    | zero =>
      simp only [List.getElem?_cons_zero, Option.some.injEq] at h
      subst h
      have h2 := fillLoop_heapArray_before v rest (i + 1)
        { q with
          HeapArray := Function.update (Function.update q.HeapArray i
            { Key := key, Value := (q.HeapArray i).Value }) i
            { Key := (Function.update q.HeapArray i
                { Key := key, Value := (q.HeapArray i).Value } i).Key, Value := v }
          UMap := Function.update q.UMap key (some i) } i (by omega)
      simp only [Nat.cast_zero, add_zero]
      exact h2.trans (by simp only [Function.update_same])
    | succ m =>
      rw [List.getElem?_cons_succ] at h
      have h2 := ih (i + 1)
        { q with
          HeapArray := Function.update (Function.update q.HeapArray i
            { Key := key, Value := (q.HeapArray i).Value }) i
            { Key := (Function.update q.HeapArray i
                { Key := key, Value := (q.HeapArray i).Value } i).Key, Value := v }
          UMap := Function.update q.UMap key (some i) } m k h
      have e : i + ((m + 1 : Nat) : Int) = i + 1 + (m : Int) := by push_cast; ring
      rw [e]
      exact h2

theorem fillLoop_umap_other (v : V) : ∀ (keys : List K) (i : Int) (q : minqueue K V)
    (k : K), k ∉ keys → (fillLoop v keys i q).UMap k = q.UMap k := by
  intro keys
  induction keys with
  | nil => intro i q k _; rfl
  | cons key rest ih =>
    intro i q k hk
    have hk1 : k ≠ key := fun h => hk (h ▸ List.mem_cons_self _ _)
    have hk2 : k ∉ rest := fun h => hk (List.mem_cons_of_mem _ h)
    have h := ih (i + 1)
      { q with
        HeapArray := Function.update (Function.update q.HeapArray i
          { Key := key, Value := (q.HeapArray i).Value }) i
          { Key := (Function.update q.HeapArray i
              { Key := key, Value := (q.HeapArray i).Value } i).Key, Value := v }
        UMap := Function.update q.UMap key (some i) } k hk2
    simp only [Function.update_noteq hk1] at h
    exact h

theorem fillLoop_umap (v : V) : ∀ (keys : List K) (i : Int) (q : minqueue K V)
    (m : Nat) (k : K), keys.Nodup → keys[m]? = some k →
    (fillLoop v keys i q).UMap k = some (i + m) := by
  intro keys
  induction keys with
  | nil => intro i q m k _ h; simp at h
  | cons key rest ih =>
    intro i q m k hnd h
    have hnd2 := List.nodup_cons.mp hnd
    cases m with
    | zero =>
      simp only [List.getElem?_cons_zero, Option.some.injEq] at h
      subst h
      have h2 := fillLoop_umap_other v rest (i + 1)
        { q with
          HeapArray := Function.update (Function.update q.HeapArray i
            { Key := key, Value := (q.HeapArray i).Value }) i
            { Key := (Function.update q.HeapArray i
                { Key := key, Value := (q.HeapArray i).Value } i).Key, Value := v }
          UMap := Function.update q.UMap key (some i) } key hnd2.1
      simp only [Nat.cast_zero, add_zero]
      exact h2.trans (by simp only [Function.update_same])
    | succ m =>
      rw [List.getElem?_cons_succ] at h
      have h2 := ih (i + 1)
        { q with
          HeapArray := Function.update (Function.update q.HeapArray i
            { Key := key, Value := (q.HeapArray i).Value }) i
            { Key := (Function.update q.HeapArray i
                { Key := key, Value := (q.HeapArray i).Value } i).Key, Value := v }
          UMap := Function.update q.UMap key (some i) } m k hnd2.2 h
      have e : i + ((m + 1 : Nat) : Int) = i + 1 + (m : Int) := by push_cast; ring
      rw [e]
      exact h2

/-- C13: for strictly ascending keys, `minqueue(keys, initialValue)` builds a
state with `Size = Capacity =` the number of keys, the entry
`(keys[i], initialValue)` at every position `i` and the position index mapping
`keys[i]` to `i`; the state is heap-ordered, index-consistent, has distinct
keys, and its position index has no other keys.  The constructor calls no
percolation. -/
theorem ofKeys_spec (keys : List K) (initialValue : V) (mem : Int → KeyValuePair K V)
    (hasc : keys.Sorted (· < ·)) :
    (ofKeys keys initialValue mem).Size = keys.length ∧
    (ofKeys keys initialValue mem).Capacity = keys.length ∧
    (∀ (i : Nat) (h : i < keys.length),
      (ofKeys keys initialValue mem).HeapArray i =
          { Key := keys.get ⟨i, h⟩, Value := initialValue } ∧
        (ofKeys keys initialValue mem).UMap (keys.get ⟨i, h⟩) = some (i : Int)) ∧
    HeapOrder (ofKeys keys initialValue mem) ∧
    IndexConsistent (ofKeys keys initialValue mem) ∧
    DistinctKeys (ofKeys keys initialValue mem) ∧
    IndexExact (ofKeys keys initialValue mem) := by
  have hnd : keys.Nodup := hasc.nodup
  have hsize : (ofKeys keys initialValue mem).Size = keys.length :=
    (fillLoop_size initialValue keys 0 _).1
  have hcap : (ofKeys keys initialValue mem).Capacity = keys.length :=
    (fillLoop_size initialValue keys 0 _).2
  have hent : ∀ (i : Nat) (h : i < keys.length),
      (ofKeys keys initialValue mem).HeapArray i =
          { Key := keys.get ⟨i, h⟩, Value := initialValue } ∧
        (ofKeys keys initialValue mem).UMap (keys.get ⟨i, h⟩) = some (i : Int) := by
    intro i h
    have hget : keys[i]? = some (keys.get ⟨i, h⟩) := by
      rw [List.get_eq_getElem]; exact List.getElem?_eq_getElem h
    have h1 := fillLoop_heapArray initialValue keys 0
      { HeapArray := mem, Size := keys.length, Capacity := keys.length, UMap := fun _ => none }
      i _ hget
    have h2 := fillLoop_umap initialValue keys 0
      { HeapArray := mem, Size := keys.length, Capacity := keys.length, UMap := fun _ => none }
      i _ hnd hget
    rw [zero_add] at h1 h2
    exact ⟨h1, h2⟩
  have hcons : IndexConsistent (ofKeys keys initialValue mem) := by
    intro i hi0 hin
    rw [hsize] at hin
    have hi : i.toNat < keys.length := by omega
    have e : ((i.toNat : Nat) : Int) = i := Int.toNat_of_nonneg hi0
    have h1 := hent i.toNat hi
    rw [e] at h1
    rw [h1.1]
    exact h1.2
  refine ⟨hsize, hcap, hent, ?_, hcons, distinctKeys_of_indexConsistent _ hcons, ?_⟩
  · intro i hi0 hin
    rw [hsize] at hin
    have hi : i.toNat < keys.length := by omega
    have hp : ((i - 1) / 2).toNat < keys.length := by omega
    have e1 : ((i.toNat : Nat) : Int) = i := Int.toNat_of_nonneg (by omega)
    have e2 : ((((i - 1) / 2).toNat : Nat) : Int) = (i - 1) / 2 :=
      Int.toNat_of_nonneg (by omega)
    have h1 := (hent i.toNat hi).1
    have h2 := (hent ((i - 1) / 2).toNat hp).1
    rw [e1] at h1
    rw [e2] at h2
    rw [h1, h2]
    right
    refine ⟨rfl, le_of_lt ?_⟩
    have hlt : (⟨((i - 1) / 2).toNat, hp⟩ : Fin keys.length) < ⟨i.toNat, hi⟩ := by
      show ((i - 1) / 2).toNat < i.toNat
      omega
    exact hasc.rel_get_of_lt hlt
  · intro k p hp
    have hp2 : (ofKeys keys initialValue mem).UMap k = some p := hp
    by_cases hk : k ∈ keys
    · obtain ⟨n, hn⟩ := List.mem_iff_get.mp hk
      have h1 := hent n.1 n.2
      rw [hn] at h1
      rw [h1.2] at hp2
      have e : (n.1 : Int) = p := Option.some.inj hp2
      rw [← e, hsize, h1.1]
      exact ⟨by omega, by have := n.2; omega, rfl⟩
    · have h1 := fillLoop_umap_other initialValue keys 0
        { HeapArray := mem, Size := keys.length, Capacity := keys.length, UMap := fun _ => none }
        k hk
      have h3 : (ofKeys keys initialValue mem).UMap k = none := h1
      rw [h3] at hp2
      exact Option.noConfusion hp2

theorem ofKeys_spec_witness :
    ([1, 2, 3, 4] : List (Fin 5)).Sorted (· < ·) ∧
    (ofKeys ([1, 2, 3, 4] : List (Fin 5)) (0 : Int) (fun _ => { Key := 0, Value := 0 })).Size
      = 4 ∧
    HeapOrder (ofKeys ([1, 2, 3, 4] : List (Fin 5)) (0 : Int)
      (fun _ => { Key := 0, Value := 0 })) :=
  ⟨by decide,
    (ofKeys_spec ([1, 2, 3, 4] : List (Fin 5)) (0 : Int) (fun _ => { Key := 0, Value := 0 })
      (by decide)).1,
    (ofKeys_spec ([1, 2, 3, 4] : List (Fin 5)) (0 : Int) (fun _ => { Key := 0, Value := 0 })
      (by decide)).2.2.2.1⟩

end minqueue


/-! ## The capacity bound -/

namespace minqueue

open HeapIndex

variable {K V : Type} [LinearOrder K] [LinearOrder V]

theorem pushinorderDepth_state_capacity : ∀ (depth : Nat) (q q1 : minqueue K V) (key : K)
    (value : V), (pushinorderDepth depth q key value).state = some q1 →
    q1.Capacity = q.Capacity ∧ (q.Size ≤ q.Capacity → q1.Size ≤ q1.Capacity) := by
  intro depth
  induction depth with
  | zero => intro q q1 key value h; exact Option.noConfusion h
  | succ depth ih =>
    intro q q1 key value h
    rw [pushinorderDepth_succ] at h
    by_cases hU : q.UMap key = none
    · simp only [hU, if_true] at h
      by_cases hs : q.Size = q.Capacity
      · simp only [hs, if_true, Outcome.state, Option.some.injEq] at h
        subst h
        exact ⟨rfl, fun h => h⟩
      · simp only [hs, if_false] at h
        cases hup : (appendEntry q key value)._percolateUp q.Size with
        | none =>
          rw [hup] at h
          exact Option.noConfusion h
        | some r =>
          rw [hup] at h
          simp only [Outcome.state, Option.some.injEq] at h
          have e := percolateUpLoop_size _ _ _ _ hup
          rw [h] at e
          rw [e.1, e.2, appendEntry_size, appendEntry_capacity]
          exact ⟨rfl, fun hle => by omega⟩
    · simp only [hU, if_false] at h
      cases hdel : q._delete key with
      | none =>
        rw [hdel] at h
        exact Option.noConfusion h
      | some qd =>
        rw [hdel] at h
        simp only at h
        have e := delete_size q qd key hdel
        have h2 := ih _ q1 key value h
        have h3 : q1.Capacity = qd.Capacity := h2.1
        have h4 : qd.Size ≤ qd.Capacity → q1.Size ≤ q1.Capacity := h2.2
        rw [h3, e.2]
        refine ⟨rfl, fun hle => ?_⟩
        have := h4 (by rw [e.1, e.2]; omega)
        rw [h3, e.2] at this
        exact this

theorem minpop_state_capacity (q q1 : minqueue K V) (h : q.minpop.state = some q1) :
    q1.Capacity = q.Capacity ∧ (q.Size ≤ q.Capacity → q1.Size ≤ q1.Capacity) := by
  rw [minpop_eq] at h
  cases he : q.empty with
  | true =>
    rw [he] at h
    simp only [if_true, Outcome.state, Option.some.injEq] at h
    subst h
    exact ⟨rfl, fun h => h⟩
  | false =>
    rw [he] at h
    simp only [Bool.false_eq_true, if_false] at h
    cases hd : (popFront q)._percolateDown 0 with
    | none =>
      rw [hd] at h
      exact Option.noConfusion h
    | some r =>
      rw [hd] at h
      simp only [Outcome.state, Option.some.injEq] at h
      have e := percolateDownLoop_size _ _ _ _ _ hd
      rw [h] at e
      rw [e.1, e.2, popFront_size, popFront_capacity]
      exact ⟨rfl, fun hle => by omega⟩

theorem call_capacity (q q1 : minqueue K V) (c : Call K V) (h : q.call c = some q1) :
    q1.Capacity = q.Capacity ∧ (q.Size ≤ q.Capacity → q1.Size ≤ q1.Capacity) := by
  cases c with
  | pushinorder key value => exact pushinorderDepth_state_capacity 2 q q1 key value h
  | minpop => exact minpop_state_capacity q q1 h

theorem calls_capacity : ∀ (cs : List (Call K V)) (q q1 : minqueue K V),
    q.calls cs = some q1 →
    q1.Capacity = q.Capacity ∧ (q.Size ≤ q.Capacity → q1.Size ≤ q1.Capacity) := by
  intro cs
  induction cs with
  | nil =>
    intro q q1 h
    simp only [calls, Option.some.injEq] at h
    subst h
    exact ⟨rfl, fun h => h⟩
  | cons c cs ih =>
    intro q q1 h
    rw [calls] at h
    cases hc : q.call c with
    | none =>
      rw [hc] at h
      exact Option.noConfusion h
    | some q2 =>
      rw [hc] at h
      have e1 := call_capacity q q2 c hc
      have e2 := ih q2 q1 h
      exact ⟨e2.1.trans e1.1, fun hle => e2.2 (e1.2 hle)⟩

/-- C14: in every state reached from `minqueue(capacity)` with `capacity ≥ 0`,
or from `minqueue(keys, initialValue)`, by a sequence of `pushinorder` and
`minpop` calls, returning or throwing, `Size ≤ Capacity` and `Capacity` is the
value set by the constructor. -/
theorem capacity_bound (cs : List (Call K V)) (q : minqueue K V) :
    (∀ (capacity : Int) (mem : Int → KeyValuePair K V), 0 ≤ capacity →
      (ofCapacity capacity mem).calls cs = some q →
      q.Size ≤ q.Capacity ∧ q.Capacity = capacity) ∧
    (∀ (keys : List K) (initialValue : V) (mem : Int → KeyValuePair K V),
      (ofKeys keys initialValue mem).calls cs = some q →
      q.Size ≤ q.Capacity ∧ q.Capacity = keys.length) := by
  constructor
  · intro capacity mem hcap h
    have e := calls_capacity cs _ q h
    exact ⟨e.2 hcap, e.1⟩
  · intro keys initialValue mem h
    have e := calls_capacity cs _ q h
    have hs := fillLoop_size initialValue keys 0
      { HeapArray := mem, Size := keys.length, Capacity := keys.length, UMap := fun _ => none }
    have e1 : (ofKeys keys initialValue mem).Size = keys.length := hs.1
    have e2 : (ofKeys keys initialValue mem).Capacity = keys.length := hs.2
    exact ⟨e.2 (by rw [e1, e2]), e.1.trans e2⟩

theorem capacity_bound_witness :
    (0 : Int) ≤ 2 ∧
    (ofCapacity 2 zeroMem).calls [Call.pushinorder 1 5] =
      some (appendEntry (ofCapacity 2 zeroMem) 1 5) ∧
    (appendEntry (ofCapacity 2 zeroMem) 1 5).Size ≤
      (appendEntry (ofCapacity 2 zeroMem) 1 5).Capacity ∧
    (appendEntry (ofCapacity 2 zeroMem) 1 5).Capacity = 2 ∧
    (ofKeys [1, 2] 0 zeroMem).Size ≤ (ofKeys [1, 2] 0 zeroMem).Capacity ∧
    (ofKeys [1, 2] 0 zeroMem).Capacity = ([1, 2] : List Nat).length :=
  ⟨by decide, rfl,
    ((capacity_bound [Call.pushinorder 1 5] (appendEntry (ofCapacity 2 zeroMem) 1 5)).1
      2 zeroMem (by decide) rfl).1,
    ((capacity_bound [Call.pushinorder 1 5] (appendEntry (ofCapacity 2 zeroMem) 1 5)).1
      2 zeroMem (by decide) rfl).2,
    (capacity_bound [] (ofKeys [1, 2] 0 zeroMem)).2 [1, 2] 0 zeroMem rfl⟩

end minqueue


/-! ## The position index through the percolations -/

namespace minqueue

open HeapIndex

variable {K V : Type} [LinearOrder K] [LinearOrder V]

theorem indexExact_iff (q : minqueue K V) : IndexExact q ↔ ∀ k : K, ExactAt q k :=
  Iff.rfl

theorem key_inj_of_consistent (q : minqueue K V) (h : IndexConsistent q) (i j : Int)
    (hi0 : 0 ≤ i) (hin : i < q.Size) (hj0 : 0 ≤ j) (hjn : j < q.Size)
    (hk : (q.HeapArray i).Key = (q.HeapArray j).Key) : i = j := by
  have e1 := h i hi0 hin
  have e2 := h j hj0 hjn
  rw [hk, e2] at e1
  exact (Option.some.inj e1).symm

theorem swapStep_umap_eq (q : minqueue K V) (a b : Int) (hab : a ≠ b) :
    (swapStep q a b).UMap =
      Function.update (Function.update q.UMap (q.HeapArray b).Key (some a))
        (q.HeapArray a).Key (some b) := by
  have e1 : swapFn q.HeapArray a b a = q.HeapArray b := by
    rw [swapFn_apply]; simp [hab]
  have e2 : swapFn q.HeapArray a b b = q.HeapArray a := by
    rw [swapFn_apply]; simp
  show Function.update (Function.update q.UMap ((swapFn q.HeapArray a b) a).Key (some a))
    ((swapFn q.HeapArray a b) b).Key (some b) = _
  rw [e1, e2]

/-- A swap step makes the position index right at the two swapped positions
and keeps it right elsewhere, when the live keys are distinct. -/
theorem swapStep_consistent (q : minqueue K V) (a b : Int) (hab : a ≠ b)
    (ha0 : 0 ≤ a) (han : a < q.Size) (hb0 : 0 ≤ b) (hbn : b < q.Size)
    (hinj : ∀ i j : Int, 0 ≤ i → i < q.Size → 0 ≤ j → j < q.Size →
      (q.HeapArray i).Key = (q.HeapArray j).Key → i = j)
    (hc : ∀ i : Int, 0 ≤ i → i < q.Size → i ≠ a → i ≠ b →
      q.UMap (q.HeapArray i).Key = some i) :
    IndexConsistent (swapStep q a b) := by
  intro i hi0 hin
  have hin2 : i < q.Size := hin
  rw [swapStep_umap_eq q a b hab, swapStep_heapArray, swapFn_apply]
  have hkab : (q.HeapArray a).Key ≠ (q.HeapArray b).Key :=
    fun h => hab (hinj a b ha0 han hb0 hbn h)
  by_cases hib : i = b
  · subst hib
    rw [if_pos rfl, Function.update_same]
  · by_cases hia : i = a
    · subst hia
      rw [if_neg hib, if_pos rfl]
      rw [Function.update_noteq (Ne.symm hkab), Function.update_same]
    · rw [if_neg hib, if_neg hia]
      have h1 : (q.HeapArray i).Key ≠ (q.HeapArray a).Key :=
        fun h => hia (hinj i a hi0 hin2 ha0 han h)
      have h2 : (q.HeapArray i).Key ≠ (q.HeapArray b).Key :=
        fun h => hib (hinj i b hi0 hin2 hb0 hbn h)
      rw [Function.update_noteq h1, Function.update_noteq h2]
      exact hc i hi0 hin2 hia hib

theorem swapStep_exactAt (q : minqueue K V) (a b : Int) (hab : a ≠ b)
    (ha0 : 0 ≤ a) (han : a < q.Size) (hb0 : 0 ≤ b) (hbn : b < q.Size) (k : K)
    (hex : ExactAt q k) : ExactAt (swapStep q a b) k := by
  intro p hp
  have hp2 : (swapStep q a b).UMap k = some p := hp
  rw [swapStep_umap_eq q a b hab] at hp2
  rw [swapStep_size, swapStep_heapArray, swapFn_apply]
  by_cases hka : k = (q.HeapArray a).Key
  · rw [hka, Function.update_same] at hp2
    have e : b = p := Option.some.inj hp2
    subst e
    simp only [if_true]
    exact ⟨hb0, hbn, hka.symm⟩
  · rw [Function.update_noteq hka] at hp2
    by_cases hkb : k = (q.HeapArray b).Key
    · rw [hkb, Function.update_same] at hp2
      have e : a = p := Option.some.inj hp2
      subst e
      simp only [hab, if_false, if_true]
      exact ⟨ha0, han, hkb.symm⟩
    · rw [Function.update_noteq hkb] at hp2
      obtain ⟨h0, hn, hk⟩ := hex p hp2
      have hpa : p ≠ a := fun h => hka (by rw [← hk, h])
      have hpb : p ≠ b := fun h => hkb (by rw [← hk, h])
      simp only [hpa, hpb, if_false]
      exact ⟨h0, hn, hk⟩

/-- `_percolateDown` keeps the position index consistent, and exact at every
key at which it was exact. -/
theorem percolateDownLoop_sync : ∀ (fuel : Nat) (q : minqueue K V) (i m : Int)
    (r : minqueue K V × Int), percolateDownLoop fuel q i m = some r → 0 ≤ i →
    IndexConsistent q →
    IndexConsistent r.1 ∧ ∀ k : K, ExactAt q k → ExactAt r.1 k := by
  intro fuel
  induction fuel with
  | zero => intro q i m r h; exact Option.noConfusion h
  | succ fuel ih =>
    intro q i m r h h0 hcons
    rw [percolateDownLoop_succ] at h
    by_cases hc : 2 * i + 1 < q.Size
    · simp only [hc, if_true] at h
      rcases scanChildren_cases q i (2 * i + 1) m hc with ⟨hst, _, _⟩ | ⟨hpos, hst, hlt, _, _⟩
      · have hcond : (scanChildren q i (2 * i + 1) m).1.Value = (q.HeapArray i).Value ∧
            (scanChildren q i (2 * i + 1) m).1.Key = (q.HeapArray i).Key := by
          rw [hst]; exact ⟨rfl, rfl⟩
        simp only [hcond, and_self, if_true, Option.some.injEq] at h
        subst h
        exact ⟨hcons, fun _ h => h⟩
      · have hcond : ¬ ((scanChildren q i (2 * i + 1) m).1.Value = (q.HeapArray i).Value ∧
            (scanChildren q i (2 * i + 1) m).1.Key = (q.HeapArray i).Key) := by
          rintro ⟨e1, e2⟩
          have e3 := eq_of_fields e1 e2
          rw [hst] at e3
          unfold hkey at hlt
          rw [e3] at hlt
          exact lt_irrefl _ hlt
        simp only [hcond, if_false] at h
        generalize hm : (scanChildren q i (2 * i + 1) m).2 = mi at hpos h
        have hmn : mi < q.Size := by omega
        have hne : i ≠ mi := by omega
        have hstep : IndexConsistent (swapStep q i mi) :=
          swapStep_consistent q i mi hne h0 (by omega) (by omega) hmn
            (key_inj_of_consistent q hcons) (fun j hj0 hjn _ _ => hcons j hj0 hjn)
        obtain ⟨hr1, hr2⟩ := ih (swapStep q i mi) mi mi r h (by omega) hstep
        exact ⟨hr1, fun k hk =>
          hr2 k (swapStep_exactAt q i mi hne h0 (by omega) (by omega) hmn k hk)⟩
    · simp only [hc, if_false, Option.some.injEq] at h
      subst h
      exact ⟨hcons, fun _ h => h⟩

/-- `_percolateUp` keeps the position index consistent, and exact at every key
at which it was exact. -/
theorem percolateUpLoop_sync : ∀ (fuel : Nat) (q : minqueue K V) (i : Int)
    (r : minqueue K V × Int), percolateUpLoop fuel q i = some r → i < q.Size →
    IndexConsistent q →
    IndexConsistent r.1 ∧ ∀ k : K, ExactAt q k → ExactAt r.1 k := by
  intro fuel
  induction fuel with
  | zero => intro q i r h; exact Option.noConfusion h
  | succ fuel ih =>
    intro q i r h hn hcons
    rw [percolateUpLoop_succ] at h
    by_cases hi : i > 0
    · simp only [hi, if_true] at h
      by_cases hl : less (q.HeapArray i) (q.HeapArray ((i - 1) / 2))
      · simp only [hl, if_true] at h
        have hne : i ≠ (i - 1) / 2 := by omega
        have hstep : IndexConsistent (swapStep q i ((i - 1) / 2)) :=
          swapStep_consistent q i ((i - 1) / 2) hne (by omega) hn (by omega) (by omega)
            (key_inj_of_consistent q hcons) (fun j hj0 hjn _ _ => hcons j hj0 hjn)
        obtain ⟨hr1, hr2⟩ := ih (swapStep q i ((i - 1) / 2)) ((i - 1) / 2) r h
          (by rw [swapStep_size]; omega) hstep
        exact ⟨hr1, fun k hk =>
          hr2 k (swapStep_exactAt q i ((i - 1) / 2) hne (by omega) hn (by omega) (by omega) k hk)⟩
      · simp only [hl, if_false, Option.some.injEq] at h
        subst h
        exact ⟨hcons, fun _ h => h⟩
    · simp only [hi, if_false, Option.some.injEq] at h
      subst h
      exact ⟨hcons, fun _ h => h⟩

end minqueue


/-! ## `pushinorder` keeps a well-formed state well-formed -/

namespace minqueue

open HeapIndex

variable {K V : Type} [LinearOrder K] [LinearOrder V]

theorem appendEntry_umap (q : minqueue K V) (key : K) (value : V) :
    (appendEntry q key value).UMap = Function.update q.UMap key (some q.Size) := rfl

theorem appendEntry_sync (q : minqueue K V) (key : K) (value : V) (hU : q.UMap key = none)
    (h0 : 0 ≤ q.Size) (hc : IndexConsistent q) (hex : IndexExact q) :
    IndexConsistent (appendEntry q key value) ∧ IndexExact (appendEntry q key value) := by
  constructor
  · intro i hi0 hin
    rw [appendEntry_size] at hin
    rw [appendEntry_umap, appendEntry_heapArray]
    by_cases hi : i = q.Size
    · subst hi
      rw [Function.update_same, Function.update_same]
    · rw [Function.update_noteq hi]
      have h1 := hc i hi0 (by omega)
      have hk : (q.HeapArray i).Key ≠ key := by
        intro h
        rw [h, hU] at h1
        exact Option.noConfusion h1
      rw [Function.update_noteq hk]
      exact h1
  · intro k p hp
    have hp2 : (appendEntry q key value).UMap k = some p := hp
    rw [appendEntry_umap] at hp2
    rw [appendEntry_size, appendEntry_heapArray]
    by_cases hk : k = key
    · rw [hk, Function.update_same] at hp2
      have e : q.Size = p := Option.some.inj hp2
      rw [← e, Function.update_same, hk]
      exact ⟨h0, by omega, rfl⟩
    · rw [Function.update_noteq hk] at hp2
      obtain ⟨h0, hn, hkk⟩ := hex k p hp2
      have hne : p ≠ q.Size := by omega
      rw [Function.update_noteq hne]
      exact ⟨h0, by omega, hkk⟩

theorem insert_sync (depth : Nat) (q q1 : minqueue K V) (key : K) (value : V)
    (hrun : pushinorderDepth (depth + 1) q key value = Outcome.returned q1 ())
    (hU : q.UMap key = none) (h0 : 0 ≤ q.Size) (hc : IndexConsistent q)
    (hex : IndexExact q) : IndexConsistent q1 ∧ IndexExact q1 := by
  rw [pushinorderDepth_succ] at hrun
  simp only [hU, if_true] at hrun
  by_cases hs : q.Size = q.Capacity
  · simp only [hs, if_true] at hrun
    exact Outcome.noConfusion hrun
  · simp only [hs, if_false] at hrun
    cases hup : (appendEntry q key value)._percolateUp q.Size with
    | none =>
      rw [hup] at hrun
      exact Outcome.noConfusion hrun
    | some r =>
      rw [hup] at hrun
      simp only [Outcome.returned.injEq, and_true] at hrun
      obtain ⟨ha1, ha2⟩ := appendEntry_sync q key value hU h0 hc hex
      have h := percolateUpLoop_sync _ _ _ r hup (by rw [appendEntry_size]; omega) ha1
      rw [hrun] at h
      exact ⟨h.1, fun k => h.2 k (ha2 k)⟩

theorem moveLast_umap (q : minqueue K V) (key : K) (idx : Int) (hU : q.UMap key = some idx) :
    (moveLast q key).UMap =
      Function.update (Function.update q.UMap key (some idx))
        (q.HeapArray (q.Size - 1)).Key (some idx) := by
  show Function.update (Function.update q.UMap key (some ((q.UMap key).getD 0)))
    ((Function.update q.HeapArray ((q.UMap key).getD 0) (q.HeapArray (q.Size - 1)))
      ((q.UMap key).getD 0)).Key (some ((q.UMap key).getD 0)) = _
  rw [hU]
  simp only [Option.getD_some, Function.update_same]

theorem moveLast_sync (q : minqueue K V) (key : K) (idx : Int) (hU : q.UMap key = some idx)
    (h0 : 0 ≤ idx) (hn : idx < q.Size - 1) (hk : (q.HeapArray idx).Key = key)
    (hc : IndexConsistent q) (hex : IndexExact q) :
    IndexConsistent (moveLast q key) ∧ ∀ k : K, k ≠ key → ExactAt (moveLast q key) k := by
  have hinj := key_inj_of_consistent q hc
  have hL : (q.HeapArray (q.Size - 1)).Key ≠ key := by
    intro h
    have := hinj (q.Size - 1) idx (by omega) (by omega) h0 (by omega) (h.trans hk.symm)
    omega
  have hH : (moveLast q key).HeapArray =
      Function.update q.HeapArray idx (q.HeapArray (q.Size - 1)) := by
    rw [moveLast_heapArray, hU]; rfl
  constructor
  · intro i hi0 hin
    rw [moveLast_size] at hin
    rw [moveLast_umap q key idx hU, hH]
    by_cases hi : i = idx
    · subst hi
      rw [Function.update_same, Function.update_same]
    · rw [Function.update_noteq hi]
      have h1 : (q.HeapArray i).Key ≠ (q.HeapArray (q.Size - 1)).Key := by
        intro h
        have := hinj i (q.Size - 1) hi0 (by omega) (by omega) (by omega) h
        omega
      have h2 : (q.HeapArray i).Key ≠ key := by
        intro h
        exact hi (hinj i idx hi0 (by omega) h0 (by omega) (h.trans hk.symm))
      rw [Function.update_noteq h1, Function.update_noteq h2]
      exact hc i hi0 (by omega)
  · intro k hkk p hp
    have hp2 : (moveLast q key).UMap k = some p := hp
    rw [moveLast_umap q key idx hU] at hp2
    rw [moveLast_size, hH]
    by_cases hkL : k = (q.HeapArray (q.Size - 1)).Key
    · rw [hkL, Function.update_same] at hp2
      have e : idx = p := Option.some.inj hp2
      rw [← e, Function.update_same]
      exact ⟨h0, hn, hkL.symm⟩
    · rw [Function.update_noteq hkL, Function.update_noteq hkk] at hp2
      obtain ⟨hp0, hpn, hpk⟩ := hex k p hp2
      have hp1 : p ≠ q.Size - 1 := fun h => hkL (by rw [← hpk, h])
      have hp3 : p ≠ idx := fun h => hkk (by rw [← hpk, h, hk])
      rw [Function.update_noteq hp3]
      exact ⟨hp0, by omega, hpk⟩

/-- On a well-formed index, `_delete(key)` leaves the position index
consistent, and exact at every key but `key`. -/
theorem delete_sync (q qd : minqueue K V) (key : K) (idx : Int)
    (hU : q.UMap key = some idx) (hc : IndexConsistent q) (hex : IndexExact q)
    (hdel : q._delete key = some qd) :
    IndexConsistent qd ∧ ∀ k : K, k ≠ key → ExactAt qd k := by
  obtain ⟨h0, hn, hk⟩ := hex key idx hU
  have hinj := key_inj_of_consistent q hc
  rw [delete_eq, hU] at hdel
  simp only [Option.getD_some] at hdel
  by_cases hlast : idx = q.Size - 1
  · simp only [hlast, if_true, Option.some.injEq] at hdel
    subst hdel
    constructor
    · intro i hi0 hin
      have hin2 : i < q.Size - 1 := hin
      have h2 : (q.HeapArray i).Key ≠ key := by
        intro h
        have := hinj i idx hi0 (by omega) h0 (by omega) (h.trans hk.symm)
        omega
      show Function.update q.UMap key _ (q.HeapArray i).Key = some i
      rw [Function.update_noteq h2]
      exact hc i hi0 (by omega)
    · intro k hkk p hp
      have hp2 : Function.update q.UMap key (some (q.Size - 1)) k = some p := hp
      rw [Function.update_noteq hkk] at hp2
      obtain ⟨hp0, hpn, hpk⟩ := hex k p hp2
      have hp3 : p ≠ idx := fun h => hkk (by rw [← hpk, h, hk])
      exact ⟨hp0, by show p < q.Size - 1; omega, hpk⟩
  · simp only [hlast, if_false] at hdel
    have hn2 : idx < q.Size - 1 := by omega
    obtain ⟨hm1, hm2⟩ := moveLast_sync q key idx hU h0 hn2 hk hc hex
    obtain ⟨q4, j, hrun, _, hj, _⟩ :=
      percolateUp_spec (moveLast q key) idx (by rw [moveLast_size]; exact hn2)
    rw [hrun] at hdel
    simp only at hdel
    have hs1 := percolateUpLoop_sync _ _ _ _ hrun (by rw [moveLast_size]; exact hn2) hm1
    cases hdown : q4._percolateDown j with
    | none =>
      rw [hdown] at hdel
      exact Option.noConfusion hdel
    | some r =>
      rw [hdown] at hdel
      simp only [Option.some.injEq] at hdel
      have hs2 := percolateDownLoop_sync _ _ _ _ _ hdown (hj h0) hs1.1
      rw [hdel] at hs2
      exact ⟨hs2.1, fun k hkk => hs2.2 k (hs1.2 k (hm2 k hkk))⟩

theorem pushinorder_sync (q q1 : minqueue K V) (key : K) (value : V) (hwf : WellFormed q)
    (hrun : q.pushinorder key value = Outcome.returned q1 ()) :
    IndexConsistent q1 ∧ IndexExact q1 := by
  unfold pushinorder at hrun
  by_cases hU : q.UMap key = none
  · exact insert_sync 1 q q1 key value hrun hU hwf.size_nonneg hwf.index hwf.exact
  · obtain ⟨idx, hidx⟩ := Option.ne_none_iff_exists'.mp hU
    obtain ⟨hi0, hin, hik⟩ := hwf.exact key idx hidx
    obtain ⟨qd, hdel, hds, _, hdp, _⟩ := delete_spec q key idx hidx hi0 hin
    rw [pushinorderDepth_succ] at hrun
    simp only [hU, if_false, hdel] at hrun
    obtain ⟨hc, hex⟩ := delete_sync q qd key idx hidx hwf.index hwf.exact hdel
    have hnd : ((liveEntries qd ++ [q.HeapArray idx]).map KeyValuePair.Key).Nodup :=
      (hdp.map _).nodup_iff.mpr (distinctKeys_of_indexConsistent q hwf.index)
    rw [List.map_append, List.nodup_append] at hnd
    have hdisj := hnd.2.2
    have hnot : ∀ i : Int, 0 ≤ i → i < qd.Size → (qd.HeapArray i).Key ≠ key := by
      intro i h0 hn hk
      have hmem : qd.HeapArray i ∈ liveEntries qd := mem_liveEntries.mpr ⟨i, h0, hn, rfl⟩
      exact hdisj (List.mem_map_of_mem _ hmem) (by simp [hk, hik])
    apply insert_sync 0 { qd with UMap := Function.update qd.UMap key none } q1 key value hrun
      (Function.update_same _ _ _)
    · show 0 ≤ qd.Size
      rw [hds]; omega
    · intro i h0 hn
      show Function.update qd.UMap key none (qd.HeapArray i).Key = some i
      rw [Function.update_noteq (hnot i h0 hn)]
      exact hc i h0 hn
    · intro k p hp
      have hp2 : Function.update qd.UMap key none k = some p := hp
      by_cases hk : k = key
      · rw [hk, Function.update_same] at hp2
        exact Option.noConfusion hp2
      · rw [Function.update_noteq hk] at hp2
        exact hex k hk p hp2

/-- On a well-formed state `pushinorder` returns a well-formed state, unless
the key is new and the queue is full. -/
theorem pushinorder_wellFormed (q : minqueue K V) (key : K) (value : V) (hwf : WellFormed q)
    (hroom : q.UMap key = none → q.Size ≠ q.Capacity) :
    ∃ q1, q.pushinorder key value = Outcome.returned q1 () ∧ WellFormed q1 := by
  obtain ⟨q1, hrun, hs, hcap, _, hh⟩ := pushinorder_spec q key value hwf hroom
  obtain ⟨hc, hex⟩ := pushinorder_sync q q1 key value hwf hrun
  refine ⟨q1, hrun, ⟨?_, ?_, hh, hc, hex⟩⟩
  · rw [hs]
    have := hwf.size_nonneg
    split_ifs <;> omega
  · rw [hs, hcap]
    have := hwf.size_le
    by_cases hU : q.UMap key = none
    · have := hroom hU
      simp only [hU, if_true]
      omega
    · simp only [hU, if_false]
      exact hwf.size_le

end minqueue


/-! ## The position index after `pushinorder` and after `minpop` -/

namespace minqueue

open HeapIndex

variable {K V : Type} [LinearOrder K] [LinearOrder V]

/-- C15: on a well-formed state, `pushinorder(key, value)` returns (unless the
key is new and the queue is full) a state whose position index maps every live
key to the position that holds it and has no other keys, so that its key set is
the set of the live keys; and the swap step of `_percolateUp` and
`_percolateDown` leaves both swapped keys mapped to their new positions. -/
theorem pushinorder_index_sync (q : minqueue K V) (key : K) (value : V) (hwf : WellFormed q)
    (hroom : q.UMap key = none → q.Size ≠ q.Capacity) :
    (∃ q1, q.pushinorder key value = Outcome.returned q1 () ∧
      IndexConsistent q1 ∧ IndexExact q1 ∧
      (∀ k : K, q1.UMap k ≠ none ↔ ∃ e ∈ liveEntries q1, e.Key = k)) ∧
    (∀ (s : minqueue K V) (a b : Int), (s.HeapArray a).Key ≠ (s.HeapArray b).Key →
      (swapStep s a b).UMap ((swapStep s a b).HeapArray a).Key = some a ∧
      (swapStep s a b).UMap ((swapStep s a b).HeapArray b).Key = some b) := by
  constructor
  · obtain ⟨q1, hrun, hw⟩ := pushinorder_wellFormed q key value hwf hroom
    refine ⟨q1, hrun, hw.index, hw.exact, fun k => ⟨fun hk => ?_, fun hk => ?_⟩⟩
    · obtain ⟨p, hp⟩ := Option.ne_none_iff_exists'.mp hk
      obtain ⟨h0, hn, hkk⟩ := hw.exact k p hp
      exact ⟨q1.HeapArray p, mem_liveEntries.mpr ⟨p, h0, hn, rfl⟩, hkk⟩
    · obtain ⟨e, he, hek⟩ := hk
      obtain ⟨i, h0, hn, hie⟩ := mem_liveEntries.mp he
      have := hw.index i h0 hn
      rw [hie, hek] at this
      rw [this]
      exact Option.some_ne_none i
  · intro s a b hk
    have hab : a ≠ b := fun h => hk (by rw [h])
    rw [swapStep_umap_eq s a b hab, swapStep_heapArray, swapFn_apply, swapFn_apply]
    rw [if_neg hab, if_pos rfl, if_pos rfl]
    exact ⟨by rw [Function.update_noteq (Ne.symm hk), Function.update_same],
      Function.update_same _ _ _⟩

theorem pushinorder_index_sync_witness :
    WellFormed fullQueue ∧ (fullQueue.UMap 3 = none → fullQueue.Size ≠ fullQueue.Capacity) ∧
    ∃ q1, fullQueue.pushinorder 3 1 = Outcome.returned q1 () ∧
      IndexConsistent q1 ∧ IndexExact q1 ∧
      (∀ k : Fin 4, q1.UMap k ≠ none ↔ ∃ e ∈ liveEntries q1, e.Key = k) :=
  ⟨fullQueue_wellFormed, by decide,
    (pushinorder_index_sync fullQueue 3 1 fullQueue_wellFormed (by decide)).1⟩

theorem isHeap_child_le {L : Type} [LinearOrder L] {f : Int → L} {n : Int}
    (h : IsHeap f n) :
    ∀ (m : Nat) (i : Int), i.toNat ≤ m → 1 ≤ i → i < n → f 1 ≤ f i ∨ f 2 ≤ f i := by
  intro m
  induction m with
  | zero => intro i hm h1 _; omega
  | succ m ih =>
    intro i hm h1 hn
    by_cases hi1 : i = 1
    · subst hi1; exact Or.inl (le_refl _)
    · by_cases hi2 : i = 2
      · subst hi2; exact Or.inr (le_refl _)
      · have hp : f ((i - 1) / 2) ≤ f i := h i (by omega) hn
        rcases ih ((i - 1) / 2) (by omega) (by omega) (by omega) with h3 | h3
        · exact Or.inl (le_trans h3 hp)
        · exact Or.inr (le_trans h3 hp)

theorem downMoves_iff_not_fits (q : minqueue K V) (i : Int) (hc : 2 * i + 1 < q.Size) :
    downMoves q i ↔
      ¬ (hkey q i ≤ hkey q (2 * i + 1) ∧
        (2 * i + 1 + 1 < q.Size → hkey q i ≤ hkey q (2 * i + 1 + 1))) := by
  unfold downMoves
  rcases scanChildren_cases q i (2 * i + 1) i hc with ⟨hst, hl, hr⟩ | ⟨hpos, hst, hlt, hl, hr⟩
  · have hcond : (scanChildren q i (2 * i + 1) i).1.Value = (q.HeapArray i).Value ∧
        (scanChildren q i (2 * i + 1) i).1.Key = (q.HeapArray i).Key := by
      rw [hst]; exact ⟨rfl, rfl⟩
    constructor
    · intro h; exact absurd hcond h.2
    · intro h; exact absurd ⟨hl, hr⟩ h
  · have hcond : ¬ ((scanChildren q i (2 * i + 1) i).1.Value = (q.HeapArray i).Value ∧
        (scanChildren q i (2 * i + 1) i).1.Key = (q.HeapArray i).Key) := by
      rintro ⟨e1, e2⟩
      have e3 := eq_of_fields e1 e2
      rw [hst] at e3
      unfold hkey at hlt
      rw [e3] at hlt
      exact lt_irrefl _ hlt
    constructor
    · rintro _ ⟨h1, h2⟩
      rcases hpos with hp | ⟨hp, hp2⟩
      · rw [hp] at hlt
        exact lt_irrefl _ (lt_of_lt_of_le hlt h1)
      · rw [hp] at hlt
        exact lt_irrefl _ (lt_of_lt_of_le hlt (h2 hp2))
    · intro _; exact ⟨hc, hcond⟩

theorem popFront_key_inj (q : minqueue K V) (hc : IndexConsistent q) (i j : Int)
    (hi0 : 0 ≤ i) (hin : i < (popFront q).Size) (hj0 : 0 ≤ j) (hjn : j < (popFront q).Size)
    (hk : ((popFront q).HeapArray i).Key = ((popFront q).HeapArray j).Key) : i = j := by
  rw [popFront_size] at hin hjn
  rw [popFront_heapArray, swapFn_apply, swapFn_apply] at hk
  have hinj := key_inj_of_consistent q hc
  have e1 : i ≠ q.Size - 1 := by omega
  have e2 : j ≠ q.Size - 1 := by omega
  rw [if_neg e1, if_neg e2] at hk
  by_cases hi : i = 0
  · by_cases hj : j = 0
    · omega
    · rw [if_pos hi, if_neg hj] at hk
      have := hinj (q.Size - 1) j (by omega) (by omega) hj0 (by omega) hk
      omega
  · by_cases hj : j = 0
    · rw [if_neg hi, if_pos hj] at hk
      have := hinj i (q.Size - 1) hi0 (by omega) (by omega) (by omega) hk
      omega
    · rw [if_neg hi, if_neg hj] at hk
      exact hinj i j hi0 (by omega) hj0 (by omega) hk

/-- With at least four entries, the entry that `minpop` moves to the root is
above one of the root's children, so that `_percolateDown` swaps. -/
theorem popFront_downMoves (q : minqueue K V) (hwf : WellFormed q) (hsize : 4 ≤ q.Size) :
    downMoves (popFront q) 0 := by
  have hc : 2 * 0 + 1 < (popFront q).Size := by rw [popFront_size]; omega
  rw [downMoves_iff_not_fits _ _ hc]
  rintro ⟨h1, h2⟩
  have h2b := h2 (by rw [popFront_size]; omega)
  have hh := (heapOrder_iff q).mp hwf.heap
  have hinj := key_inj_of_consistent q hwf.index
  have e0 : hkey (popFront q) 0 = hkey q (q.Size - 1) := by
    unfold hkey
    rw [popFront_heapArray, swapFn_apply]
    have : (0 : Int) ≠ q.Size - 1 := by omega
    rw [if_neg this, if_pos rfl]
  have e1 : hkey (popFront q) (2 * 0 + 1) = hkey q 1 := by
    unfold hkey
    rw [popFront_heapArray, swapFn_apply]
    have a1 : (2 * 0 + 1 : Int) ≠ q.Size - 1 := by omega
    have a2 : (2 * 0 + 1 : Int) ≠ 0 := by omega
    rw [if_neg a1, if_neg a2]
    rfl
  have e2 : hkey (popFront q) (2 * 0 + 1 + 1) = hkey q 2 := by
    unfold hkey
    rw [popFront_heapArray, swapFn_apply]
    have a1 : (2 * 0 + 1 + 1 : Int) ≠ q.Size - 1 := by omega
    have a2 : (2 * 0 + 1 + 1 : Int) ≠ 0 := by omega
    rw [if_neg a1, if_neg a2]
    rfl
  rw [e0, e1] at h1
  rw [e0, e2] at h2b
  have hne : ∀ a : Int, 0 ≤ a → a < q.Size - 1 → hkey q a ≠ hkey q (q.Size - 1) := by
    intro a ha0 han h
    have h3 : q.HeapArray a = q.HeapArray (q.Size - 1) := lexKey_injective h
    have := hinj a (q.Size - 1) ha0 (by omega) (by omega) (by omega) (by rw [h3])
    omega
  rcases isHeap_child_le hh (q.Size - 1).toNat (q.Size - 1) (le_refl _) (by omega) (by omega)
    with h3 | h3
  · exact hne 1 (by omega) (by omega) (le_antisymm h3 h1)
  · exact hne 2 (by omega) (by omega) (le_antisymm h3 h2b)

/-- C18: on a well-formed state with `Size = 1` or `Size ≥ 4`, `minpop`
returns a state that is index-consistent; with at least four entries
`_percolateDown` swaps at least once. -/
theorem minpop_index_consistent (q : minqueue K V) (hwf : WellFormed q)
    (hsize : q.Size = 1 ∨ 4 ≤ q.Size) :
    ∃ q1, q.minpop = Outcome.returned q1 () ∧ IndexConsistent q1 ∧
      (4 ≤ q.Size → downMoves (popFront q) 0) := by
  have h1 : 1 ≤ q.Size := by omega
  rw [minpop_eq, not_empty_of_pos q h1]
  obtain ⟨q1, j, hrun, hframe, _⟩ := percolateDown_spec (popFront q) 0 (le_refl _)
  simp only [hrun]
  refine ⟨q1, by simp, ?_, popFront_downMoves q hwf⟩
  rcases hsize with hs | hs
  · intro i hi0 hin
    rw [hframe.size, popFront_size] at hin
    omega
  · have hmoves := popFront_downMoves q hwf hs
    have hrun2 : percolateDownLoop (((popFront q).Size - 0).toNat + 1) (popFront q) 0 0 =
        some (q1, j) := hrun
    rw [percolateDownLoop_succ] at hrun2
    have hc := hmoves.1
    have hcond := hmoves.2
    simp only [hc, hcond, if_true, if_false] at hrun2
    generalize hm : (scanChildren (popFront q) 0 (2 * 0 + 1) 0).2 = mi at hrun2
    have hmi : mi = 2 * 0 + 1 ∨ (mi = 2 * 0 + 1 + 1 ∧ 2 * 0 + 1 + 1 < (popFront q).Size) := by
      rcases scanChildren_cases (popFront q) 0 (2 * 0 + 1) 0 hc with
        ⟨hst, _, _⟩ | ⟨hpos, _, _, _, _⟩
      · exfalso
        apply hcond
        rw [hst]
        exact ⟨rfl, rfl⟩
      · rw [hm] at hpos
        exact hpos
    have hmn : mi < (popFront q).Size := by omega
    have hstep : IndexConsistent (swapStep (popFront q) 0 mi) := by
      apply swapStep_consistent (popFront q) 0 mi (by omega) (le_refl _) (by omega) (by omega)
        hmn (popFront_key_inj q hwf.index)
      intro i hi0 hin hi1 _
      rw [popFront_size] at hin
      rw [popFront_umap, popFront_heapArray, swapFn_apply]
      have a1 : i ≠ q.Size - 1 := by omega
      rw [if_neg a1, if_neg hi1]
      have hk : (q.HeapArray i).Key ≠ (q.HeapArray 0).Key := by
        intro h
        exact hi1 (key_inj_of_consistent q hwf.index i 0 hi0 (by omega) (le_refl _)
          (by omega) h)
      rw [Function.update_noteq hk]
      exact hwf.index i hi0 (by omega)
    exact (percolateDownLoop_sync _ _ _ _ _ hrun2 (by omega) hstep).1

theorem fourQueue_wellFormed : WellFormed fourQueue :=
  ⟨by decide, by decide, by decide, by decide, by decide⟩

theorem minpop_index_consistent_witness :
    WellFormed fourQueue ∧ (fourQueue.Size = 1 ∨ 4 ≤ fourQueue.Size) ∧
    ∃ q1, fourQueue.minpop = Outcome.returned q1 () ∧ IndexConsistent q1 ∧
      (4 ≤ fourQueue.Size → downMoves (popFront fourQueue) 0) :=
  ⟨fourQueue_wellFormed, by decide,
    minpop_index_consistent fourQueue fourQueue_wellFormed (by decide)⟩

end minqueue


/-! ## Which percolation moves the entry in `_delete` -/

namespace minqueue

open HeapIndex

variable {K V : Type} [LinearOrder K] [LinearOrder V]

theorem percolateUp_of_not_upMoves (q : minqueue K V) (i : Int) (h : ¬ upMoves q i) :
    q._percolateUp i = some (q, i) := by
  unfold _percolateUp
  rw [percolateUpLoop_succ]
  by_cases hi : i > 0
  · have hl : ¬ less (q.HeapArray i) (q.HeapArray ((i - 1) / 2)) := fun hl => h ⟨hi, hl⟩
    simp only [hi, hl, if_true, if_false]
  · simp only [hi, if_false]

theorem percolateUpLoop_index_le : ∀ (fuel : Nat) (q : minqueue K V) (i : Int)
    (r : minqueue K V × Int), percolateUpLoop fuel q i = some r → r.2 ≤ i := by
  intro fuel
  induction fuel with
  | zero => intro q i r h; exact Option.noConfusion h
  | succ fuel ih =>
    intro q i r h
    rw [percolateUpLoop_succ] at h
    split_ifs at h with h1 h2
    · have := ih _ _ r h
      omega
    · cases h; exact le_refl _
    · cases h; exact le_refl _

theorem percolateUp_of_upMoves (q : minqueue K V) (i : Int) (h : upMoves q i)
    (r : minqueue K V × Int) (hrun : q._percolateUp i = some r) : r.2 < i := by
  unfold _percolateUp at hrun
  rw [percolateUpLoop_succ] at hrun
  simp only [h.1, h.2, if_true] at hrun
  have := percolateUpLoop_index_le _ _ _ r hrun
  have := h.1
  omega

theorem percolateDown_of_not_downMoves (q : minqueue K V) (i : Int) (h : ¬ downMoves q i) :
    q._percolateDown i = some (q, i) := by
  unfold _percolateDown
  rw [percolateDownLoop_succ]
  by_cases hc : 2 * i + 1 < q.Size
  · have hcond : (scanChildren q i (2 * i + 1) i).1.Value = (q.HeapArray i).Value ∧
        (scanChildren q i (2 * i + 1) i).1.Key = (q.HeapArray i).Key := by
      by_contra hn
      exact h ⟨hc, hn⟩
    simp only [hc, hcond, and_self, if_true]
  · simp only [hc, if_false]

theorem percolateDownLoop_index_ge : ∀ (fuel : Nat) (q : minqueue K V) (i m : Int)
    (r : minqueue K V × Int), percolateDownLoop fuel q i m = some r → 0 ≤ i → i ≤ r.2 := by
  intro fuel
  induction fuel with
  | zero => intro q i m r h; exact Option.noConfusion h
  | succ fuel ih =>
    intro q i m r h h0
    rw [percolateDownLoop_succ] at h
    by_cases hc : 2 * i + 1 < q.Size
    · simp only [hc, if_true] at h
      rcases scanChildren_cases q i (2 * i + 1) m hc with ⟨hst, _, _⟩ | ⟨hpos, _, _, _, _⟩
      · have hcond : (scanChildren q i (2 * i + 1) m).1.Value = (q.HeapArray i).Value ∧
            (scanChildren q i (2 * i + 1) m).1.Key = (q.HeapArray i).Key := by
          rw [hst]; exact ⟨rfl, rfl⟩
        simp only [hcond, and_self, if_true, Option.some.injEq] at h
        subst h
        exact le_refl _
      · split_ifs at h
        · cases h; exact le_refl _
        · have := ih _ _ _ r h (by omega)
          omega
    · simp only [hc, if_false, Option.some.injEq] at h
      subst h
      exact le_refl _

theorem percolateDown_of_downMoves (q : minqueue K V) (i : Int) (h0 : 0 ≤ i)
    (h : downMoves q i) (r : minqueue K V × Int) (hrun : q._percolateDown i = some r) :
    i < r.2 := by
  unfold _percolateDown at hrun
  rw [percolateDownLoop_succ] at hrun
  have hc := h.1
  have hcond := h.2
  simp only [hc, hcond, if_true, if_false] at hrun
  rcases scanChildren_cases q i (2 * i + 1) i hc with ⟨hst, _, _⟩ | ⟨hpos, _, _, _, _⟩
  · exfalso
    apply hcond
    rw [hst]
    exact ⟨rfl, rfl⟩
  · have := percolateDownLoop_index_ge _ _ _ _ r hrun (by omega)
    omega

theorem not_downMoves_of_heapOrder (q : minqueue K V) (i : Int) (h0 : 0 ≤ i)
    (hheap : HeapOrder q) : ¬ downMoves q i := by
  intro h
  have hc := h.1
  have hh := (heapOrder_iff q).mp hheap
  rw [downMoves_iff_not_fits q i hc] at h
  apply h
  constructor
  · have := hh (2 * i + 1) (by omega) hc
    have e : (2 * i + 1 - 1) / 2 = i := by omega
    rw [e] at this
    exact this
  · intro hc2
    have := hh (2 * i + 1 + 1) (by omega) hc2
    have e : (2 * i + 1 + 1 - 1) / 2 = i := by omega
    rw [e] at this
    exact this

/-- C16 as stated fails: deleting key 2 from `fullQueue` moves the last entry
`(3, 6)` to position 1, where it is not below its parent `(1, 4)` and has no
child, so neither `_percolateUp` nor `_percolateDown` swaps. -/
theorem delete_moves_neither :
    WellFormed fullQueue ∧ fullQueue.UMap 2 = some 1 ∧ (1 : Int) ≠ fullQueue.Size - 1 ∧
    ¬ upMoves (moveLast fullQueue 2) 1 ∧
    ((moveLast fullQueue 2)._percolateUp 1).map (fun r => decide (downMoves r.1 r.2))
      = some false :=
  ⟨fullQueue_wellFormed, by decide, by decide, by decide, by decide⟩

/-- C16, amended: in `_delete` on a well-formed state, when the key to remove
is not at the last position, `_percolateUp` returns and at most one of
`_percolateUp` and `_percolateDown` swaps; a percolation that does not swap
returns the state and the index unchanged, and one that swaps changes the
index. -/
theorem delete_moves_at_most_one (q : minqueue K V) (key : K) (idx : Int)
    (hwf : WellFormed q) (hU : q.UMap key = some idx) (hlast : idx ≠ q.Size - 1) :
    ∃ q4 j, (moveLast q key)._percolateUp idx = some (q4, j) ∧
      ¬ (upMoves (moveLast q key) idx ∧ downMoves q4 j) ∧
      (¬ upMoves (moveLast q key) idx → q4 = moveLast q key ∧ j = idx) ∧
      (upMoves (moveLast q key) idx → j < idx) ∧
      (¬ downMoves q4 j → q4._percolateDown j = some (q4, j)) ∧
      (downMoves q4 j → ∀ r, q4._percolateDown j = some r → j < r.2) := by
  obtain ⟨h0, hn, hk⟩ := hwf.exact key idx hU
  have hn2 : idx < q.Size - 1 := by omega
  obtain ⟨q4, j, hrun, _, hj, hres⟩ :=
    percolateUp_spec (moveLast q key) idx (by rw [moveLast_size]; exact hn2)
  have hup := moveLast_upInv q key idx hU h0 hn2 hwf.heap
  refine ⟨q4, j, hrun, ?_, ?_, ?_, percolateDown_of_not_downMoves q4 j,
    percolateDown_of_downMoves q4 j (hj h0)⟩
  · rintro ⟨hu, hd⟩
    have hh := (heapOrder_iff q).mp hwf.heap
    have hval : ∀ i : Int, i ≠ idx → hkey (moveLast q key) i = hkey q i := by
      intro i hi
      unfold hkey
      rw [moveLast_heapArray, hU]
      simp only [Option.getD_some]
      rw [Function.update_noteq hi]
    have hlt : hkey (moveLast q key) idx < hkey (moveLast q key) ((idx - 1) / 2) :=
      (less_iff _ _).mp hu.2
    have hi0 : 0 < idx := hu.1
    rw [hval ((idx - 1) / 2) (by omega)] at hlt
    have hc : ChildrenOK (hkey (moveLast q key)) (moveLast q key).Size idx := by
      intro c hc0 hcn hcp
      rw [moveLast_size] at hcn
      rw [hval c (by omega)]
      have e1 := hh idx hi0 (by omega)
      have e2 := hh c hc0 (by omega)
      rw [hcp] at e2
      exact le_of_lt (lt_of_lt_of_le hlt (le_trans e1 e2))
    exact not_downMoves_of_heapOrder q4 j (hj h0) ((hres hup).2 hc) hd
  · intro hu
    have := percolateUp_of_not_upMoves (moveLast q key) idx hu
    rw [this] at hrun
    simp only [Option.some.injEq, Prod.mk.injEq] at hrun
    exact ⟨hrun.1.symm, hrun.2.symm⟩
  · intro hu
    exact percolateUp_of_upMoves (moveLast q key) idx hu (q4, j) hrun

theorem delete_moves_at_most_one_witness :
    WellFormed fourQueue ∧ fourQueue.UMap 1 = some 0 ∧ (0 : Int) ≠ fourQueue.Size - 1 ∧
    ∃ q4 j, (moveLast fourQueue 1)._percolateUp 0 = some (q4, j) ∧
      ¬ (upMoves (moveLast fourQueue 1) 0 ∧ downMoves q4 j) ∧
      (¬ upMoves (moveLast fourQueue 1) 0 → q4 = moveLast fourQueue 1 ∧ j = 0) ∧
      (upMoves (moveLast fourQueue 1) 0 → j < 0) ∧
      (¬ downMoves q4 j → q4._percolateDown j = some (q4, j)) ∧
      (downMoves q4 j → ∀ r, q4._percolateDown j = some r → j < r.2) :=
  ⟨fourQueue_wellFormed, by decide, by decide,
    delete_moves_at_most_one fourQueue 1 0 fourQueue_wellFormed (by decide) (by decide)⟩

end minqueue


/-! ## Termination -/

namespace minqueue

open HeapIndex

variable {K V : Type} [LinearOrder K] [LinearOrder V]

/-- The loop of `_percolateUp` ends from every index: the fuel `index + 1` is
enough, whatever the state. -/
theorem percolateUpLoop_terminates : ∀ (fuel : Nat) (q : minqueue K V) (i : Int),
    i.toNat < fuel → ∃ r, percolateUpLoop fuel q i = some r ∧ (0 ≤ i → 0 ≤ r.2) := by
  intro fuel
  induction fuel with
  | zero => intro q i h; omega
  | succ fuel ih =>
    intro q i hfuel
    rw [percolateUpLoop_succ]
    by_cases hi : i > 0
    · by_cases hl : less (q.HeapArray i) (q.HeapArray ((i - 1) / 2))
      · simp only [hi, hl, if_true]
        obtain ⟨r, hr, hr0⟩ := ih (swapStep q i ((i - 1) / 2)) ((i - 1) / 2) (by omega)
        exact ⟨r, hr, fun _ => hr0 (by omega)⟩
      · simp only [hi, hl, if_true, if_false]
        exact ⟨(q, i), rfl, fun h => h⟩
    · simp only [hi, if_false]
      exact ⟨(q, i), rfl, fun h => h⟩

theorem percolateUp_terminates (q : minqueue K V) (i : Int) :
    ∃ r, q._percolateUp i = some r ∧ (0 ≤ i → 0 ≤ r.2) :=
  percolateUpLoop_terminates _ q i (by omega)

theorem percolateDown_terminates (q : minqueue K V) (i : Int) (h0 : 0 ≤ i) :
    ∃ r, q._percolateDown i = some r := by
  obtain ⟨q1, j, hrun, _⟩ := percolateDown_spec q i h0
  exact ⟨(q1, j), hrun⟩

theorem delete_terminates (q : minqueue K V) (key : K) (hidx : ∀ p ∈ q.UMap key, 0 ≤ p) :
    ∃ qd, q._delete key = some qd := by
  rw [delete_eq]
  by_cases hlast : (q.UMap key).getD 0 = q.Size - 1
  · simp only [hlast, if_true]
    exact ⟨_, rfl⟩
  · simp only [hlast, if_false]
    have h0 : 0 ≤ (q.UMap key).getD 0 := by
      cases hU : q.UMap key with
      | none => exact le_refl _
      | some p => exact hidx p hU
    obtain ⟨r, hr, hr0⟩ := percolateUp_terminates (moveLast q key) ((q.UMap key).getD 0)
    rw [hr]
    obtain ⟨r2, hr2⟩ := percolateDown_terminates r.1 r.2 (hr0 h0)
    simp only [hr2]
    exact ⟨_, rfl⟩

theorem pushinorderDepth_insert_ne_diverged (depth : Nat) (q : minqueue K V) (key : K)
    (value : V) (hU : q.UMap key = none) :
    pushinorderDepth (depth + 1) q key value ≠ Outcome.diverged := by
  rw [pushinorderDepth_succ]
  simp only [hU, if_true]
  by_cases hs : q.Size = q.Capacity
  · simp only [hs, if_true]
    exact fun h => Outcome.noConfusion h
  · simp only [hs, if_false]
    obtain ⟨r, hr, _⟩ := percolateUp_terminates (appendEntry q key value) q.Size
    rw [hr]
    exact fun h => Outcome.noConfusion h

/-- The nested call of `pushinorder` takes the insert branch, so that a depth
of two calls is all the recursion needs. -/
theorem pushinorderDepth_stable (depth : Nat) (q : minqueue K V) (key : K) (value : V) :
    pushinorderDepth (depth + 2) q key value = q.pushinorder key value := by
  have hins : ∀ (d : Nat) (s : minqueue K V), s.UMap key = none →
      pushinorderDepth (d + 1) s key value = pushinorderDepth 1 s key value := by
    intro d s hs
    rw [pushinorderDepth_succ, pushinorderDepth_succ]
    simp only [hs, if_true]
  unfold pushinorder
  rw [pushinorderDepth_succ, pushinorderDepth_succ 1]
  by_cases hU : q.UMap key = none
  · simp only [hU, if_true]
  · simp only [hU, if_false]
    cases hdel : q._delete key with
    | none => rfl
    | some qd =>
      simp only
      exact hins depth _ (Function.update_same _ _ _)

/-- The divergence of `_percolateDown` from a negative index below which the
buffer holds ever smaller entries. -/
theorem percolateDownLoop_stray : ∀ (fuel : Nat) (s : minqueue Nat Int) (i m : Int),
    i ≤ -2 → s.Size = 0 → s.HeapArray i = { Key := 0, Value := 0 } →
    (∀ j : Int, j < i → s.HeapArray j = { Key := 0, Value := j }) →
    percolateDownLoop fuel s i m = none := by
  intro fuel
  induction fuel with
  | zero => intro s i m _ _ _ _; rfl
  | succ fuel ih =>
    intro s i m hi hs hroot hbelow
    rw [percolateDownLoop_succ]
    have hc : 2 * i + 1 < s.Size := by omega
    have hc0 : 0 + (2 * i + 1) < s.Size := by omega
    have hc1 : 1 + (2 * i + 1) < s.Size := by omega
    have e1 : s.HeapArray (2 * i + 1) = { Key := 0, Value := 2 * i + 1 } :=
      hbelow _ (by omega)
    have h1 : less (s.HeapArray (2 * i + 1)) (s.HeapArray i) := by
      rw [e1, hroot]
      left
      show 2 * i + 1 < 0
      omega
    have h3 : ¬ less (s.HeapArray (2 * i + 1 + 1)) (s.HeapArray (2 * i + 1)) := by
      rw [e1]
      by_cases hi2 : i = -2
      · have e : (2 * i + 1 + 1 : Int) = i := by omega
        rw [e, hroot]
        rintro (h | ⟨h, _⟩)
        · have h' : (0 : Int) < 2 * i + 1 := h
          omega
        · have h' : (0 : Int) = 2 * i + 1 := h
          omega
      · rw [hbelow _ (by omega)]
        rintro (h | ⟨h, _⟩)
        · have h' : 2 * i + 1 + 1 < 2 * i + 1 := h
          omega
        · have h' : 2 * i + 1 + 1 = 2 * i + 1 := h
          omega
    have hval : scanChildren s i (2 * i + 1) m = (s.HeapArray (2 * i + 1), 2 * i + 1) := by
      unfold scanChildren visitChild
      simp only [hc0, hc1, h1, h3, if_true, if_false, add_zero]
    have hcond : ¬ ((s.HeapArray (2 * i + 1)).Value = (s.HeapArray i).Value ∧
        (s.HeapArray (2 * i + 1)).Key = (s.HeapArray i).Key) := by
      rw [e1, hroot]
      rintro ⟨h, _⟩
      have h' : 2 * i + 1 = (0 : Int) := h
      omega
    rw [hval]
    simp only [hc, hcond, if_true, if_false]
    apply ih
    · omega
    · rw [swapStep_size]; exact hs
    · rw [swapStep_heapArray, swapFn_apply, if_pos rfl]
      exact hroot
    · intro j hj
      rw [swapStep_heapArray, swapFn_apply]
      have a1 : j ≠ 2 * i + 1 := by omega
      have a2 : j ≠ i := by omega
      rw [if_neg a1, if_neg a2]
      exact hbelow j (by omega)

/-- The loop bound of `_percolateDown` needs a start index of at least `-1`.
In `strayQueue` the position index maps the key 7 to the position `-2`, a value
that no sequence of calls on a constructed queue stores; in the model, where the
slots below the buffer are part of the total map `HeapArray`, `pushinorder(7, 1)` then runs
`_percolateDown` from the index `-2`, whose loop moves to ever smaller indices
and does not end, with any amount of fuel. -/
theorem pushinorder_diverges :
    0 ≤ strayQueue.Size ∧ strayQueue.Size ≤ strayQueue.Capacity ∧
    strayQueue.pushinorder 7 1 = Outcome.diverged ∧
    (moveLast strayQueue 7)._percolateUp (-2) = some (moveLast strayQueue 7, -2) ∧
    ∀ fuel : Nat, percolateDownLoop fuel (moveLast strayQueue 7) (-2) (-2) = none := by
  refine ⟨by decide, by decide, rfl, rfl, fun fuel => ?_⟩
  apply percolateDownLoop_stray fuel _ _ _ (by decide) (by decide) (by decide)
  intro j hj
  show Function.update strayQueue.HeapArray (-2) _ j = _
  rw [Function.update_noteq (by omega)]
  rfl

end minqueue


/-! ## `Size` and the buffer accesses at `Size - 1` -/

namespace minqueue

open HeapIndex

variable {K V : Type} [LinearOrder K] [LinearOrder V]

theorem pushinorder_state_size (q q1 : minqueue K V) (key : K) (value : V)
    (h : (q.pushinorder key value).state = some q1) (h0 : 0 ≤ q.Size)
    (hcap : q.Size ≤ q.Capacity) : 0 ≤ q1.Size := by
  have hins : ∀ (d : Nat) (s : minqueue K V), s.UMap key = none → s.Size ≠ s.Capacity →
      (pushinorderDepth (d + 1) s key value).state = some q1 → q1.Size = s.Size + 1 := by
    intro d s hs hne hst
    rw [pushinorderDepth_succ] at hst
    simp only [hs, hne, if_true, if_false] at hst
    cases hup : (appendEntry s key value)._percolateUp s.Size with
    | none => rw [hup] at hst; exact Option.noConfusion hst
    | some r =>
      rw [hup] at hst
      simp only [Outcome.state, Option.some.injEq] at hst
      have e := percolateUpLoop_size _ _ _ _ hup
      rw [hst] at e
      rw [e.1, appendEntry_size]
  unfold pushinorder at h
  by_cases hU : q.UMap key = none
  · by_cases hs : q.Size = q.Capacity
    · rw [pushinorderDepth_succ] at h
      simp only [hU, hs, if_true, Outcome.state, Option.some.injEq] at h
      subst h
      exact h0
    · have := hins 1 q hU hs h
      omega
  · rw [pushinorderDepth_succ] at h
    simp only [hU, if_false] at h
    cases hdel : q._delete key with
    | none => rw [hdel] at h; exact Option.noConfusion h
    | some qd =>
      rw [hdel] at h
      simp only at h
      have e := delete_size q qd key hdel
      have := hins 0 { qd with UMap := Function.update qd.UMap key none }
        (Function.update_same _ _ _)
        (by show qd.Size ≠ qd.Capacity; rw [e.1, e.2]; omega) h
      have e2 : q1.Size = qd.Size + 1 := this
      omega

theorem minpop_state_size (q q1 : minqueue K V) (h : q.minpop.state = some q1)
    (h0 : 0 ≤ q.Size) : 0 ≤ q1.Size := by
  rw [minpop_eq] at h
  cases he : q.empty with
  | true =>
    rw [he] at h
    simp only [if_true, Outcome.state, Option.some.injEq] at h
    subst h
    exact h0
  | false =>
    rw [he] at h
    simp only [Bool.false_eq_true, if_false] at h
    have hne : q.Size ≠ 0 := by
      intro hz
      rw [(empty_iff q).mpr hz] at he
      exact Bool.noConfusion he
    cases hd : (popFront q)._percolateDown 0 with
    | none => rw [hd] at h; exact Option.noConfusion h
    | some r =>
      rw [hd] at h
      simp only [Outcome.state, Option.some.injEq] at h
      have e := percolateDownLoop_size _ _ _ _ _ hd
      rw [h] at e
      rw [e.1, popFront_size]
      omega

/-- Between the public calls `Size` is never negative. -/
theorem calls_size_nonneg : ∀ (cs : List (Call K V)) (q q1 : minqueue K V),
    q.calls cs = some q1 → 0 ≤ q.Size → q.Size ≤ q.Capacity → 0 ≤ q1.Size := by
  intro cs
  induction cs with
  | nil =>
    intro q q1 h h0 _
    simp only [calls, Option.some.injEq] at h
    subst h
    exact h0
  | cons c cs ih =>
    intro q q1 h h0 hcap
    rw [calls] at h
    cases hc : q.call c with
    | none => rw [hc] at h; exact Option.noConfusion h
    | some q2 =>
      rw [hc] at h
      have e1 := call_capacity q q2 c hc
      have e2 : 0 ≤ q2.Size := by
        cases c with
        | pushinorder key value => exact pushinorder_state_size q q2 key value hc h0 hcap
        | minpop => exact minpop_state_size q q2 hc h0
      exact ih q2 q1 h e2 (e1.2 hcap)

/-- C19: the accesses at `Size - 1` do not all stay inside the buffer.  After
`minqueue(3)`, `pushinorder(1, 1)`, `pushinorder(2, 3)`, `pushinorder(3, 2)`,
`minpop()`, `pushinorder(3, 5)`, `minpop()`, `minpop()` the queue has `Size = 0`
while the position index still maps key 2 (to position 2).  `pushinorder(2, 9)`
then runs `_delete`, which reads `HeapArray[Size - 1] = HeapArray[-1]` and
lowers `Size` to `-1`, and the nested call stores the new entry in
`HeapArray[-1]` and maps key 2 to `-1`. -/
theorem delete_reads_below_buffer :
    ((ofCapacity 3 zeroMem).calls
        [Call.pushinorder 1 1, Call.pushinorder 2 3, Call.pushinorder 3 2, Call.minpop,
          Call.pushinorder 3 5, Call.minpop, Call.minpop]).map
      (fun q => (q.Size, q.UMap 2, (moveLast q 2).Size,
        (q.pushinorder 2 9).state.map (fun q1 => (q1.Size, q1.UMap 2, q1.HeapArray (-1)))))
      = some (0, some 2, -1, some (0, some (-1), { Key := 2, Value := 9 })) := by
  rfl

end minqueue


/-! ## The queue refines the abstract priority map -/

namespace minqueue

open HeapIndex

variable {K V : Type} [LinearOrder K] [LinearOrder V]

theorem swapStep_umap_some (q : minqueue K V) (a b : Int) (k : K) (h : q.UMap k ≠ none) :
    (swapStep q a b).UMap k ≠ none := by
  show Function.update (Function.update q.UMap ((swapFn q.HeapArray a b) a).Key (some a))
    ((swapFn q.HeapArray a b) b).Key (some b) k ≠ none
  by_cases h1 : k = ((swapFn q.HeapArray a b) b).Key
  · rw [h1, Function.update_same]
    exact Option.some_ne_none _
  · rw [Function.update_noteq h1]
    by_cases h2 : k = ((swapFn q.HeapArray a b) a).Key
    · rw [h2, Function.update_same]
      exact Option.some_ne_none _
    · rw [Function.update_noteq h2]
      exact h

theorem percolateUpLoop_umap_some : ∀ (fuel : Nat) (q : minqueue K V) (i : Int)
    (r : minqueue K V × Int) (k : K), percolateUpLoop fuel q i = some r →
    q.UMap k ≠ none → r.1.UMap k ≠ none := by
  intro fuel
  induction fuel with
  | zero => intro q i r k h; exact Option.noConfusion h
  | succ fuel ih =>
    intro q i r k h hk
    rw [percolateUpLoop_succ] at h
    split_ifs at h
    · exact ih _ _ r k h (swapStep_umap_some q _ _ k hk)
    · cases h; exact hk
    · cases h; exact hk

theorem percolateDownLoop_umap_some : ∀ (fuel : Nat) (q : minqueue K V) (i m : Int)
    (r : minqueue K V × Int) (k : K), percolateDownLoop fuel q i m = some r →
    q.UMap k ≠ none → r.1.UMap k ≠ none := by
  intro fuel
  induction fuel with
  | zero => intro q i m r k h; exact Option.noConfusion h
  | succ fuel ih =>
    intro q i m r k h hk
    rw [percolateDownLoop_succ] at h
    split_ifs at h
    · cases h; exact hk
    · exact ih _ _ _ r k h (swapStep_umap_some q _ _ k hk)
    · cases h; exact hk

theorem mem_keys_iff (q : minqueue K V) (k : K) :
    k ∈ (liveEntries q).map KeyValuePair.Key ↔ ∃ e ∈ liveEntries q, e.Key = k := by
  simp only [List.mem_map]

theorem frame_keySync (s q1 : minqueue K V) (hframe : Frame s q1)
    (hmono : ∀ k : K, s.UMap k ≠ none → q1.UMap k ≠ none) (hs : KeySync s) : KeySync q1 := by
  intro k
  have hperm : ((liveEntries q1).map KeyValuePair.Key).Perm
      ((liveEntries s).map KeyValuePair.Key) := hframe.perm.map _
  rw [hperm.mem_iff]
  constructor
  · intro hk
    by_contra hnot
    have : q1.UMap k = s.UMap k := by
      apply hframe.umap
      intro e he hek
      exact hnot (List.mem_map.mpr ⟨e, he, hek⟩)
    rw [this] at hk
    exact hnot ((hs k).mp hk)
  · intro hk
    exact hmono k ((hs k).mpr hk)

theorem appendEntry_keySync (q : minqueue K V) (key : K) (value : V) (h0 : 0 ≤ q.Size)
    (hs : KeySync q) : KeySync (appendEntry q key value) := by
  intro k
  rw [appendEntry_liveEntries q key value h0, appendEntry_umap]
  simp only [List.map_append, List.map_cons, List.map_nil, List.mem_append,
    List.mem_singleton]
  by_cases hk : k = key
  · rw [hk, Function.update_same]
    exact ⟨fun _ => Or.inr rfl, fun _ => Option.some_ne_none _⟩
  · rw [Function.update_noteq hk]
    constructor
    · intro h; exact Or.inl ((hs k).mp h)
    · rintro (h | h)
      · exact (hs k).mpr h
      · exact absurd h hk

theorem insert_keySync (depth : Nat) (q q1 : minqueue K V) (key : K) (value : V)
    (hrun : pushinorderDepth (depth + 1) q key value = Outcome.returned q1 ())
    (hU : q.UMap key = none) (h0 : 0 ≤ q.Size) (hs : KeySync q) : KeySync q1 := by
  rw [pushinorderDepth_succ] at hrun
  simp only [hU, if_true] at hrun
  by_cases hne : q.Size = q.Capacity
  · simp only [hne, if_true] at hrun
    exact Outcome.noConfusion hrun
  · simp only [hne, if_false] at hrun
    obtain ⟨q5, j, hup, hframe, _⟩ :=
      percolateUp_spec (appendEntry q key value) q.Size (by rw [appendEntry_size]; omega)
    rw [hup] at hrun
    simp only [Outcome.returned.injEq, and_true] at hrun
    subst hrun
    exact frame_keySync _ _ hframe
      (fun k hk => percolateUpLoop_umap_some _ _ _ _ k hup hk)
      (appendEntry_keySync q key value h0 hs)

theorem popFront_keySync (q : minqueue K V) (h1 : 1 ≤ q.Size) (hd : DistinctKeys q)
    (hs : KeySync q) : KeySync (popFront q) := by
  intro k
  have hperm : ((liveEntries (popFront q)).map KeyValuePair.Key ++ [(q.HeapArray 0).Key]).Perm
      ((liveEntries q).map KeyValuePair.Key) := by
    have := (popFront_perm q h1).map KeyValuePair.Key
    simpa using this
  have hnd : ((liveEntries (popFront q)).map KeyValuePair.Key ++ [(q.HeapArray 0).Key]).Nodup :=
    hperm.nodup_iff.mpr hd
  rw [List.nodup_append] at hnd
  have hdisj := hnd.2.2
  rw [popFront_umap]
  by_cases hk : k = (q.HeapArray 0).Key
  · rw [hk, Function.update_same]
    constructor
    · intro h; exact absurd rfl h
    · intro h; exact absurd (List.mem_singleton_self _) (hdisj h)
  · rw [Function.update_noteq hk, hs k, ← hperm.mem_iff]
    simp only [List.mem_append, List.mem_singleton]
    constructor
    · rintro (h | h)
      · exact h
      · exact absurd h hk
    · intro h; exact Or.inl h

theorem minpop_keySync (q q1 : minqueue K V) (hrun : q.minpop = Outcome.returned q1 ())
    (h1 : 1 ≤ q.Size) (hd : DistinctKeys q) (hs : KeySync q) : KeySync q1 := by
  rw [minpop_eq, not_empty_of_pos q h1] at hrun
  obtain ⟨q4, j, hdown, hframe, _⟩ := percolateDown_spec (popFront q) 0 (le_refl _)
  rw [hdown] at hrun
  simp only [Bool.false_eq_true, if_false, Outcome.returned.injEq, and_true] at hrun
  subst hrun
  exact frame_keySync _ _ hframe
    (fun k hk => percolateDownLoop_umap_some _ _ _ _ _ k hdown hk)
    (popFront_keySync q h1 hd hs)

theorem sort_live_eq_cons (q q1 : minqueue K V) (hheap : HeapOrder q)
    (hperm : (liveEntries q1 ++ [q.HeapArray 0]).Perm (liveEntries q)) :
    (liveEntries q).insertionSort entryLE =
      q.HeapArray 0 :: (liveEntries q1).insertionSort entryLE := by
  haveI : IsTrans (KeyValuePair K V) entryLE := entryLE_isTrans
  haveI : IsAntisymm (KeyValuePair K V) entryLE := entryLE_isAntisymm
  haveI : IsTotal (KeyValuePair K V) entryLE := entryLE_isTotal
  apply List.eq_of_perm_of_sorted (r := entryLE) _ (List.sorted_insertionSort _ _)
  · rw [List.sorted_cons]
    refine ⟨fun b hb => ?_, List.sorted_insertionSort _ _⟩
    have hb2 : b ∈ liveEntries q1 := (List.perm_insertionSort _ _).mem_iff.mp hb
    exact front_le_live q hheap b (hperm.subset (List.mem_append_left _ hb2))
  · have p1 := List.perm_insertionSort entryLE (liveEntries q)
    have p2 := List.perm_insertionSort entryLE (liveEntries q1)
    exact p1.trans ((hperm.symm.trans (List.perm_append_singleton _ _)).trans
      (List.Perm.cons _ p2.symm))

theorem liveEntries_length (q : minqueue K V) : (liveEntries q).length = q.Size.toNat := by
  unfold liveEntries
  simp

theorem sort_live_head (q : minqueue K V) (h1 : 1 ≤ q.Size) (hheap : HeapOrder q) :
    ∃ rest, (liveEntries q).insertionSort entryLE = q.HeapArray 0 :: rest := by
  haveI : IsTrans (KeyValuePair K V) entryLE := entryLE_isTrans
  haveI : IsTotal (KeyValuePair K V) entryLE := entryLE_isTotal
  have hmem : q.HeapArray 0 ∈ liveEntries q := mem_liveEntries.mpr ⟨0, le_refl _, by omega, rfl⟩
  have hs := List.sorted_insertionSort entryLE (liveEntries q)
  have hp := List.perm_insertionSort entryLE (liveEntries q)
  cases hl : (liveEntries q).insertionSort entryLE with
  | nil =>
    rw [hl] at hp
    have := hp.length_eq
    rw [liveEntries_length] at this
    simp only [List.length_nil] at this
    omega
  | cons a rest =>
    rw [hl] at hs hp
    refine ⟨rest, ?_⟩
    have ha : a ∈ liveEntries q := hp.subset (List.mem_cons_self _ _)
    have h2 : entryLE (q.HeapArray 0) a := front_le_live q hheap a ha
    have h3 : entryLE a (q.HeapArray 0) := by
      rcases List.mem_cons.mp (hp.symm.subset hmem) with h | h
      · rw [h]; exact entryLE_refl _
      · exact (List.sorted_cons.mp hs).1 _ h
    rw [entryLE_antisymm h3 h2]

/-- One operation that does not update a key keeps the queue in step with its
abstract map: the caller observes the same, and the new state stands for the
new map. -/
theorem step_simulates (q : minqueue K V) (op : Op K V) (hsim : Simulates q)
    (hfresh : (abstraction q).Fresh op) :
    ∃ q1, q.step op = some (((abstraction q).step op).1, q1) ∧ Simulates q1 ∧
      abstraction q1 = ((abstraction q).step op).2 := by
  haveI : IsTrans (KeyValuePair K V) entryLE := entryLE_isTrans
  haveI : IsAntisymm (KeyValuePair K V) entryLE := entryLE_isAntisymm
  haveI : IsTotal (KeyValuePair K V) entryLE := entryLE_isTotal
  have hlen : (((abstraction q).entries.length : Nat) : Int) = q.Size := by
    show ((((liveEntries q).insertionSort entryLE).length : Nat) : Int) = q.Size
    rw [List.length_insertionSort, liveEntries_length]
    exact Int.toNat_of_nonneg hsim.size_nonneg
  cases op with
  | pushinorder key value =>
    have hnot : key ∉ (liveEntries q).map KeyValuePair.Key := by
      intro hk
      apply hfresh
      show key ∈ ((liveEntries q).insertionSort entryLE).map KeyValuePair.Key
      exact ((List.perm_insertionSort entryLE (liveEntries q)).map _).mem_iff.mpr hk
    have hU : q.UMap key = none := by
      by_contra h
      exact hnot ((hsim.keys key).mp h)
    by_cases hfull : q.Size = q.Capacity
    · have hrun : q.pushinorder key value =
          Outcome.thrown q (Exception.runtime_error "minqueue::pushinorder: queue full") := by
        unfold pushinorder
        rw [pushinorderDepth_succ]
        simp only [hU, hfull, if_true]
      have habs : (abstraction q).step (Op.pushinorder key value) =
          (Observed.failed, abstraction q) := by
        show (if (((abstraction q).entries.length : Nat) : Int) = (abstraction q).capacity
          then _ else _) = _
        rw [hlen]
        show (if q.Size = q.Capacity then _ else _) = _
        rw [if_pos hfull]
      refine ⟨q, ?_, hsim, ?_⟩
      · show (match q.pushinorder key value with
          | Outcome.returned q1 _ => some (Observed.done, q1)
          | Outcome.thrown q1 _ => some (Observed.failed, q1)
          | Outcome.diverged => none) = _
        rw [hrun, habs]
      · rw [habs]
    · obtain ⟨q1, hrun, hs, hc, hp, hh⟩ :=
        pushinorderDepth_insert 1 q key value hU hfull hsim.size_nonneg
      have hrun2 : q.pushinorder key value = Outcome.returned q1 () := hrun
      have habs : (abstraction q).step (Op.pushinorder key value) =
          (Observed.done, { abstraction q with entries :=
            (abstraction q).entries.orderedInsert entryLE { Key := key, Value := value } }) := by
        show (if (((abstraction q).entries.length : Nat) : Int) = (abstraction q).capacity
          then _ else _) = _
        rw [hlen]
        show (if q.Size = q.Capacity then _ else _) = _
        rw [if_neg hfull]
      refine ⟨q1, ?_, ⟨?_, ?_, hh hsim.heap, ?_, ?_⟩, ?_⟩
      · show (match q.pushinorder key value with
          | Outcome.returned q1 _ => some (Observed.done, q1)
          | Outcome.thrown q1 _ => some (Observed.failed, q1)
          | Outcome.diverged => none) = _
        rw [hrun2, habs]
      · rw [hs]; have := hsim.size_nonneg; omega
      · rw [hs, hc]; have := hsim.size_le; omega
      · unfold DistinctKeys
        have hp2 := hp.map KeyValuePair.Key
        rw [hp2.nodup_iff, List.map_append, List.nodup_append]
        refine ⟨hsim.distinct, List.nodup_singleton _, ?_⟩
        intro k hk1 hk2
        simp only [List.map_cons, List.map_nil, List.mem_singleton] at hk2
        exact hnot (hk2 ▸ hk1)
      · exact insert_keySync 1 q q1 key value hrun hU hsim.size_nonneg hsim.keys
      · rw [habs]
        show ({ entries := (liveEntries q1).insertionSort entryLE, capacity := q1.Capacity } :
          PriorityMap K V) = { entries := _, capacity := q.Capacity }
        rw [hc]
        congr 1
        apply List.eq_of_perm_of_sorted (r := entryLE) _ (List.sorted_insertionSort _ _)
          ((List.sorted_insertionSort _ _).orderedInsert _ _)
        have p1 := List.perm_insertionSort entryLE (liveEntries q1)
        have p2 := List.perm_insertionSort entryLE (liveEntries q)
        have p3 := List.perm_orderedInsert entryLE ({ Key := key, Value := value })
          ((liveEntries q).insertionSort entryLE)
        exact (p1.trans (hp.trans (List.perm_append_singleton _ _))).trans
          ((List.Perm.cons _ p2.symm).trans p3.symm)
  | minpop =>
    by_cases hempty : q.Size = 0
    · have hrun : q.minpop =
          Outcome.thrown q (Exception.logic_error "minqueue::minpop: queue empty") := by
        rw [minpop_eq, (empty_iff q).mpr hempty]
        rfl
      have hnil : (liveEntries q).insertionSort entryLE = [] := by
        have : liveEntries q = [] := by
          apply List.eq_nil_of_length_eq_zero
          rw [liveEntries_length, hempty]
          rfl
        rw [this]
        rfl
      have habs : (abstraction q).step Op.minpop = (Observed.failed, abstraction q) := by
        show (match (liveEntries q).insertionSort entryLE with
          | [] => (Observed.failed, abstraction q)
          | _ :: rest => (Observed.done, { abstraction q with entries := rest })) = _
        rw [hnil]
      refine ⟨q, ?_, hsim, ?_⟩
      · show (match q.minpop with
          | Outcome.returned q1 _ => some (Observed.done, q1)
          | Outcome.thrown q1 _ => some (Observed.failed, q1)
          | Outcome.diverged => none) = _
        rw [hrun, habs]
      · rw [habs]
    · have h1 : 1 ≤ q.Size := by have := hsim.size_nonneg; omega
      obtain ⟨q1, hrun, hs, hc, hp, hh, _⟩ := minpop_spec q h1
      have hsort := sort_live_eq_cons q q1 hsim.heap hp
      have habs : (abstraction q).step Op.minpop =
          (Observed.done, { abstraction q with
            entries := (liveEntries q1).insertionSort entryLE }) := by
        show (match (liveEntries q).insertionSort entryLE with
          | [] => (Observed.failed, abstraction q)
          | _ :: rest => (Observed.done, { abstraction q with entries := rest })) = _
        rw [hsort]
      refine ⟨q1, ?_, ⟨?_, ?_, hh hsim.heap, ?_, ?_⟩, ?_⟩
      · show (match q.minpop with
          | Outcome.returned q1 _ => some (Observed.done, q1)
          | Outcome.thrown q1 _ => some (Observed.failed, q1)
          | Outcome.diverged => none) = _
        rw [hrun, habs]
      · rw [hs]; omega
      · rw [hs, hc]; have := hsim.size_le; omega
      · unfold DistinctKeys
        have hp2 := hp.map KeyValuePair.Key
        have hnd := hp2.nodup_iff.mpr hsim.distinct
        rw [List.map_append, List.nodup_append] at hnd
        exact hnd.1
      · exact minpop_keySync q q1 hrun h1 hsim.distinct hsim.keys
      · rw [habs]
        show ({ entries := (liveEntries q1).insertionSort entryLE, capacity := q1.Capacity } :
          PriorityMap K V) = { entries := _, capacity := q.Capacity }
        rw [hc]
  | minfront =>
    by_cases hempty : q.Size = 0
    · have hrun : q.minfront =
          Outcome.thrown q (Exception.logic_error "minqueue::minfront: queue empty") := by
        unfold minfront
        rw [(empty_iff q).mpr hempty]
        rfl
      have hnil : (liveEntries q).insertionSort entryLE = [] := by
        have : liveEntries q = [] := by
          apply List.eq_nil_of_length_eq_zero
          rw [liveEntries_length, hempty]
          rfl
        rw [this]
        rfl
      have habs : (abstraction q).step Op.minfront = (Observed.failed, abstraction q) := by
        show (match (liveEntries q).insertionSort entryLE with
          | [] => (Observed.failed, abstraction q)
          | e :: _ => (Observed.front e.Key, abstraction q)) = _
        rw [hnil]
      refine ⟨q, ?_, hsim, ?_⟩
      · show (match q.minfront with
          | Outcome.returned q1 key => some (Observed.front key, q1)
          | Outcome.thrown q1 _ => some (Observed.failed, q1)
          | Outcome.diverged => none) = _
        rw [hrun, habs]
      · rw [habs]
    · have h1 : 1 ≤ q.Size := by have := hsim.size_nonneg; omega
      have hrun : q.minfront = Outcome.returned q (q.HeapArray 0).Key := by
        unfold minfront
        rw [not_empty_of_pos q h1]
        rfl
      obtain ⟨rest, hrest⟩ := sort_live_head q h1 hsim.heap
      have habs : (abstraction q).step Op.minfront =
          (Observed.front (q.HeapArray 0).Key, abstraction q) := by
        show (match (liveEntries q).insertionSort entryLE with
          | [] => (Observed.failed, abstraction q)
          | e :: _ => (Observed.front e.Key, abstraction q)) = _
        rw [hrest]
      refine ⟨q, ?_, hsim, ?_⟩
      · show (match q.minfront with
          | Outcome.returned q1 key => some (Observed.front key, q1)
          | Outcome.thrown q1 _ => some (Observed.failed, q1)
          | Outcome.diverged => none) = _
        rw [hrun, habs]
      · rw [habs]

theorem run_simulates : ∀ (ops : List (Op K V)) (q : minqueue K V), Simulates q →
    (abstraction q).NoUpdate ops →
    ∃ q1, q.run ops = some (((abstraction q).run ops).1, q1) ∧ Simulates q1 ∧
      abstraction q1 = ((abstraction q).run ops).2 := by
  intro ops
  induction ops with
  | nil => intro q hsim _; exact ⟨q, rfl, hsim, rfl⟩
  | cons op ops ih =>
    intro q hsim hno
    obtain ⟨q1, hstep, hsim1, habs1⟩ := step_simulates q op hsim hno.1
    have hno2 : (abstraction q1).NoUpdate ops := by rw [habs1]; exact hno.2
    obtain ⟨q2, hrun, hsim2, habs2⟩ := ih q1 hsim1 hno2
    refine ⟨q2, ?_, hsim2, ?_⟩
    · rw [run, hstep]
      simp only [hrun]
      rw [habs1]
      rfl
    · rw [habs2, habs1]
      rfl

theorem ofCapacity_simulates (capacity : Int) (mem : Int → KeyValuePair K V)
    (hcap : 0 ≤ capacity) : Simulates (ofCapacity capacity mem) := by
  refine ⟨le_refl _, hcap, ?_, ?_, ?_⟩
  · intro i h0 hn
    have : i < 0 := hn
    omega
  · exact List.nodup_nil
  · intro k
    constructor
    · intro h; exact absurd rfl h
    · intro h
      have : k ∈ ([] : List K) := h
      exact absurd this (List.not_mem_nil _)

/-- C20: started from `minqueue(capacity)` with `capacity ≥ 0`, every sequence
of `pushinorder`, `minpop` and `minfront` calls in which no `pushinorder` has
a key that is in the queue at the time of the call runs to its end, the caller
observes call by call what the abstract priority map of bound `capacity`
yields (the same failures, and the same keys from `minfront`), and the final
state stands for the final abstract map. -/
theorem refines_priorityMap (capacity : Int) (mem : Int → KeyValuePair K V)
    (hcap : 0 ≤ capacity) (ops : List (Op K V))
    (hfresh : (PriorityMap.empty capacity : PriorityMap K V).NoUpdate ops) :
    ∃ q, (ofCapacity capacity mem).run ops =
        some (((PriorityMap.empty capacity : PriorityMap K V).run ops).1, q) ∧
      abstraction q = ((PriorityMap.empty capacity : PriorityMap K V).run ops).2 := by
  have habs : abstraction (ofCapacity capacity mem) =
      (PriorityMap.empty capacity : PriorityMap K V) := rfl
  obtain ⟨q, hrun, _, hq⟩ := run_simulates ops (ofCapacity capacity mem)
    (ofCapacity_simulates capacity mem hcap) (by rw [habs]; exact hfresh)
  rw [habs] at hrun hq
  exact ⟨q, hrun, hq⟩

theorem refines_priorityMap_witness :
    (0 : Int) ≤ 2 ∧
    (PriorityMap.empty 2 : PriorityMap Nat Int).NoUpdate
      [Op.pushinorder 1 5, Op.pushinorder 2 5, Op.minfront, Op.pushinorder 3 1, Op.minpop,
        Op.minfront] ∧
    ((PriorityMap.empty 2 : PriorityMap Nat Int).run
      [Op.pushinorder 1 5, Op.pushinorder 2 5, Op.minfront, Op.pushinorder 3 1, Op.minpop,
        Op.minfront]).1 =
      [Observed.done, Observed.done, Observed.front 1, Observed.failed, Observed.done,
        Observed.front 2] ∧
    ∃ q, (ofCapacity 2 zeroMem).run
        [Op.pushinorder 1 5, Op.pushinorder 2 5, Op.minfront, Op.pushinorder 3 1, Op.minpop,
          Op.minfront] =
        some (((PriorityMap.empty 2 : PriorityMap Nat Int).run
          [Op.pushinorder 1 5, Op.pushinorder 2 5, Op.minfront, Op.pushinorder 3 1,
            Op.minpop, Op.minfront]).1, q) ∧
      abstraction q = ((PriorityMap.empty 2 : PriorityMap Nat Int).run
        [Op.pushinorder 1 5, Op.pushinorder 2 5, Op.minfront, Op.pushinorder 3 1, Op.minpop,
          Op.minfront]).2 :=
  ⟨by decide, by decide, by decide,
    refines_priorityMap 2 zeroMem (by decide)
      [Op.pushinorder 1 5, Op.pushinorder 2 5, Op.minfront, Op.pushinorder 3 1, Op.minpop,
        Op.minfront] (by decide)⟩

end minqueue


/-! ## States with the same live buffer -/

namespace minqueue

open HeapIndex

variable {K V : Type} [LinearOrder K] [LinearOrder V]

theorem LiveEq.same (q : minqueue K V) : LiveEq q q :=
  ⟨rfl, fun _ _ _ => rfl⟩

theorem LiveEq.flip {q q1 : minqueue K V} (h : LiveEq q q1) : LiveEq q1 q :=
  ⟨h.1.symm, fun i h0 hn => (h.2 i h0 (by rw [← h.1]; exact hn)).symm⟩

theorem LiveEq.chain {q q1 q2 : minqueue K V} (h1 : LiveEq q q1) (h2 : LiveEq q1 q2) :
    LiveEq q q2 :=
  ⟨h2.1.trans h1.1, fun i h0 hn =>
    (h2.2 i h0 (by rw [h1.1]; exact hn)).trans (h1.2 i h0 hn)⟩

theorem LiveEq.heapOrderEq {q q1 : minqueue K V} (h : LiveEq q q1) (hh : HeapOrder q) :
    HeapOrder q1 := by
  intro i h0 hn
  rw [h.1] at hn
  rw [h.2 i (by omega) hn, h.2 ((i - 1) / 2) (by omega) (by omega)]
  exact hh i h0 hn

theorem LiveEq.swapStepEq {q q1 : minqueue K V} (h : LiveEq q q1) (a b : Int)
    (ha0 : 0 ≤ a) (han : a < q.Size) (hb0 : 0 ≤ b) (hbn : b < q.Size) :
    LiveEq (swapStep q a b) (swapStep q1 a b) := by
  refine ⟨h.1, fun i h0 hn => ?_⟩
  have hn2 : i < q.Size := hn
  rw [swapStep_heapArray, swapStep_heapArray, swapFn_apply, swapFn_apply,
    h.2 a ha0 han, h.2 b hb0 hbn, h.2 i h0 hn2]

theorem LiveEq.scanEq {q q1 : minqueue K V} (h : LiveEq q q1) (i c m : Int)
    (hi0 : 0 ≤ i) (hin : i < q.Size) (hc0 : 0 ≤ c) (hc : c < q.Size) :
    scanChildren q1 i c m = scanChildren q i c m := by
  unfold minqueue.scanChildren visitChild
  rw [h.1]
  have e0 : q1.HeapArray i = q.HeapArray i := h.2 i hi0 hin
  have e1 : q1.HeapArray (c + 0) = q.HeapArray (c + 0) := by
    rw [add_zero]; exact h.2 c hc0 hc
  rw [e0, e1]
  by_cases h2 : 1 + c < q.Size
  · have e2 : q1.HeapArray (c + 1) = q.HeapArray (c + 1) := h.2 _ (by omega) (by omega)
    rw [e2]
  · simp only [h2, if_false]

theorem percolateDownLoop_liveEq : ∀ (fuel : Nat) (q q1 : minqueue K V) (i m : Int)
    (r : minqueue K V × Int), LiveEq q q1 → 0 ≤ i →
    percolateDownLoop fuel q i m = some r →
    ∃ r1, percolateDownLoop fuel q1 i m = some r1 ∧ LiveEq r.1 r1.1 ∧ r1.2 = r.2 := by
  intro fuel
  induction fuel with
  | zero => intro q q1 i m r _ _ h; exact Option.noConfusion h
  | succ fuel ih =>
    intro q q1 i m r heq h0 h
    rw [percolateDownLoop_succ] at h ⊢
    rw [heq.1]
    by_cases hc : 2 * i + 1 < q.Size
    · have hsc := heq.scanEq i (2 * i + 1) m h0 (by omega) (by omega) hc
      rw [hsc, heq.2 i h0 (by omega)]
      simp only [hc, if_true] at h ⊢
      by_cases hcond : (scanChildren q i (2 * i + 1) m).1.Value = (q.HeapArray i).Value ∧
          (scanChildren q i (2 * i + 1) m).1.Key = (q.HeapArray i).Key
      · simp only [hcond, and_self, if_true, Option.some.injEq] at h ⊢
        subst h
        exact ⟨(q1, i), rfl, heq, rfl⟩
      · simp only [hcond, if_false] at h ⊢
        rcases scanChildren_cases q i (2 * i + 1) m hc with ⟨hst, _, _⟩ | ⟨hpos, _, _, _, _⟩
        · exfalso
          apply hcond
          rw [hst]
          exact ⟨rfl, rfl⟩
        · exact ih _ _ _ _ r
            (heq.swapStepEq i _ h0 (by omega) (by omega) (by omega)) (by omega) h
    · simp only [hc, if_false, Option.some.injEq] at h ⊢
      subst h
      exact ⟨(q1, i), rfl, heq, rfl⟩

theorem percolateUpLoop_liveEq : ∀ (fuel : Nat) (q q1 : minqueue K V) (i : Int)
    (r : minqueue K V × Int), LiveEq q q1 → i < q.Size →
    percolateUpLoop fuel q i = some r →
    ∃ r1, percolateUpLoop fuel q1 i = some r1 ∧ LiveEq r.1 r1.1 ∧ r1.2 = r.2 := by
  intro fuel
  induction fuel with
  | zero => intro q q1 i r _ _ h; exact Option.noConfusion h
  | succ fuel ih =>
    intro q q1 i r heq hn h
    rw [percolateUpLoop_succ] at h ⊢
    by_cases hi : i > 0
    · rw [heq.2 i (by omega) hn, heq.2 ((i - 1) / 2) (by omega) (by omega)]
      simp only [hi, if_true] at h ⊢
      by_cases hl : less (q.HeapArray i) (q.HeapArray ((i - 1) / 2))
      · simp only [hl, if_true] at h ⊢
        exact ih _ _ _ r (heq.swapStepEq i _ (by omega) hn (by omega) (by omega))
          (by rw [swapStep_size]; omega) h
      · simp only [hl, if_false, Option.some.injEq] at h ⊢
        subst h
        exact ⟨(q1, i), rfl, heq, rfl⟩
    · simp only [hi, if_false, Option.some.injEq] at h ⊢
      subst h
      exact ⟨(q1, i), rfl, heq, rfl⟩

theorem percolateDownLoop_fuel_succ : ∀ (fuel : Nat) (q : minqueue K V) (i m : Int)
    (r : minqueue K V × Int), percolateDownLoop fuel q i m = some r →
    percolateDownLoop (fuel + 1) q i m = some r := by
  intro fuel
  induction fuel with
  | zero => intro q i m r h; exact Option.noConfusion h
  | succ fuel ih =>
    intro q i m r h
    rw [percolateDownLoop_succ] at h ⊢
    split_ifs at h ⊢
    · exact h
    · exact ih _ _ _ r h
    · exact h

theorem percolateDownLoop_fuel_le (fuel fuel1 : Nat) (hle : fuel ≤ fuel1) (q : minqueue K V)
    (i m : Int) (r : minqueue K V × Int) (h : percolateDownLoop fuel q i m = some r) :
    percolateDownLoop fuel1 q i m = some r := by
  induction hle with
  | refl => exact h
  | step _ ih => exact percolateDownLoop_fuel_succ _ q i m r ih

theorem umap_eq_of_liveEq (q q1 : minqueue K V) (heq : LiveEq q q1)
    (hc : IndexConsistent q) (hex : IndexExact q) (hc1 : IndexConsistent q1)
    (hex1 : IndexExact q1) : q1.UMap = q.UMap := by
  funext k
  cases h1 : q.UMap k with
  | none =>
    cases h2 : q1.UMap k with
    | none => rfl
    | some p =>
      exfalso
      obtain ⟨p0, pn, pk⟩ := hex1 k p h2
      rw [heq.1] at pn
      have := hc p p0 pn
      rw [← heq.2 p p0 pn, pk, h1] at this
      exact Option.noConfusion this
  | some p =>
    obtain ⟨p0, pn, pk⟩ := hex k p h1
    have := hc1 p p0 (by rw [heq.1]; exact pn)
    rw [heq.2 p p0 pn, pk] at this
    exact this

end minqueue


/-! ## `_delete` undoes the insert branch -/

namespace minqueue

open HeapIndex

variable {K V : Type} [LinearOrder K] [LinearOrder V]

theorem moveLast_heapArray_of (s : minqueue K V) (key : K) (idx : Int)
    (hU : s.UMap key = some idx) :
    (moveLast s key).HeapArray =
      Function.update s.HeapArray idx (s.HeapArray (s.Size - 1)) := by
  rw [moveLast_heapArray, hU]
  rfl

/-- When the moved entry is not below its new parent, `_delete` is the
`_percolateDown` of the state with the last entry moved. -/
theorem delete_eq_down (s : minqueue K V) (key : K) (idx : Int)
    (hU : s.UMap key = some idx) (hlast : idx ≠ s.Size - 1)
    (hup : ¬ upMoves (moveLast s key) idx) :
    s._delete key = ((moveLast s key)._percolateDown idx).map (fun r => r.1) := by
  rw [delete_eq, hU]
  simp only [Option.getD_some, hlast, if_false]
  rw [percolateUp_of_not_upMoves _ _ hup]
  simp only
  cases (moveLast s key)._percolateDown idx with
  | none => rfl
  | some r => rfl

theorem hkey_ne_of_consistent (s : minqueue K V) (hc : IndexConsistent s) (a b : Int)
    (ha0 : 0 ≤ a) (han : a < s.Size) (hb0 : 0 ≤ b) (hbn : b < s.Size) (hab : a ≠ b) :
    hkey s a ≠ hkey s b := by
  intro h
  have h2 : s.HeapArray a = s.HeapArray b := lexKey_injective h
  exact hab (key_inj_of_consistent s hc a b ha0 han hb0 hbn (by rw [h2]))

/-- The state at the start of the `_percolateUp` loop of the insert branch
satisfies the invariant. -/
theorem undoInv_appendEntry (h : minqueue K V) (key : K) (value : V) (h0 : 0 ≤ h.Size)
    (hheap : HeapOrder h) (hc : IndexConsistent h) (hex : IndexExact h)
    (hU : h.UMap key = none) : UndoInv h key (appendEntry h key value) h.Size := by
  obtain ⟨hup, hch⟩ := appendEntry_upInv h key value h0 hheap
  obtain ⟨hc2, _⟩ := appendEntry_sync h key value hU h0 hc hex
  have hHA : ∀ j : Int, j ≠ h.Size → (appendEntry h key value).HeapArray j = h.HeapArray j := by
    intro j hj
    rw [appendEntry_heapArray, Function.update_noteq hj]
  refine ⟨appendEntry_size h key value, h0, le_refl _, ?_, hup, hch, hc2,
    fun hne => absurd rfl hne, fun _ j hj0 hjn => hHA j (by omega), ?_⟩
  · rw [appendEntry_heapArray, Function.update_same]
  · have hUa : (appendEntry h key value).UMap key = some h.Size := by
      rw [appendEntry_umap, Function.update_same]
    rw [delete_eq, hUa]
    simp only [Option.getD_some, appendEntry_size]
    rw [if_pos (by omega)]
    exact ⟨_, rfl, by show h.Size + 1 - 1 = h.Size; omega, fun j hj0 hjn => hHA j (by omega)⟩

/-- A swapping pass of the `_percolateUp` loop of the insert branch keeps the
invariant: after the swap, `_delete` first swaps the two entries back. -/
theorem undoInv_swap (h s : minqueue K V) (key : K) (i : Int) (hheap : HeapOrder h)
    (inv : UndoInv h key s i) (hi : 0 < i)
    (hl : less (s.HeapArray i) (s.HeapArray ((i - 1) / 2))) :
    UndoInv h key (swapStep s i ((i - 1) / 2)) ((i - 1) / 2) := by
  have hsz := inv.size
  have hilo := inv.lo
  have hihi := inv.hi
  have hin : i < s.Size := by omega
  have hlt : hkey s i < hkey s ((i - 1) / 2) := (less_iff _ _).mp hl
  have hp0 : 0 ≤ (i - 1) / 2 := by omega
  have hne : i ≠ (i - 1) / 2 := by omega
  have hS1 : ∀ j : Int, (swapStep s i ((i - 1) / 2)).HeapArray j =
      if j = (i - 1) / 2 then s.HeapArray i
      else if j = i then s.HeapArray ((i - 1) / 2) else s.HeapArray j := by
    intro j
    rw [swapStep_heapArray, swapFn_apply]
  have hcons1 : IndexConsistent (swapStep s i ((i - 1) / 2)) :=
    swapStep_consistent s i ((i - 1) / 2) hne (by omega) hin hp0 (by omega)
      (key_inj_of_consistent s inv.index) (fun j hj0 hjn _ _ => inv.index j hj0 hjn)
  have hup1 : UpInv (hkey (swapStep s i ((i - 1) / 2))) (swapStep s i ((i - 1) / 2)).Size
      ((i - 1) / 2) := by
    rw [swapStep_hkey, swapStep_size]
    exact inv.up.swapUp hi hin hlt
  have hch1 : ChildrenOK (hkey (swapStep s i ((i - 1) / 2)))
      (swapStep s i ((i - 1) / 2)).Size ((i - 1) / 2) := by
    rw [swapStep_hkey, swapStep_size]
    exact ChildrenOK.swapChild inv.up inv.children hi hlt
  have hgp : 0 < (i - 1) / 2 →
      hkey s (((i - 1) / 2 - 1) / 2) ≤ hkey s ((i - 1) / 2) :=
    fun hp => inv.up.1 ((i - 1) / 2) hp (by omega) (by omega) (by omega)
  have hlast1 : (i - 1) / 2 ≠ h.Size → 0 < (i - 1) / 2 →
      hkey (swapStep s i ((i - 1) / 2)) (((i - 1) / 2 - 1) / 2) ≤
        hkey (swapStep s i ((i - 1) / 2)) h.Size := by
    intro _ hp
    unfold hkey
    rw [hS1, hS1]
    have a1 : ((i - 1) / 2 - 1) / 2 ≠ (i - 1) / 2 := by omega
    have a2 : ((i - 1) / 2 - 1) / 2 ≠ i := by omega
    have a3 : h.Size ≠ (i - 1) / 2 := by omega
    rw [if_neg a1, if_neg a2, if_neg a3]
    by_cases hin2 : i = h.Size
    · rw [if_pos hin2.symm]
      exact hgp hp
    · rw [if_neg (Ne.symm hin2)]
      exact le_trans (hgp hp) (inv.last hin2 hi)
  have hU1 : (swapStep s i ((i - 1) / 2)).UMap key = some ((i - 1) / 2) := by
    have := hcons1 ((i - 1) / 2) hp0 (by rw [swapStep_size]; omega)
    rw [hS1, if_pos rfl, inv.entry] at this
    exact this
  have hsz1 : (swapStep s i ((i - 1) / 2)).Size - 1 = h.Size := by
    rw [swapStep_size]; omega
  have hM : (moveLast (swapStep s i ((i - 1) / 2)) key).HeapArray =
      Function.update (swapStep s i ((i - 1) / 2)).HeapArray ((i - 1) / 2)
        ((swapStep s i ((i - 1) / 2)).HeapArray h.Size) := by
    rw [moveLast_heapArray_of _ _ _ hU1, hsz1]
  have hMsz : (moveLast (swapStep s i ((i - 1) / 2)) key).Size = h.Size := by
    rw [moveLast_size]; exact hsz1
  have hnoup : ¬ upMoves (moveLast (swapStep s i ((i - 1) / 2)) key) ((i - 1) / 2) := by
    rintro ⟨hp, hless⟩
    have h2 := (less_iff _ _).mp hless
    unfold hkey at h2
    have a1 : ((i - 1) / 2 - 1) / 2 ≠ (i - 1) / 2 := by omega
    rw [hM, Function.update_same, Function.update_noteq a1] at h2
    exact absurd (hlast1 (by omega) hp) (not_le.mpr h2)
  have hdel := delete_eq_down (swapStep s i ((i - 1) / 2)) key ((i - 1) / 2) hU1
    (by omega) hnoup
  refine ⟨by rw [swapStep_size]; exact hsz, hp0, by omega, by rw [hS1, if_pos rfl]; exact inv.entry,
    hup1, hch1, hcons1, hlast1, fun hpn => absurd hpn (by omega), ?_⟩
  rw [hdel]
  by_cases hin2 : i = h.Size
  · have hle : LiveEq h (moveLast (swapStep s i ((i - 1) / 2)) key) := by
      refine ⟨hMsz, fun j hj0 hjn => ?_⟩
      rw [hM]
      by_cases hj : j = (i - 1) / 2
      · rw [hj, Function.update_same, hS1]
        have a3 : h.Size ≠ (i - 1) / 2 := by omega
        rw [if_neg a3, if_pos hin2.symm]
        exact inv.base hin2 _ hp0 (by omega)
      · rw [Function.update_noteq hj, hS1, if_neg hj]
        have a4 : j ≠ i := by omega
        rw [if_neg a4]
        exact inv.base hin2 j hj0 hjn
    have hheap1 := hle.heapOrderEq hheap
    rw [percolateDown_of_not_downMoves _ _ (not_downMoves_of_heapOrder _ _ hp0 hheap1)]
    exact ⟨_, rfl, hle⟩
  · obtain ⟨hd, hdS, hdeq⟩ := inv.undo
    have hUS : s.UMap key = some i := by
      have := inv.index i inv.lo hin
      rw [inv.entry] at this
      exact this
    have hszS : s.Size - 1 = h.Size := by omega
    have hMS : (moveLast s key).HeapArray =
        Function.update s.HeapArray i (s.HeapArray h.Size) := by
      rw [moveLast_heapArray_of _ _ _ hUS, hszS]
    have hMSsz : (moveLast s key).Size = h.Size := by
      rw [moveLast_size]; exact hszS
    have hnoupS : ¬ upMoves (moveLast s key) i := by
      rintro ⟨_, hless⟩
      have h2 := (less_iff _ _).mp hless
      unfold hkey at h2
      rw [hMS, Function.update_same, Function.update_noteq (Ne.symm hne)] at h2
      exact absurd (inv.last hin2 hi) (not_le.mpr h2)
    rw [delete_eq_down s key i hUS (by omega) hnoupS] at hdS
    cases hdown : (moveLast s key)._percolateDown i with
    | none =>
      rw [hdown] at hdS
      exact Option.noConfusion hdS
    | some r =>
      rw [hdown] at hdS
      simp only [Option.map_some', Option.some.injEq] at hdS
      have hc : 2 * ((i - 1) / 2) + 1 <
          (moveLast (swapStep s i ((i - 1) / 2)) key).Size := by
        rw [hMsz]; omega
      have hkM : ∀ j : Int, j ≠ h.Size →
          hkey (moveLast (swapStep s i ((i - 1) / 2)) key) j =
            if j = (i - 1) / 2 then hkey s h.Size
            else if j = i then hkey s ((i - 1) / 2) else hkey s j := by
        intro j hjn
        unfold hkey
        rw [hM]
        have a3 : h.Size ≠ (i - 1) / 2 := by omega
        by_cases hj : j = (i - 1) / 2
        · rw [hj, Function.update_same, hS1, if_neg a3, if_neg (Ne.symm hin2), if_pos rfl]
        · rw [Function.update_noteq hj, hS1, if_neg hj, if_neg hj]
          split_ifs <;> rfl
      have hPL : hkey s ((i - 1) / 2) < hkey s h.Size :=
        lt_of_le_of_ne (inv.last hin2 hi)
          (hkey_ne_of_consistent s inv.index _ _ hp0 (by omega) (by omega) (by omega)
            (by omega))
      have hPs : ∀ c : Int, 0 < c → c < h.Size → c ≠ i → (c - 1) / 2 = (i - 1) / 2 →
          hkey s ((i - 1) / 2) < hkey s c := by
        intro c hc0 hcn hci hcp
        have h1 := inv.up.1 c hc0 (by omega) hci (by omega)
        rw [hcp] at h1
        exact lt_of_le_of_ne h1
          (hkey_ne_of_consistent s inv.index _ _ hp0 (by omega) (by omega) (by omega)
            (by omega))
      have e_p : hkey (moveLast (swapStep s i ((i - 1) / 2)) key) ((i - 1) / 2) =
          hkey s h.Size := by
        rw [hkM _ (by omega), if_pos rfl]
      have e_i : hkey (moveLast (swapStep s i ((i - 1) / 2)) key) i =
          hkey s ((i - 1) / 2) := by
        rw [hkM _ (by omega), if_neg hne, if_pos rfl]
      have e_o : ∀ c : Int, c ≠ h.Size → c ≠ (i - 1) / 2 → c ≠ i →
          hkey (moveLast (swapStep s i ((i - 1) / 2)) key) c = hkey s c := by
        intro c h1 h2 h3
        rw [hkM _ h1, if_neg h2, if_neg h3]
      have hscan : (scanChildren (moveLast (swapStep s i ((i - 1) / 2)) key) ((i - 1) / 2)
            (2 * ((i - 1) / 2) + 1) ((i - 1) / 2)).2 = i ∧
          ¬ ((scanChildren (moveLast (swapStep s i ((i - 1) / 2)) key) ((i - 1) / 2)
              (2 * ((i - 1) / 2) + 1) ((i - 1) / 2)).1.Value =
              ((moveLast (swapStep s i ((i - 1) / 2)) key).HeapArray ((i - 1) / 2)).Value ∧
            (scanChildren (moveLast (swapStep s i ((i - 1) / 2)) key) ((i - 1) / 2)
              (2 * ((i - 1) / 2) + 1) ((i - 1) / 2)).1.Key =
              ((moveLast (swapStep s i ((i - 1) / 2)) key).HeapArray ((i - 1) / 2)).Key) := by
        have hic : i = 2 * ((i - 1) / 2) + 1 ∨ i = 2 * ((i - 1) / 2) + 1 + 1 := by omega
        rcases scanChildren_cases (moveLast (swapStep s i ((i - 1) / 2)) key) ((i - 1) / 2)
          (2 * ((i - 1) / 2) + 1) ((i - 1) / 2) hc with
          ⟨_, hl1, hr1⟩ | ⟨hpos, hst, hlt2, hl2, hr2⟩
        · exfalso
          rcases hic with hic | hic
          · rw [← hic, e_p, e_i] at hl1
            exact absurd hPL (not_lt.mpr hl1)
          · have h3 := hr1 (by rw [hMsz]; omega)
            rw [← hic, e_p, e_i] at h3
            exact absurd hPL (not_lt.mpr h3)
        · constructor
          · by_contra hne2
            rcases hic with hic | hic
            · rcases hpos with hp1 | ⟨hp1, hp2⟩
              · exact hne2 (hp1.trans hic.symm)
              · rw [hMsz] at hp2
                rw [hp1, ← hic, e_i, e_o (i + 1) (by omega) (by omega) (by omega)] at hl2
                exact absurd (hPs (i + 1) (by omega) (by omega) (by omega) (by omega))
                  (not_lt.mpr hl2)
            · rcases hpos with hp1 | ⟨hp1, hp2⟩
              · have h3 := hr2 (by rw [hMsz]; omega)
                rw [hp1, ← hic, e_i,
                  e_o (2 * ((i - 1) / 2) + 1) (by omega) (by omega) (by omega)] at h3
                exact absurd (hPs _ (by omega) (by omega) (by omega) (by omega))
                  (not_lt.mpr h3)
              · exact hne2 (hp1.trans hic.symm)
          · rintro ⟨e1, e2⟩
            have e3 := eq_of_fields e1 e2
            rw [hst] at e3
            unfold hkey at hlt2
            rw [e3] at hlt2
            exact lt_irrefl _ hlt2
      have hrun : (moveLast (swapStep s i ((i - 1) / 2)) key)._percolateDown ((i - 1) / 2) =
          percolateDownLoop (h.Size - (i - 1) / 2).toNat
            (swapStep (moveLast (swapStep s i ((i - 1) / 2)) key) ((i - 1) / 2) i) i i := by
        unfold _percolateDown
        rw [percolateDownLoop_succ, hMsz]
        rw [hMsz] at hc
        simp only [hc, hscan.2, hscan.1, if_true, if_false]
      have hdown2 : percolateDownLoop (h.Size - (i - 1) / 2).toNat (moveLast s key) i i =
          some r := by
        apply percolateDownLoop_fuel_le _ _ _ _ _ _ _ hdown
        rw [hMSsz]
        omega
      have hleq : LiveEq (moveLast s key)
          (swapStep (moveLast (swapStep s i ((i - 1) / 2)) key) ((i - 1) / 2) i) := by
        refine ⟨by rw [swapStep_size, hMsz, hMSsz], fun j hj0 hjn => ?_⟩
        rw [hMSsz] at hjn
        rw [swapStep_heapArray, swapFn_apply, hM, hMS]
        have a3 : h.Size ≠ (i - 1) / 2 := by omega
        by_cases hji : j = i
        · rw [if_pos hji, Function.update_same, hS1, if_neg a3, if_neg (Ne.symm hin2), hji,
            Function.update_same]
        · rw [if_neg hji]
          by_cases hjp : j = (i - 1) / 2
          · rw [if_pos hjp, Function.update_noteq hne, hS1, if_neg hne, if_pos rfl, hjp,
              Function.update_noteq (Ne.symm hne)]
          · rw [if_neg hjp, Function.update_noteq hjp, hS1, if_neg hjp, if_neg hji,
              Function.update_noteq hji]
      obtain ⟨r1, hr1, hr1eq, _⟩ :=
        percolateDownLoop_liveEq _ _ _ _ _ r hleq (by omega) hdown2
      rw [hrun, hr1]
      refine ⟨r1.1, rfl, hdeq.chain ?_⟩
      rw [← hdS]
      exact hr1eq

end minqueue


/-! ## A second `pushinorder` with the same key and value -/

namespace minqueue

open HeapIndex

variable {K V : Type} [LinearOrder K] [LinearOrder V]

/-- The loop of `_percolateUp` keeps the invariant of the insert branch. -/
theorem percolateUpLoop_undo : ∀ (fuel : Nat) (h s : minqueue K V) (key : K) (i : Int)
    (r : minqueue K V × Int), HeapOrder h → UndoInv h key s i →
    percolateUpLoop fuel s i = some r → UndoInv h key r.1 r.2 := by
  intro fuel
  induction fuel with
  | zero => intro h s key i r _ _ hr; exact Option.noConfusion hr
  | succ fuel ih =>
    intro h s key i r hheap inv hr
    rw [percolateUpLoop_succ] at hr
    split_ifs at hr with hi hl
    · have h2 := ih h _ key _ r hheap (undoInv_swap h s key i hheap inv hi hl) hr
      exact h2
    · cases hr; exact inv
    · cases hr; exact inv

/-- After the insert branch has put a new key into a well-formed state `h`,
a second `pushinorder` with the same key and value returns, and the live
buffer it leaves is the one it started from. -/
theorem insert_then_update (h : minqueue K V) (key : K) (value : V) (h0 : 0 ≤ h.Size)
    (hheap : HeapOrder h) (hc : IndexConsistent h) (hex : IndexExact h)
    (hU : h.UMap key = none) (hroom : h.Size ≠ h.Capacity)
    (r : minqueue K V × Int)
    (hup : (appendEntry h key value)._percolateUp h.Size = some r) :
    ∃ q2, r.1.pushinorder key value = Outcome.returned q2 () ∧ LiveEq r.1 q2 := by
  have inv := percolateUpLoop_undo _ h _ key _ r hheap
    (undoInv_appendEntry h key value h0 hheap hc hex hU) hup
  obtain ⟨hd, hdel, hdeq⟩ := inv.undo
  have hUr : r.1.UMap key ≠ none := by
    have h1 := inv.index r.2 inv.lo (by rw [inv.size]; have := inv.hi; omega)
    rw [inv.entry] at h1
    rw [h1]
    exact fun h2 => Option.noConfusion h2
  have hcap : hd.Capacity = h.Capacity := by
    rw [(delete_size _ _ _ hdel).2, (percolateUpLoop_size _ _ _ _ hup).2]
    rfl
  have hroom2 : ¬ hd.Size = hd.Capacity := by
    rw [hdeq.1, hcap]
    exact hroom
  have hleq : LiveEq (appendEntry h key value)
      (appendEntry { hd with UMap := Function.update hd.UMap key none } key value) := by
    refine ⟨?_, fun j _ _ => ?_⟩
    · show hd.Size + 1 = h.Size + 1
      rw [hdeq.1]
    · rw [appendEntry_heapArray, appendEntry_heapArray]
      show Function.update hd.HeapArray hd.Size _ j = _
      rw [hdeq.1]
      by_cases hj : j = h.Size
      · rw [hj, Function.update_same, Function.update_same]
      · rw [Function.update_noteq hj, Function.update_noteq hj]
        exact hdeq.2 j (by assumption) (by
          have : j < (appendEntry h key value).Size := by assumption
          rw [appendEntry_size] at this
          omega)
  obtain ⟨r1, hr1, hr1eq, _⟩ := percolateUpLoop_liveEq _ _ _ _ r hleq
    (by rw [appendEntry_size]; omega) hup
  have hr2 : (appendEntry { hd with UMap := Function.update hd.UMap key none } key
      value)._percolateUp hd.Size = some r1 := by
    have h3 : ∀ n : Int, n = h.Size →
        percolateUpLoop (n.toNat + 1)
          (appendEntry { hd with UMap := Function.update hd.UMap key none } key value) n =
          some r1 := by
      intro n hn
      rw [hn]
      exact hr1
    exact h3 hd.Size hdeq.1
  refine ⟨r1.1, ?_, hr1eq⟩
  unfold pushinorder
  rw [pushinorderDepth_succ]
  simp only [hUr, if_false, hdel]
  rw [pushinorderDepth_succ]
  have hUd : Function.update hd.UMap key none key = none := Function.update_same _ _ _
  simp only [hUd, if_true, hroom2, if_false, hr2]

/-- On a well-formed state, `_delete(key)` followed by `UMap.erase(key)` gives
a state with room for one entry in which the insert branch runs as on a
well-formed state. -/
theorem delete_erase_ready (q qd : minqueue K V) (key : K) (idx : Int) (hwf : WellFormed q)
    (hU : q.UMap key = some idx) (hdel : q._delete key = some qd) :
    0 ≤ qd.Size ∧ qd.Size ≠ qd.Capacity ∧ HeapOrder qd ∧
      IndexConsistent { qd with UMap := Function.update qd.UMap key none } ∧
      IndexExact { qd with UMap := Function.update qd.UMap key none } := by
  obtain ⟨hi0, hin, hik⟩ := hwf.exact key idx hU
  obtain ⟨qd1, hdel1, hds, hdc, hdp, hdh⟩ := delete_spec q key idx hU hi0 hin
  rw [hdel] at hdel1
  cases hdel1
  obtain ⟨hc, hex⟩ := delete_sync q qd key idx hU hwf.index hwf.exact hdel
  have hnd : ((liveEntries qd ++ [q.HeapArray idx]).map KeyValuePair.Key).Nodup :=
    (hdp.map _).nodup_iff.mpr (distinctKeys_of_indexConsistent q hwf.index)
  rw [List.map_append, List.nodup_append] at hnd
  have hdisj := hnd.2.2
  have hnot : ∀ i : Int, 0 ≤ i → i < qd.Size → (qd.HeapArray i).Key ≠ key := by
    intro i h0 hn hk
    have hmem : qd.HeapArray i ∈ liveEntries qd := mem_liveEntries.mpr ⟨i, h0, hn, rfl⟩
    exact hdisj (List.mem_map_of_mem _ hmem) (by simp [hk, hik])
  refine ⟨by rw [hds]; omega, by rw [hds, hdc]; have := hwf.size_le; omega, hdh hwf.heap,
    ?_, ?_⟩
  · intro i h0 hn
    show Function.update qd.UMap key none (qd.HeapArray i).Key = some i
    rw [Function.update_noteq (hnot i h0 hn)]
    exact hc i h0 hn
  · intro k p hp
    have hp2 : Function.update qd.UMap key none k = some p := hp
    by_cases hk : k = key
    · rw [hk, Function.update_same] at hp2
      exact Option.noConfusion hp2
    · rw [Function.update_noteq hk] at hp2
      exact hex k hk p hp2

/-- C12: on a well-formed state, when `pushinorder(key, value)` returns, a second
`pushinorder(key, value)` right after it returns as well and leaves the state of
the first call: the same `Size` and `Capacity`, the same entry at every position
`0 .. Size - 1` of the buffer, and the same position index. -/
theorem pushinorder_idempotent (q q1 : minqueue K V) (key : K) (value : V)
    (hwf : WellFormed q) (hrun : q.pushinorder key value = Outcome.returned q1 ()) :
    ∃ q2, q1.pushinorder key value = Outcome.returned q2 () ∧
      q2.Size = q1.Size ∧ q2.Capacity = q1.Capacity ∧
      (∀ i : Int, 0 ≤ i → i < q1.Size → q2.HeapArray i = q1.HeapArray i) ∧
      q2.UMap = q1.UMap := by
  have hroom : q.UMap key = none → q.Size ≠ q.Capacity := by
    intro hU hs
    unfold pushinorder at hrun
    rw [pushinorderDepth_succ] at hrun
    simp only [hU, hs, if_true] at hrun
    exact Outcome.noConfusion hrun
  obtain ⟨q1a, hrun1, hwf1⟩ := pushinorder_wellFormed q key value hwf hroom
  rw [hrun] at hrun1
  cases hrun1
  have hstep : ∃ q2, q1.pushinorder key value = Outcome.returned q2 () ∧ LiveEq q1 q2 := by
    unfold pushinorder at hrun
    rw [pushinorderDepth_succ] at hrun
    by_cases hU : q.UMap key = none
    · simp only [hU, if_true, hroom hU, if_false] at hrun
      cases hup : (appendEntry q key value)._percolateUp q.Size with
      | none =>
        rw [hup] at hrun
        exact Outcome.noConfusion hrun
      | some r =>
        rw [hup] at hrun
        simp only [Outcome.returned.injEq, and_true] at hrun
        rw [← hrun]
        exact insert_then_update q key value hwf.size_nonneg hwf.heap hwf.index hwf.exact hU
          (hroom hU) r hup
    · obtain ⟨idx, hidx⟩ := Option.ne_none_iff_exists'.mp hU
      simp only [hU, if_false] at hrun
      cases hdel : q._delete key with
      | none =>
        rw [hdel] at hrun
        exact Outcome.noConfusion hrun
      | some qd =>
        rw [hdel] at hrun
        simp only at hrun
        obtain ⟨hd0, hdroom, hdheap, hdc, hdex⟩ := delete_erase_ready q qd key idx hwf hidx hdel
        rw [pushinorderDepth_succ] at hrun
        have hUd : Function.update qd.UMap key none key = none := Function.update_same _ _ _
        simp only [hUd, if_true, hdroom, if_false] at hrun
        cases hup : (appendEntry { qd with UMap := Function.update qd.UMap key none } key
            value)._percolateUp qd.Size with
        | none =>
          rw [hup] at hrun
          exact Outcome.noConfusion hrun
        | some r =>
          rw [hup] at hrun
          simp only [Outcome.returned.injEq, and_true] at hrun
          rw [← hrun]
          exact insert_then_update { qd with UMap := Function.update qd.UMap key none } key
            value hd0 hdheap hdc hdex hUd hdroom r hup
  obtain ⟨q2, hrun2, hleq⟩ := hstep
  have hroom1 : q1.UMap key = none → q1.Size ≠ q1.Capacity := by
    intro hU1 hs
    unfold pushinorder at hrun2
    rw [pushinorderDepth_succ] at hrun2
    simp only [hU1, hs, if_true] at hrun2
    exact Outcome.noConfusion hrun2
  obtain ⟨q2a, hrun2a, hwf2⟩ := pushinorder_wellFormed q1 key value hwf1 hroom1
  rw [hrun2] at hrun2a
  cases hrun2a
  obtain ⟨q2b, hrun2b, _, hcap2, _⟩ := pushinorder_spec q1 key value hwf1 hroom1
  rw [hrun2] at hrun2b
  cases hrun2b
  exact ⟨q2, hrun2, hleq.1, hcap2, hleq.2, umap_eq_of_liveEq q1 q2 hleq hwf1.index hwf1.exact
    hwf2.index hwf2.exact⟩

theorem pushinorder_idempotent_witness :
    WellFormed fullQueue ∧
    fullQueue.pushinorder 3 1 = Outcome.returned fullQueueUpdated () ∧
    fullQueueUpdated.HeapArray 0 = { Key := 3, Value := 1 } ∧
    ∃ q2, fullQueueUpdated.pushinorder 3 1 = Outcome.returned q2 () ∧
      q2.Size = fullQueueUpdated.Size ∧ q2.Capacity = fullQueueUpdated.Capacity ∧
      (∀ i : Int, 0 ≤ i → i < fullQueueUpdated.Size →
        q2.HeapArray i = fullQueueUpdated.HeapArray i) ∧
      q2.UMap = fullQueueUpdated.UMap :=
  ⟨fullQueue_wellFormed, rfl, rfl,
    pushinorder_idempotent fullQueue fullQueueUpdated 3 1 fullQueue_wellFormed rfl⟩

end minqueue


/-! ## The positions that the operations store in the position index -/

namespace minqueue

open HeapIndex

variable {K V : Type} [LinearOrder K] [LinearOrder V]

theorem swapStep_positions (P : Int → Prop) (q : minqueue K V) (a b : Int) (ha : P a)
    (hb : P b) (h : ∀ (k : K) (p : Int), q.UMap k = some p → P p) :
    ∀ (k : K) (p : Int), (swapStep q a b).UMap k = some p → P p := by
  intro k p hp
  have hp2 : Function.update (Function.update q.UMap ((swapFn q.HeapArray a b) a).Key (some a))
      ((swapFn q.HeapArray a b) b).Key (some b) k = some p := hp
  by_cases h1 : k = ((swapFn q.HeapArray a b) b).Key
  · rw [h1, Function.update_same] at hp2
    cases hp2
    exact hb
  · rw [Function.update_noteq h1] at hp2
    by_cases h2 : k = ((swapFn q.HeapArray a b) a).Key
    · rw [h2, Function.update_same] at hp2
      cases hp2
      exact ha
    · rw [Function.update_noteq h2] at hp2
      exact h k p hp2

/-- The loop of `_percolateUp` started at `index` stores positions from
`0 .. index` only. -/
theorem percolateUpLoop_positions (P : Int → Prop) : ∀ (fuel : Nat) (q : minqueue K V)
    (i : Int) (r : minqueue K V × Int), percolateUpLoop fuel q i = some r →
    (∀ j : Int, 0 ≤ j → j ≤ i → P j) →
    (∀ (k : K) (p : Int), q.UMap k = some p → P p) →
    ∀ (k : K) (p : Int), r.1.UMap k = some p → P p := by
  intro fuel
  induction fuel with
  | zero => intro q i r h; exact Option.noConfusion h
  | succ fuel ih =>
    intro q i r h hP hq
    rw [percolateUpLoop_succ] at h
    split_ifs at h with h1 h2
    · have h3 := ih _ _ r h (fun j hj0 hji => hP j hj0 (by omega))
        (swapStep_positions P q i ((i - 1) / 2) (hP i (by omega) (le_refl _))
          (hP _ (by omega) (by omega)) hq)
      exact h3
    · cases h; exact hq
    · cases h; exact hq

/-- The final `index` of the loop of `_percolateUp` is not below a bound `b ≤ 0`
that the start index respects. -/
theorem percolateUpLoop_index_lower : ∀ (fuel : Nat) (q : minqueue K V) (i : Int)
    (r : minqueue K V × Int), percolateUpLoop fuel q i = some r →
    ∀ b : Int, b ≤ 0 → b ≤ i → b ≤ r.2 := by
  intro fuel
  induction fuel with
  | zero => intro q i r h; exact Option.noConfusion h
  | succ fuel ih =>
    intro q i r h b hb hbi
    rw [percolateUpLoop_succ] at h
    split_ifs at h with h1 h2
    · have h3 := ih _ _ r h b hb (by omega)
      exact h3
    · cases h; exact hbi
    · cases h; exact hbi

/-- The loop of `_percolateDown` started at `index ≥ -1` stores its start index
and positions from `-1 .. Size - 1` only. -/
theorem percolateDownLoop_positions (P : Int → Prop) : ∀ (fuel : Nat) (q : minqueue K V)
    (i m : Int) (r : minqueue K V × Int), percolateDownLoop fuel q i m = some r →
    -1 ≤ i → P i → (∀ j : Int, -1 ≤ j → j < q.Size → P j) →
    (∀ (k : K) (p : Int), q.UMap k = some p → P p) →
    ∀ (k : K) (p : Int), r.1.UMap k = some p → P p := by
  intro fuel
  induction fuel with
  | zero => intro q i m r h; exact Option.noConfusion h
  | succ fuel ih =>
    intro q i m r h hi hPi hP hq
    rw [percolateDownLoop_succ] at h
    by_cases hc : 2 * i + 1 < q.Size
    · simp only [hc, if_true] at h
      rcases scanChildren_cases q i (2 * i + 1) m hc with ⟨hst, _, _⟩ | ⟨hpos, _, _, _, _⟩
      · have hcond : (scanChildren q i (2 * i + 1) m).1.Value = (q.HeapArray i).Value ∧
            (scanChildren q i (2 * i + 1) m).1.Key = (q.HeapArray i).Key := by
          rw [hst]; exact ⟨rfl, rfl⟩
        simp only [hcond, and_self, if_true, Option.some.injEq] at h
        subst h
        exact hq
      · have hlo : -1 ≤ (scanChildren q i (2 * i + 1) m).2 := by
          rcases hpos with h1 | ⟨h1, _⟩ <;> omega
        have hhi : (scanChildren q i (2 * i + 1) m).2 < q.Size := by
          rcases hpos with h1 | ⟨h1, h2⟩ <;> omega
        split_ifs at h with hcond
        · cases h
          exact hq
        · have h3 := ih _ _ _ r h hlo (hP _ hlo hhi) hP
            (swapStep_positions P q i _ hPi (hP _ hlo hhi) hq)
          exact h3
    · simp only [hc, if_false, Option.some.injEq] at h
      subst h
      exact hq

/-- The loop of `_percolateDown` ends from every start index `≥ -1`: from `-1`
the children are the slots `-1` and `0`, so that a pass that swaps moves to the
index `0`. -/
theorem percolateDown_terminates_from (q : minqueue K V) (i : Int) (hi : -1 ≤ i) :
    ∃ r, q._percolateDown i = some r := by
  by_cases h0 : 0 ≤ i
  · exact percolateDown_terminates q i h0
  · have hi1 : i = -1 := by omega
    subst hi1
    unfold _percolateDown
    rw [percolateDownLoop_succ]
    by_cases hc : 2 * (-1 : Int) + 1 < q.Size
    · simp only [hc, if_true]
      rcases scanChildren_cases q (-1) (2 * (-1) + 1) (-1) hc with
        ⟨hst, _, _⟩ | ⟨hpos, hst, hlt, _, _⟩
      · have hcond : (scanChildren q (-1) (2 * (-1) + 1) (-1)).1.Value =
              (q.HeapArray (-1)).Value ∧
            (scanChildren q (-1) (2 * (-1) + 1) (-1)).1.Key = (q.HeapArray (-1)).Key := by
          rw [hst]; exact ⟨rfl, rfl⟩
        simp only [hcond, and_self, if_true]
        exact ⟨_, rfl⟩
      · have hz : (scanChildren q (-1) (2 * (-1) + 1) (-1)).2 = 0 := by
          rcases hpos with h1 | ⟨h1, _⟩
          · exfalso
            have e : (2 * (-1) + 1 : Int) = -1 := by norm_num
            rw [h1.trans e] at hlt
            exact lt_irrefl _ hlt
          · rw [h1]; norm_num
        split_ifs with hcond
        · exact ⟨_, rfl⟩
        · obtain ⟨q1, j, hrun, _⟩ := percolateDownLoop_spec (q.Size - -1).toNat
            (swapStep q (-1) (scanChildren q (-1) (2 * (-1) + 1) (-1)).2)
            (scanChildren q (-1) (2 * (-1) + 1) (-1)).2
            (scanChildren q (-1) (2 * (-1) + 1) (-1)).2
            (by rw [hz]) (by omega) (by rw [hz, swapStep_size]; omega)
          exact ⟨(q1, j), hrun⟩
    · simp only [hc, if_false]
      exact ⟨_, rfl⟩

/-- The function `_delete` returns when the position index maps `key`, if at all,
to a position `≥ -1`. -/
theorem delete_terminates_from (q : minqueue K V) (key : K)
    (hidx : ∀ p ∈ q.UMap key, -1 ≤ p) : ∃ qd, q._delete key = some qd := by
  rw [delete_eq]
  by_cases hlast : (q.UMap key).getD 0 = q.Size - 1
  · simp only [hlast, if_true]
    exact ⟨_, rfl⟩
  · simp only [hlast, if_false]
    have h0 : -1 ≤ (q.UMap key).getD 0 := by
      cases hU : q.UMap key with
      | none => show (-1 : Int) ≤ 0; omega
      | some p => exact hidx p hU
    obtain ⟨r, hr, _⟩ := percolateUp_terminates (moveLast q key) ((q.UMap key).getD 0)
    rw [hr]
    have hlo := percolateUpLoop_index_lower _ _ _ r hr (-1) (by omega) h0
    obtain ⟨r2, hr2⟩ := percolateDown_terminates_from r.1 r.2 hlo
    simp only [hr2]
    exact ⟨_, rfl⟩

/-- The function `_delete` on a key of the position index keeps the positions of
the index in their range. -/
theorem delete_inRange (q qd : minqueue K V) (key : K) (idx : Int)
    (hU : q.UMap key = some idx) (hdel : q._delete key = some qd)
    (hcap : q.Size ≤ q.Capacity) (hin : IndexInRange q) : IndexInRange qd := by
  have hidx : -1 ≤ idx ∧ idx < q.Capacity := hin key idx hU
  have hq : ∀ (k : K) (p : Int), q.UMap k = some p → -1 ≤ p ∧ p < q.Capacity :=
    fun k p hp => hin k p hp
  have hc2 := (delete_size q qd key hdel).2
  suffices h : ∀ (k : K) (p : Int), qd.UMap k = some p → -1 ≤ p ∧ p < q.Capacity by
    intro k p hp
    rw [hc2]
    exact h k p hp
  rw [delete_eq, hU] at hdel
  simp only [Option.getD_some] at hdel
  by_cases hlast : idx = q.Size - 1
  · simp only [hlast, if_true, Option.some.injEq] at hdel
    subst hdel
    intro k p hp
    have hp2 : Function.update q.UMap key (some (q.Size - 1)) k = some p := hp
    by_cases hk : k = key
    · rw [hk, Function.update_same] at hp2
      cases hp2
      rw [← hlast]
      exact hidx
    · rw [Function.update_noteq hk] at hp2
      exact hq k p hp2
  · simp only [hlast, if_false] at hdel
    have hM : ∀ (k : K) (p : Int), (moveLast q key).UMap k = some p →
        -1 ≤ p ∧ p < q.Capacity := by
      intro k p hp
      rw [moveLast_umap q key idx hU] at hp
      by_cases h1 : k = (q.HeapArray (q.Size - 1)).Key
      · rw [h1, Function.update_same] at hp
        cases hp
        exact hidx
      · rw [Function.update_noteq h1] at hp
        by_cases hk : k = key
        · rw [hk, Function.update_same] at hp
          cases hp
          exact hidx
        · rw [Function.update_noteq hk] at hp
          exact hq k p hp
    cases hup : (moveLast q key)._percolateUp idx with
    | none =>
      rw [hup] at hdel
      exact Option.noConfusion hdel
    | some r =>
      rw [hup] at hdel
      simp only at hdel
      have hr1 := percolateUpLoop_positions (fun p => -1 ≤ p ∧ p < q.Capacity) _ _ _ r hup
        (fun j hj0 hji => ⟨by omega, by omega⟩) hM
      have hlo := percolateUpLoop_index_lower _ _ _ r hup (-1) (by omega) hidx.1
      have hhi := percolateUpLoop_index_le _ _ _ r hup
      have hsz := (percolateUpLoop_size _ _ _ r hup).1
      rw [moveLast_size] at hsz
      cases hdown : r.1._percolateDown r.2 with
      | none =>
        rw [hdown] at hdel
        exact Option.noConfusion hdel
      | some r2 =>
        rw [hdown] at hdel
        simp only [Option.some.injEq] at hdel
        have hr2 := percolateDownLoop_positions (fun p => -1 ≤ p ∧ p < q.Capacity) _ _ _ _ r2
          hdown hlo ⟨hlo, by omega⟩ (fun j hj0 hjn => ⟨hj0, by omega⟩) hr1
        rw [hdel] at hr2
        exact hr2

/-- The insert branch of `pushinorder`, entered with `-1 ≤ Size ≤ Capacity`,
keeps the positions of the index in their range. -/
theorem insert_inRange (depth : Nat) (q q1 : minqueue K V) (key : K) (value : V)
    (h : (pushinorderDepth (depth + 1) q key value).state = some q1)
    (hU : q.UMap key = none) (hs : -1 ≤ q.Size) (hcap : q.Size ≤ q.Capacity)
    (hin : IndexInRange q) : IndexInRange q1 := by
  rw [pushinorderDepth_succ] at h
  simp only [hU, if_true] at h
  by_cases hfull : q.Size = q.Capacity
  · simp only [hfull, if_true, Outcome.state, Option.some.injEq] at h
    subst h
    exact hin
  · simp only [hfull, if_false] at h
    cases hup : (appendEntry q key value)._percolateUp q.Size with
    | none =>
      rw [hup] at h
      exact Option.noConfusion h
    | some r =>
      rw [hup] at h
      simp only [Outcome.state, Option.some.injEq] at h
      have hA : ∀ (k : K) (p : Int), (appendEntry q key value).UMap k = some p →
          -1 ≤ p ∧ p < q.Capacity := by
        intro k p hp
        rw [appendEntry_umap] at hp
        by_cases hk : k = key
        · rw [hk, Function.update_same] at hp
          cases hp
          exact ⟨hs, by omega⟩
        · rw [Function.update_noteq hk] at hp
          exact hin k p hp
      have hr1 := percolateUpLoop_positions (fun p => -1 ≤ p ∧ p < q.Capacity) _ _ _ r hup
        (fun j hj0 hji => ⟨by omega, by omega⟩) hA
      have hc2 := (percolateUpLoop_size _ _ _ r hup).2
      rw [appendEntry_capacity] at hc2
      rw [h] at hr1 hc2
      intro k p hp
      rw [hc2]
      exact hr1 k p hp

theorem pushinorder_inRange (q q1 : minqueue K V) (key : K) (value : V)
    (h : (q.pushinorder key value).state = some q1) (h0 : 0 ≤ q.Size)
    (hcap : q.Size ≤ q.Capacity) (hin : IndexInRange q) : IndexInRange q1 := by
  unfold pushinorder at h
  by_cases hU : q.UMap key = none
  · exact insert_inRange 1 q q1 key value h hU (by omega) hcap hin
  · obtain ⟨idx, hidx⟩ := Option.ne_none_iff_exists'.mp hU
    rw [pushinorderDepth_succ] at h
    simp only [hU, if_false] at h
    cases hdel : q._delete key with
    | none =>
      rw [hdel] at h
      exact Option.noConfusion h
    | some qd =>
      rw [hdel] at h
      simp only at h
      have e := delete_size q qd key hdel
      have hd := delete_inRange q qd key idx hidx hdel hcap hin
      apply insert_inRange 0 { qd with UMap := Function.update qd.UMap key none } q1 key value h
        (Function.update_same _ _ _)
      · show -1 ≤ qd.Size
        rw [e.1]; omega
      · show qd.Size ≤ qd.Capacity
        rw [e.1, e.2]; omega
      · intro k p hp
        have hp2 : Function.update qd.UMap key none k = some p := hp
        by_cases hk : k = key
        · rw [hk, Function.update_same] at hp2
          exact Option.noConfusion hp2
        · rw [Function.update_noteq hk] at hp2
          exact hd k p hp2

theorem minpop_inRange (q q1 : minqueue K V) (h : q.minpop.state = some q1)
    (h0 : 0 ≤ q.Size) (hcap : q.Size ≤ q.Capacity) (hin : IndexInRange q) :
    IndexInRange q1 := by
  rw [minpop_eq] at h
  cases he : q.empty with
  | true =>
    rw [he] at h
    simp only [if_true, Outcome.state, Option.some.injEq] at h
    subst h
    exact hin
  | false =>
    rw [he] at h
    simp only [Bool.false_eq_true, if_false] at h
    have hne : q.Size ≠ 0 := by
      intro hz
      rw [(empty_iff q).mpr hz] at he
      exact Bool.noConfusion he
    cases hd : (popFront q)._percolateDown 0 with
    | none =>
      rw [hd] at h
      exact Option.noConfusion h
    | some r =>
      rw [hd] at h
      simp only [Outcome.state, Option.some.injEq] at h
      have hF : ∀ (k : K) (p : Int), (popFront q).UMap k = some p →
          -1 ≤ p ∧ p < q.Capacity := by
        intro k p hp
        rw [popFront_umap] at hp
        by_cases hk : k = (q.HeapArray 0).Key
        · rw [hk, Function.update_same] at hp
          exact Option.noConfusion hp
        · rw [Function.update_noteq hk] at hp
          exact hin k p hp
      have hr := percolateDownLoop_positions (fun p => -1 ≤ p ∧ p < q.Capacity) _ _ _ _ r hd
        (by omega) ⟨by omega, by omega⟩
        (fun j hj0 hjn => ⟨hj0, by rw [popFront_size] at hjn; omega⟩) hF
      have hc2 := (percolateDownLoop_size _ _ _ _ r hd).2
      rw [popFront_capacity] at hc2
      rw [h] at hr hc2
      intro k p hp
      rw [hc2]
      exact hr k p hp

/-- The fill constructor stores the positions `i, i + 1, ..` of the keys. -/
theorem fillLoop_positions (v : V) : ∀ (keys : List K) (i : Int) (q : minqueue K V)
    (k : K) (p : Int), (fillLoop v keys i q).UMap k = some p →
    q.UMap k = some p ∨ (i ≤ p ∧ p < i + keys.length) := by
  intro keys
  induction keys with
  | nil => intro i q k p h; exact Or.inl h
  | cons key rest ih =>
    intro i q k p hp
    have h := ih (i + 1)
      { q with
        HeapArray := Function.update (Function.update q.HeapArray i
          { Key := key, Value := (q.HeapArray i).Value }) i
          { Key := (Function.update q.HeapArray i
              { Key := key, Value := (q.HeapArray i).Value } i).Key, Value := v }
        UMap := Function.update q.UMap key (some i) } k p hp
    have hlen : ((key :: rest).length : Int) = (rest.length : Int) + 1 := by
      simp only [List.length_cons, Nat.cast_add, Nat.cast_one]
    rcases h with h | h
    · have h2 : Function.update q.UMap key (some i) k = some p := h
      by_cases hk : k = key
      · rw [hk, Function.update_same] at h2
        cases h2
        right
        rw [hlen]
        omega
      · rw [Function.update_noteq hk] at h2
        exact Or.inl h2
    · right
      rw [hlen]
      omega

end minqueue


/-! ## Termination of the public operations -/

namespace minqueue

open HeapIndex

variable {K V : Type} [LinearOrder K] [LinearOrder V]

theorem state_of_ne_diverged {α : Type} (o : Outcome K V α) (h : o ≠ Outcome.diverged) :
    ∃ q1, o.state = some q1 := by
  cases o with
  | returned q a => exact ⟨q, rfl⟩
  | thrown q e => exact ⟨q, rfl⟩
  | diverged => exact absurd rfl h

theorem minpop_ne_diverged (q : minqueue K V) : q.minpop ≠ Outcome.diverged := by
  rw [minpop_eq]
  split_ifs
  · exact fun h => Outcome.noConfusion h
  · obtain ⟨r, hr⟩ := percolateDown_terminates (popFront q) 0 (le_refl _)
    rw [hr]
    exact fun h => Outcome.noConfusion h

/-- On a key of the position index, `pushinorder` runs `_delete`, erases the key
and makes one nested call; the nested call takes the insert branch, where it
neither throws nor calls `pushinorder` again. -/
theorem pushinorder_update_returns (q : minqueue K V) (key : K) (value : V)
    (hcap : q.Size ≤ q.Capacity) (hidx : ∀ p ∈ q.UMap key, -1 ≤ p)
    (hU : q.UMap key ≠ none) :
    ∃ qd q1, q._delete key = some qd ∧
      Function.update qd.UMap key none key = none ∧
      pushinorderDepth 1 { qd with UMap := Function.update qd.UMap key none } key value =
        Outcome.returned q1 () ∧
      q.pushinorder key value = Outcome.returned q1 () := by
  obtain ⟨qd, hqd⟩ := delete_terminates_from q key hidx
  have e := delete_size q qd key hqd
  have hroom : ¬ qd.Size = qd.Capacity := by
    rw [e.1, e.2]; omega
  have hUd : Function.update qd.UMap key none key = none := Function.update_same _ _ _
  obtain ⟨r, hr, _⟩ := percolateUp_terminates
    (appendEntry { qd with UMap := Function.update qd.UMap key none } key value) qd.Size
  have hnest : pushinorderDepth 1 { qd with UMap := Function.update qd.UMap key none } key
      value = Outcome.returned r.1 () := by
    rw [pushinorderDepth_succ]
    simp only [hUd, if_true, hroom, if_false, hr]
  refine ⟨qd, r.1, hqd, hUd, hnest, ?_⟩
  unfold pushinorder
  rw [pushinorderDepth_succ]
  simp only [hU, if_false, hqd]
  exact hnest

theorem pushinorder_ne_diverged (q : minqueue K V) (key : K) (value : V)
    (hcap : q.Size ≤ q.Capacity) (hidx : ∀ p ∈ q.UMap key, -1 ≤ p) :
    q.pushinorder key value ≠ Outcome.diverged := by
  by_cases hU : q.UMap key = none
  · exact pushinorderDepth_insert_ne_diverged 1 q key value hU
  · obtain ⟨_, q1, _, _, _, hrun⟩ := pushinorder_update_returns q key value hcap hidx hU
    rw [hrun]
    exact fun h => Outcome.noConfusion h

/-- A call of `pushinorder` or `minpop` on a state with `0 ≤ Size ≤ Capacity`
and positions in range ends, and it ends in such a state. -/
theorem call_reached (q : minqueue K V) (c : Call K V) (h0 : 0 ≤ q.Size)
    (hcap : q.Size ≤ q.Capacity) (hin : IndexInRange q) :
    ∃ q1, q.call c = some q1 ∧ 0 ≤ q1.Size ∧ q1.Size ≤ q1.Capacity ∧ IndexInRange q1 := by
  cases c with
  | pushinorder key value =>
    obtain ⟨q1, hq1⟩ := state_of_ne_diverged _
      (pushinorder_ne_diverged q key value hcap (fun p hp => (hin key p hp).1))
    exact ⟨q1, hq1, pushinorder_state_size q q1 key value hq1 h0 hcap,
      (pushinorderDepth_state_capacity 2 q q1 key value hq1).2 hcap,
      pushinorder_inRange q q1 key value hq1 h0 hcap hin⟩
  | minpop =>
    obtain ⟨q1, hq1⟩ := state_of_ne_diverged _ (minpop_ne_diverged q)
    exact ⟨q1, hq1, minpop_state_size q q1 hq1 h0, (minpop_state_capacity q q1 hq1).2 hcap,
      minpop_inRange q q1 hq1 h0 hcap hin⟩

theorem calls_reached : ∀ (cs : List (Call K V)) (q : minqueue K V), 0 ≤ q.Size →
    q.Size ≤ q.Capacity → IndexInRange q →
    ∃ q1, q.calls cs = some q1 ∧ 0 ≤ q1.Size ∧ q1.Size ≤ q1.Capacity ∧ IndexInRange q1 := by
  intro cs
  induction cs with
  | nil => intro q h0 hcap hin; exact ⟨q, rfl, h0, hcap, hin⟩
  | cons c cs ih =>
    intro q h0 hcap hin
    obtain ⟨q2, hq2, h2, hcap2, hin2⟩ := call_reached q c h0 hcap hin
    obtain ⟨q1, hq1, hrest⟩ := ih q2 h2 hcap2 hin2
    refine ⟨q1, ?_, hrest⟩
    rw [calls, hq2]
    exact hq1

theorem ofKeys_inRange (keys : List K) (initialValue : V) (mem : Int → KeyValuePair K V) :
    0 ≤ (ofKeys keys initialValue mem).Size ∧
    (ofKeys keys initialValue mem).Size ≤ (ofKeys keys initialValue mem).Capacity ∧
    IndexInRange (ofKeys keys initialValue mem) := by
  have hs := fillLoop_size initialValue keys 0
    { HeapArray := mem, Size := keys.length, Capacity := keys.length, UMap := fun _ => none }
  have e1 : (ofKeys keys initialValue mem).Size = keys.length := hs.1
  have e2 : (ofKeys keys initialValue mem).Capacity = keys.length := hs.2
  refine ⟨by rw [e1]; omega, by rw [e1, e2], ?_⟩
  intro k p hp
  rw [e2]
  rcases fillLoop_positions initialValue keys 0 _ k p hp with h | h
  · exact Option.noConfusion h
  · omega

/-- In a state with `0 ≤ Size ≤ Capacity` and positions in range, the three
public operations run to completion, whatever the key and the value. -/
theorem inRange_terminates (q : minqueue K V) (hcap : q.Size ≤ q.Capacity)
    (hin : IndexInRange q) (key : K) (value : V) :
    q.minfront ≠ Outcome.diverged ∧ q.minpop ≠ Outcome.diverged ∧
      q.pushinorder key value ≠ Outcome.diverged := by
  refine ⟨?_, minpop_ne_diverged q,
    pushinorder_ne_diverged q key value hcap (fun p hp => (hin key p hp).1)⟩
  unfold minfront
  split_ifs <;> exact fun h => Outcome.noConfusion h

/-- C17: every public operation runs to completion.  First, on every state with
`0 ≤ Size ≤ Capacity` in which the position index maps the key passed to
`pushinorder`, if at all, to a slot of the buffer of a queue that is not empty
(so that every access of the call stays inside the buffer), with
`2 * Capacity + 2` inside the type `int` (so that no index arithmetic wraps
around): `minfront`, `minpop` and `pushinorder` end; the loop of `_percolateUp`
ends, and a pass that swaps moves to a smaller non-negative index; the loop of
`_percolateDown` ends, a pass that swaps moves to a larger index below `Size`,
and the loop stops once `2 * index + 1 ≥ Size`; `pushinorder` on a key of the
position index makes one nested call, which takes the insert branch and returns
without a further call, so that a nesting depth of two is all that is ever
used.  Second (last two parts), every sequence of `pushinorder` and `minpop`
calls on a constructed queue runs to completion, call by call, and in the state
it produces `0 ≤ Size ≤ Capacity` holds and the three operations run to
completion for every key and value. -/
theorem operations_terminate (q : minqueue K V) (key : K) (value : V)
    (hsize : 0 ≤ q.Size) (hcap : q.Size ≤ q.Capacity)
    (hint : 2 * q.Capacity + 2 ≤ INT_MAX)
    (hidx : ∀ p ∈ q.UMap key, 0 ≤ p ∧ p < q.Capacity ∧ 0 < q.Size) :
    (q.minfront ≠ Outcome.diverged ∧ q.minpop ≠ Outcome.diverged ∧
      q.pushinorder key value ≠ Outcome.diverged) ∧
    (∀ (s : minqueue K V) (i : Int), s.Capacity = q.Capacity → 0 ≤ i → i < q.Capacity →
      ∃ r, s._percolateUp i = some r ∧ 0 ≤ r.2 ∧ r.2 ≤ i) ∧
    (∀ (s : minqueue K V) (i : Int) (fuel : Nat), s.Capacity = q.Capacity →
      i < q.Capacity → upMoves s i →
      percolateUpLoop (fuel + 1) s i =
          percolateUpLoop fuel (swapStep s i ((i - 1) / 2)) ((i - 1) / 2) ∧
        0 ≤ (i - 1) / 2 ∧ (i - 1) / 2 < i) ∧
    (∀ (s : minqueue K V) (i : Int), s.Capacity = q.Capacity → s.Size ≤ q.Capacity →
      0 ≤ i → i < q.Capacity → ∃ r, s._percolateDown i = some r ∧ i ≤ r.2) ∧
    (∀ (s : minqueue K V) (i m : Int) (fuel : Nat), s.Capacity = q.Capacity →
      s.Size ≤ q.Capacity → 0 ≤ i → 2 * i + 1 < s.Size →
      percolateDownLoop (fuel + 1) s i m = some (s, i) ∨
      (percolateDownLoop (fuel + 1) s i m =
          percolateDownLoop fuel (swapStep s i (scanChildren s i (2 * i + 1) m).2)
            (scanChildren s i (2 * i + 1) m).2 (scanChildren s i (2 * i + 1) m).2 ∧
        i < (scanChildren s i (2 * i + 1) m).2 ∧
        (scanChildren s i (2 * i + 1) m).2 < s.Size)) ∧
    (∀ (s : minqueue K V) (i m : Int) (fuel : Nat), s.Capacity = q.Capacity →
      0 ≤ i → i < q.Capacity → s.Size ≤ 2 * i + 1 →
      percolateDownLoop (fuel + 1) s i m = some (s, i)) ∧
    (∀ depth : Nat, pushinorderDepth (depth + 2) q key value = q.pushinorder key value) ∧
    (q.UMap key ≠ none →
      ∃ qd q1, q._delete key = some qd ∧
        Function.update qd.UMap key none key = none ∧
        pushinorderDepth 1 { qd with UMap := Function.update qd.UMap key none } key value =
          Outcome.returned q1 () ∧
        q.pushinorder key value = Outcome.returned q1 ()) ∧
    (∀ (capacity : Int) (mem : Int → KeyValuePair K V) (cs : List (Call K V)),
      0 ≤ capacity → 2 * capacity + 2 ≤ INT_MAX →
      ∃ q1, (ofCapacity capacity mem).calls cs = some q1 ∧
        0 ≤ q1.Size ∧ q1.Size ≤ q1.Capacity ∧ q1.Capacity = capacity ∧
        ∀ (k : K) (v : V), q1.minfront ≠ Outcome.diverged ∧
          q1.minpop ≠ Outcome.diverged ∧ q1.pushinorder k v ≠ Outcome.diverged) ∧
    (∀ (keys : List K) (initialValue : V) (mem : Int → KeyValuePair K V)
      (cs : List (Call K V)), 2 * (keys.length : Int) + 2 ≤ INT_MAX →
      ∃ q1, (ofKeys keys initialValue mem).calls cs = some q1 ∧
        0 ≤ q1.Size ∧ q1.Size ≤ q1.Capacity ∧ q1.Capacity = keys.length ∧
        ∀ (k : K) (v : V), q1.minfront ≠ Outcome.diverged ∧
          q1.minpop ≠ Outcome.diverged ∧ q1.pushinorder k v ≠ Outcome.diverged) := by
  have hlow : ∀ p ∈ q.UMap key, -1 ≤ p := fun p hp => by
    have := (hidx p hp).1
    omega
  refine ⟨⟨?_, minpop_ne_diverged q, pushinorder_ne_diverged q key value hcap hlow⟩,
    ?_, ?_, ?_, ?_, ?_, ?_, ?_, ?_, ?_⟩
  · unfold minfront
    split_ifs <;> exact fun h => Outcome.noConfusion h
  · intro s i _ hi _
    obtain ⟨r, hr, hr0⟩ := percolateUp_terminates s i
    exact ⟨r, hr, hr0 hi, percolateUpLoop_index_le _ _ _ r hr⟩
  · intro s i fuel _ _ hm
    refine ⟨?_, ?_, ?_⟩
    · rw [percolateUpLoop_succ]
      simp only [hm.1, hm.2, if_true]
    · have := hm.1; omega
    · have := hm.1; omega
  · intro s i _ _ hi _
    obtain ⟨r, hr⟩ := percolateDown_terminates s i hi
    exact ⟨r, hr, percolateDownLoop_index_ge _ _ _ _ r hr hi⟩
  · intro s i m fuel _ _ hi hc
    rw [percolateDownLoop_succ]
    simp only [hc, if_true]
    rcases scanChildren_cases s i (2 * i + 1) m hc with ⟨hst, _, _⟩ | ⟨hpos, hst, hlt, _, _⟩
    · left
      have hcond : (scanChildren s i (2 * i + 1) m).1.Value = (s.HeapArray i).Value ∧
          (scanChildren s i (2 * i + 1) m).1.Key = (s.HeapArray i).Key := by
        rw [hst]; exact ⟨rfl, rfl⟩
      simp only [hcond, and_self, if_true]
    · right
      have hcond : ¬ ((scanChildren s i (2 * i + 1) m).1.Value = (s.HeapArray i).Value ∧
          (scanChildren s i (2 * i + 1) m).1.Key = (s.HeapArray i).Key) := by
        rintro ⟨e1, e2⟩
        have e3 := eq_of_fields e1 e2
        rw [hst] at e3
        unfold hkey at hlt
        rw [e3] at hlt
        exact lt_irrefl _ hlt
      simp only [hcond, if_false]
      exact ⟨trivial, by omega, by omega⟩
  · intro s i m fuel _ _ _ hc
    rw [percolateDownLoop_succ]
    have : ¬ 2 * i + 1 < s.Size := by omega
    simp only [this, if_false]
  · exact fun depth => pushinorderDepth_stable depth q key value
  · exact fun hU => pushinorder_update_returns q key value hcap hlow hU
  · intro capacity mem cs h0 _
    obtain ⟨q1, hq1, hs1, hc1, hin1⟩ := calls_reached cs (ofCapacity capacity mem)
      (le_refl _) h0 (fun k p hp => Option.noConfusion hp)
    exact ⟨q1, hq1, hs1, hc1, (calls_capacity cs _ q1 hq1).1,
      fun k v => inRange_terminates q1 hc1 hin1 k v⟩
  · intro keys initialValue mem cs _
    obtain ⟨h0, h1, h2⟩ := ofKeys_inRange keys initialValue mem
    obtain ⟨q1, hq1, hs1, hc1, hin1⟩ := calls_reached cs _ h0 h1 h2
    have e2 : (ofKeys keys initialValue mem).Capacity = keys.length :=
      (fillLoop_size initialValue keys 0
        { HeapArray := mem, Size := keys.length, Capacity := keys.length,
          UMap := fun _ => none }).2
    exact ⟨q1, hq1, hs1, hc1, ((calls_capacity cs _ q1 hq1).1).trans e2,
      fun k v => inRange_terminates q1 hc1 hin1 k v⟩

theorem operations_terminate_witness :
    0 ≤ fullQueue.Size ∧ fullQueue.Size ≤ fullQueue.Capacity ∧
    2 * fullQueue.Capacity + 2 ≤ INT_MAX ∧
    (∀ p ∈ fullQueue.UMap 2, 0 ≤ p ∧ p < fullQueue.Capacity ∧ 0 < fullQueue.Size) ∧
    fullQueue.minfront ≠ Outcome.diverged ∧ fullQueue.minpop ≠ Outcome.diverged ∧
      fullQueue.pushinorder 2 1 ≠ Outcome.diverged :=
  ⟨by decide, by decide, by decide, by decide,
    (operations_terminate fullQueue 2 1 (by decide) (by decide) (by decide) (by decide)).1⟩

end minqueue
